import Mathlib

/-!
# PhiComp core: Fibonacci context model, RGBD bias, quantizer, arithmetic coder, container

A shallow embedding of `phiresearch_compression/core/fcm_core.{h,cpp}`.

Conventions of the embedding.

* `double` values (model, bias, quantizer) are elements of an arbitrary linearly ordered
  field `F` with a floor function, so every operation on them is exact
  (take `F = ℚ` to run the definitions, `F = ℝ` for the golden ratio).
* The `long double` expressions of the coder (the narrowing offsets and `scaled`) have
  integer operands; they are evaluated with the rounding of the x87 extended format
  of the x86-64 Linux target: a 64-bit significand, round to nearest, ties to even.
* `uint64_t`, `uint32_t`, `uint16_t` and `uint8_t` values are natural numbers reduced
  modulo `2^64`, `2^32`, `2^16`, `2^8` wherever the C++ operation can wrap.
* `std::map` is a partial function, `std::vector`/`std::deque`/`std::string` a list.
* A `while` loop whose trip count is not syntactically bounded takes a fuel argument
  and returns `none` when the fuel runs out.
* An exception is a value of `Except Error`. Storage is requested with a size taken from
  the input at one place, `output_data.reserve(original_size)` in `decode`; its two
  exceptions are part of the model. Every other allocation is taken to succeed.
-/

namespace phicomp
namespace core

/-! ## Types of `fcm_core.h` -/

/-- `using Symbol = uint8_t`. -/
abbrev Symbol := Fin 256

/-- `using ContextKey = std::string`. -/
abbrev ContextKey := List Symbol

/-- `using SymbolCounts = std::map<Symbol, uint32_t>`. -/
abbrev SymbolCounts := Symbol → Option Nat

/-- `using ContextTree = std::map<ContextKey, SymbolCounts>`. -/
abbrev ContextTree := ContextKey → Option SymbolCounts

/-- The exceptions thrown by the core and by the container functions. -/
inductive Error where
  /-- `std::invalid_argument("Fibonacci orders cannot be empty.")` -/
  | invalid_argument_orders_empty
  /-- `std::runtime_error("Invalid PhiComp data: header too short.")` -/
  | runtime_error_header_too_short
  /-- `std::runtime_error("Invalid PhiComp data: magic number mismatch.")` -/
  | runtime_error_magic_mismatch
  /-- `std::runtime_error("Decompression failed: size mismatch.")` -/
  | runtime_error_size_mismatch
  /-- `std::length_error` thrown by `std::vector::reserve` -/
  | length_error_vector_reserve
  /-- `std::bad_alloc` thrown by `std::vector::reserve` -/
  | bad_alloc
  deriving DecidableEq, Repr

/-- Unsigned 64-bit addition. -/
def add64 (a b : Nat) : Nat := (a + b) % 2 ^ 64

/-- Unsigned 64-bit subtraction. -/
def sub64 (a b : Nat) : Nat := (a + (2 ^ 64 - b % 2 ^ 64)) % 2 ^ 64

/-- Unsigned 64-bit left shift by one. -/
def shl64 (a : Nat) : Nat := (a <<< 1) % 2 ^ 64

/-! ## `FibonacciContextModel` -/

/-- The data members of `class FibonacciContextModel`. -/
structure FibonacciContextModel (F : Type) where
  fib_orders : List Nat
  max_order : Nat
  context_models : List ContextTree
  history : List Symbol
  phi : F

/-- The default constructor argument `{2, 3, 5, 8, 13}`. -/
def default_orders : List Nat := [2, 3, 5, 8, 13]

/-- The constructor `FibonacciContextModel(orders)`; `GOLDEN_RATIO` is the global
constant `(1.0 + std::sqrt(5.0)) / 2.0`, passed in as a field element. -/
def FibonacciContextModel.new {F : Type} ( GOLDEN_RATIO : F) (orders : List Nat) :
    Except Error (FibonacciContextModel F) :=
  if orders = [] then
    Except.error Error.invalid_argument_orders_empty
  else
    Except.ok
      { fib_orders := orders
        max_order := orders.getLastD 0
        context_models := List.replicate orders.length (fun _ => none)
        history := []
        phi := GOLDEN_RATIO }

/-- The declaration `FibonacciContextModel model;` used by `encode` and `decode`:
the constructor run on the default orders (which are not empty, so it does not throw). -/
def FibonacciContextModel.default {F : Type} ( GOLDEN_RATIO : F) : FibonacciContextModel F :=
  { fib_orders := default_orders
    max_order := default_orders.getLastD 0
    context_models := List.replicate default_orders.length (fun _ => none)
    history := []
    phi := GOLDEN_RATIO }

/-- `ContextKey context(history.begin() + (history.size() - order), history.end())`. -/
def context_of (history : List Symbol) (order : Nat) : ContextKey :=
  history.drop (history.length - order)

/-- `counts[symbol]++` on a `std::map<Symbol, uint32_t>`: a missing entry is created
with value 0 and then incremented, modulo `2^32`. -/
def increment_count (counts : SymbolCounts) (symbol : Symbol) : SymbolCounts :=
  Function.update counts symbol (some (((counts symbol).getD 0 + 1) % 2 ^ 32))

/-- `tree[context][symbol]++`: a missing context is created empty first. -/
def increment_context (tree : ContextTree) (context : ContextKey) (symbol : Symbol) :
    ContextTree :=
  Function.update tree context
    (some (increment_count ((tree context).getD (fun _ => none)) symbol))

/-- The `for` loop of `update` over `i`, walking `fib_orders` and `context_models`
side by side; every context is taken from the same (pre-update) history. -/
def update_tables (history : List Symbol) (symbol : Symbol) :
    List Nat → List ContextTree → List ContextTree
  | order :: orders, tree :: trees =>
      (if history.length ≥ order then
          increment_context tree (context_of history order) symbol
        else tree) :: update_tables history symbol orders trees
  | [], trees => trees
  | _ :: _, [] => []

/-- `FibonacciContextModel::update`. -/
def FibonacciContextModel.update {F : Type} (m : FibonacciContextModel F) (symbol : Symbol) :
    FibonacciContextModel F :=
  let pushed := m.history ++ [symbol]
  { m with
    context_models := update_tables m.history symbol m.fib_orders m.context_models
    history := if pushed.length > m.max_order then pushed.tail else pushed }

/-- `uint32_t context_total`: the sum of the stored counts, modulo `2^32`. -/
def context_total (counts : SymbolCounts) : Nat :=
  (∑ s : Symbol, (counts s).getD 0) % 2 ^ 32

/-- The body of the `for (int i = ...)` loop of `get_probabilities` for one index `i`
with `order = fib_orders[i]` and `tree = context_models[i]`; the accumulator is
`(final_probabilities, total_weight)`. -/
def mix_context {F : Type} [LinearOrderedField F] (phi : F) (history : List Symbol)
    (i order : Nat) (tree : ContextTree) (acc : (Symbol → F) × F) : (Symbol → F) × F :=
  if history.length < order then acc
  else
    match tree (context_of history order) with
    | none => acc
    | some counts =>
      let weight : F := phi ^ i
      if context_total counts > 0 then
        (fun k =>
          match counts k with
          | some c => acc.1 k + weight * ((c : F) / (context_total counts : F))
          | none => acc.1 k,
         acc.2 + weight)
      else acc

/-- The loop `for (int i = fib_orders.size() - 1; i >= 0; --i)`: `mix_loop m n acc`
runs the body for `i = n - 1, n - 2, ..., 0` in that order. -/
def mix_loop {F : Type} [LinearOrderedField F] (m : FibonacciContextModel F) :
    Nat → (Symbol → F) × F → (Symbol → F) × F
  | 0, acc => acc
  | i + 1, acc =>
    mix_loop m i
      (match m.fib_orders[i]?, m.context_models[i]? with
       | some order, some tree => mix_context m.phi m.history i order tree acc
       | _, _ => acc)

/-- `FibonacciContextModel::get_probabilities`. -/
def FibonacciContextModel.get_probabilities {F : Type} [LinearOrderedField F]
    (m : FibonacciContextModel F) : Symbol → F :=
  let acc := mix_loop m m.fib_orders.length (fun _ => 0, 0)
  let escape_prob : F := m.phi ^ (-(m.fib_orders.length : ℤ))
  if acc.2 > 0 then
    fun k => (acc.1 k / acc.2) * (1 - escape_prob) + escape_prob / 256
  else
    fun k => acc.1 k + 1 / 256

/-- Whether the loop body of `get_probabilities` for index `i` reaches a context:
the history is at least `fib_orders[i]` long and `context_models[i].find(context)` is
not `end()`. -/
def FibonacciContextModel.matched_at {F : Type} (m : FibonacciContextModel F) (i : Nat) :
    Bool :=
  match m.fib_orders[i]?, m.context_models[i]? with
  | some order, some tree =>
    decide (order ≤ m.history.length) && (tree (context_of m.history order)).isSome
  | _, _ => false

/-- Whether some context matched during `get_probabilities`. -/
def FibonacciContextModel.context_matched {F : Type} (m : FibonacciContextModel F) : Bool :=
  (List.range m.fib_orders.length).any m.matched_at

/-- The sum of the counts stored in one `SymbolCounts`, without wraparound. -/
def count_sum (counts : SymbolCounts) : Nat := ∑ s : Symbol, (counts s).getD 0

/-- Every `SymbolCounts` stored in `tree` holds between 1 and `N` observations. -/
def counts_bounded (N : Nat) (tree : ContextTree) : Prop :=
  ∀ key counts, tree key = some counts → 1 ≤ count_sum counts ∧ count_sum counts ≤ N

/-- Every key of `tree` has length `order`, and every count stored under it is between 1
and `N`. -/
def tree_wellformed (order N : Nat) (tree : ContextTree) : Prop :=
  ∀ key counts, tree key = some counts →
    key.length = order ∧ ∀ s c, counts s = some c → 1 ≤ c ∧ c ≤ N

/-- The symbols `b, a, b, a, ...`: `n` copies of the pair `b, a`. -/
def alternate (b a : Symbol) : Nat → List Symbol
  | 0 => []
  | n + 1 => b :: a :: alternate b a n

/-- An input of `3 * 2^31 + 3` symbols: `2^31 + 1` zero bytes, then `2^31 + 1` times the
pair `01 00`. In it the byte 00 is followed `2^31` times by 00 and `2^31 + 1` times
by 01. -/
def overflow_input : List Symbol :=
  List.replicate (2 ^ 31 + 1) 0 ++ alternate 1 0 (2 ^ 31 + 1)

/-! ## `GlobalOptions` and `RGBDState` -/

/-- The process-wide `struct GlobalOptions`. -/
structure GlobalOptions (F : Type) where
  use_rgbd : Bool
  rgbd_phi_weight : F

/-- The process-wide `struct RGBDState`; the arrays are indexed `[t][x][y]`. -/
structure RGBDState where
  visits : Nat → Nat → Nat → Nat
  last_symbol : Nat → Nat → Nat → Symbol
  fib_n : Nat
  fib_np1 : Nat
  index : Nat

/-- The value-initialised `RGBDState()`. -/
def RGBDState.reset : RGBDState :=
  { visits := fun _ _ _ => 0
    last_symbol := fun _ _ _ => 0
    fib_n := 0
    fib_np1 := 1
    index := 0 }

/-- Assignment to one cell of a three-dimensional array. -/
def set_cell {α : Type} (a : Nat → Nat → Nat → α) (t x y : Nat) (v : α) :
    Nat → Nat → Nat → α :=
  fun t1 x1 y1 => if t1 = t ∧ x1 = x ∧ y1 = y then v else a t1 x1 y1

/-- `RGBDState::advance_fib`. -/
def RGBDState.advance_fib (g : RGBDState) : RGBDState :=
  let next := ((g.fib_n + g.fib_np1) % 2 ^ 32) % 10
  { g with fib_n := g.fib_np1, fib_np1 := next }

/-- `RGBDState::update`. -/
def RGBDState.update (g : RGBDState) (symbol : Symbol) : RGBDState :=
  let x := g.fib_n % 10
  let y := g.fib_np1 % 10
  let t := g.index % 60
  let g1 : RGBDState :=
    { g with
      last_symbol := set_cell g.last_symbol t x y symbol
      visits := if g.visits t x y < 0xFFFF then set_cell g.visits t x y (g.visits t x y + 1)
                else g.visits }
  let g2 := g1.advance_fib
  { g2 with index := (g2.index + 1) % 2 ^ 64 }

/-- `RGBDState::apply_bias`, returning the new contents of `probabilities`. -/
def RGBDState.apply_bias {F : Type} [LinearOrderedField F] (opts : GlobalOptions F)
    (g : RGBDState) (probabilities : Symbol → F) : Symbol → F :=
  if !opts.use_rgbd || g.index == 0 then probabilities
  else
    let x := g.fib_n % 10
    let y := g.fib_np1 % 10
    let t := g.index % 60
    let v := g.visits t x y
    if v = 0 then probabilities
    else
      let sym := g.last_symbol t x y
      let w : F := opts.rgbd_phi_weight * (v : F) / ((v : F) + 10)
      let biased : Symbol → F := Function.update probabilities sym (probabilities sym + w)
      let sum : F := ∑ k : Symbol, biased k
      if sum > 0 then fun k => biased k / sum else biased

/-! ## The probability quantizer (inlined in `encode` and in `decode`) -/

/-- `const uint32_t TOTAL_FREQ = 1u << 16`. -/
def TOTAL_FREQ : Nat := 65536

/-- "Floor tiny/negative and renormalize": entries `≤ 0` become `1e-12`, then the
vector is divided by its sum (or set to `1/256` when the sum is not positive). -/
def floor_and_renormalize {F : Type} [LinearOrderedField F] (probabilities : Symbol → F) :
    Symbol → F :=
  let floored : Symbol → F := fun k => if probabilities k ≤ 0 then 1 / 10 ^ 12 else probabilities k
  let sum_prob : F := ∑ k : Symbol, floored k
  if sum_prob ≤ 0 then fun _ => 1 / 256 else fun k => floored k / sum_prob

/-- `double raw = probabilities[i] * (double)TOTAL_FREQ`. -/
def raw_value {F : Type} [LinearOrderedField F] (probabilities : Symbol → F) (k : Symbol) : F :=
  probabilities k * (TOTAL_FREQ : F)

/-- `uint32_t base = (uint32_t)std::floor(raw); if (base < 1) base = 1;`. -/
def base_freq {F : Type} [LinearOrderedField F] [FloorRing F] (probabilities : Symbol → F)
    (k : Symbol) : Nat :=
  let base := ⌊raw_value probabilities k⌋₊ % 2 ^ 32
  if base < 1 then 1 else base

/-- `frac[i] = raw - std::floor(raw)`. -/
def frac_of {F : Type} [LinearOrderedField F] [FloorRing F] (probabilities : Symbol → F)
    (k : Symbol) : F :=
  raw_value probabilities k - (⌊raw_value probabilities k⌋ : F)

/-- `idx` after `std::stable_sort` with comparator `frac[a] > frac[b]` on `0, 1, ..., 255`. -/
def sort_frac_descending {F : Type} [LinearOrderedField F] (frac : Symbol → F) : List Symbol :=
  List.insertionSort (fun a b => frac a ≥ frac b) (List.finRange 256)

/-- `idx` after `std::stable_sort` with comparator `frac[a] < frac[b]` on `0, 1, ..., 255`. -/
def sort_frac_ascending {F : Type} [LinearOrderedField F] (frac : Symbol → F) : List Symbol :=
  List.insertionSort (fun a b => frac a ≤ frac b) (List.finRange 256)

/-- `for (uint32_t k = 0; k < rem; ++k) freq[idx[k % 256]]++;`. -/
def distribute_deficit (idx : List Symbol) (rem : Nat) (freq : Symbol → Nat) : Symbol → Nat :=
  (List.range rem).foldl
    (fun f k => Function.update f (idx.getD (k % 256) 0) (f (idx.getD (k % 256) 0) + 1)) freq

/-- The loop `while (over > 0) { id = idx[k % 256]; if (freq[id] > 1) { freq[id]--; --over; } ++k; }`
with arguments fuel, `freq`, `over`, `k`. -/
def remove_surplus (idx : List Symbol) : Nat → (Symbol → Nat) → Nat → Nat → Option (Symbol → Nat)
  | _, freq, 0, _ => some freq
  | 0, _, _ + 1, _ => none
  | fuel + 1, freq, over + 1, k =>
    if freq (idx.getD (k % 256) 0) > 1 then
      remove_surplus idx fuel
        (Function.update freq (idx.getD (k % 256) 0) (freq (idx.getD (k % 256) 0) - 1)) over (k + 1)
    else
      remove_surplus idx fuel freq (over + 1) (k + 1)

/-- The quantizer: from `probabilities` (after the bias) to the array `freq`.
`sum_f` is 64-bit (256 terms below `2^32` cannot wrap it); `rem` and `over` are computed
from `(uint32_t)sum_f`. The surplus loop gets `256 * over` units of fuel. -/
def quantize {F : Type} [LinearOrderedField F] [FloorRing F] (probabilities : Symbol → F) :
    Option (Symbol → Nat) :=
  let normalized := floor_and_renormalize probabilities
  let freq := base_freq normalized
  let frac := frac_of normalized
  let sum_f : Nat := ∑ k : Symbol, freq k
  if sum_f < TOTAL_FREQ then
    some (distribute_deficit (sort_frac_descending frac) (TOTAL_FREQ - sum_f % 2 ^ 32) freq)
  else if sum_f > TOTAL_FREQ then
    remove_surplus (sort_frac_ascending frac) (256 * (sum_f % 2 ^ 32 - TOTAL_FREQ)) freq
      (sum_f % 2 ^ 32 - TOTAL_FREQ) 0
  else some freq

/-- `cum[0] = 0; cum[i + 1] = cum[i] + freq[i]` for `i < 256`. -/
def cumulative (freq : Symbol → Nat) : Nat → Nat
  | 0 => 0
  | i + 1 => cumulative freq i + (if h : i < 256 then freq ⟨i, h⟩ else 0)

/-! ## `ArithmeticCoder` -/

/-- `TOP_VALUE = ~0ULL`. -/
def TOP_VALUE : Nat := 2 ^ 64 - 1

/-- `HALF = 1ULL << 63`. -/
def HALF : Nat := 2 ^ 63

/-- `FIRST_QUARTER = 1ULL << 62`. -/
def FIRST_QUARTER : Nat := 2 ^ 62

/-- `THIRD_QUARTER = 3ULL << 62`. -/
def THIRD_QUARTER : Nat := 3 * 2 ^ 62

/-- The data members of `class ArithmeticCoder`. `bit_buffer` holds one bit per element
(`write_bit` is only ever called with 0 or 1); `input_buffer` is the vector that
`input_buffer_ptr` points to. -/
structure ArithmeticCoder where
  low : Nat
  high : Nat
  pending_bits : Nat
  code_value : Nat
  bit_buffer : List Bool
  input_buffer : List Symbol
  bit_idx : Nat

/-- `ArithmeticCoder::write_bit`. -/
def ArithmeticCoder.write_bit (c : ArithmeticCoder) (bit : Bool) : ArithmeticCoder :=
  { c with bit_buffer := c.bit_buffer ++ [bit] }

/-- `ArithmeticCoder::flush_encoder`: `pending_bits++`, one bit that is 1 iff
`low >= 2^62`, then `pending_bits - 1` (64-bit) copies of its complement. -/
def ArithmeticCoder.flush_encoder (c : ArithmeticCoder) : ArithmeticCoder :=
  let c1 := { c with pending_bits := add64 c.pending_bits 1 }
  let bit : Bool := if c1.low < 2 ^ 62 then false else true
  let c2 := c1.write_bit bit
  (fun (d : ArithmeticCoder) => d.write_bit (!bit))^[sub64 c2.pending_bits 1] c2

/-- `ArithmeticCoder::read_bit`: the bit and the coder with its cursor advanced. -/
def ArithmeticCoder.read_bit (c : ArithmeticCoder) : Nat × ArithmeticCoder :=
  if c.bit_idx ≥ c.input_buffer.length * 8 then (0, c)
  else
    let byte_pos := c.bit_idx / 8
    let bit_pos_in_byte := 7 - c.bit_idx % 8
    (((c.input_buffer.getD byte_pos 0).val >>> bit_pos_in_byte) &&& 1,
     { c with bit_idx := c.bit_idx + 1 })

/-- The inner loop of the packing code: the byte made of bits `i .. i + 7`, first bit
in the most significant position, missing bits zero. -/
def pack_byte (bits : List Bool) (i : Nat) : Symbol :=
  Fin.ofNat
    ((List.range 8).foldl
      (fun byte j =>
        let shifted := (byte <<< 1) % 256
        if i + j < bits.length then shifted ||| (bits.getD (i + j) false).toNat else shifted)
      0)

/-- The loop `for (size_t i = 0; i < bit_buffer.size(); i += 8)` building `byte_output`:
it runs for `i = 0, 8, 16, ...`, that is `⌈size / 8⌉` times. -/
def pack_bits (bits : List Bool) : List Symbol :=
  (List.range ((bits.length + 7) / 8)).map (fun q => pack_byte bits (8 * q))

/-- The number of significand bits of `long double`: the x87 extended format of the
x86-64 Linux target (the build tree is `lib.linux-x86_64`). -/
def LDBL_MANT_DIG : Nat := 64

/-- The integer nearest to `num / den` (`den > 0`), ties going to the even one: the
rounding of every `long double` operation (round-to-nearest-even). -/
def round_half_even (num den : Nat) : Nat :=
  if 2 * (num % den) < den then num / den
  else if 2 * (num % den) > den then num / den + 1
  else if (num / den) % 2 = 0 then num / den else num / den + 1

/-- The `long double` nearest to the natural number `n`: `n` itself when it fits in the
significand, otherwise `n` rounded to its `LDBL_MANT_DIG` leading bits. -/
def round_ld (n : Nat) : Nat :=
  if n < 2 ^ LDBL_MANT_DIG then n
  else
    round_half_even n (2 ^ (Nat.log2 n + 1 - LDBL_MANT_DIG))
      * 2 ^ (Nat.log2 n + 1 - LDBL_MANT_DIG)

/-- For `n, r > 0`: the integer `⌊log2 (n / r)⌋`, the binary exponent of the quotient. -/
def floor_log2_quot (n r : Nat) : Int :=
  if r * 2 ^ ((Nat.log2 n : Int) - (Nat.log2 r : Int)).toNat
      ≤ n * 2 ^ ((Nat.log2 r : Int) - (Nat.log2 n : Int)).toNat then
    (Nat.log2 n : Int) - (Nat.log2 r : Int)
  else (Nat.log2 n : Int) - (Nat.log2 r : Int) - 1

/-- For `r > 0`: `std::floor` of the `long double` quotient `n / r`. The quotient is
rounded to `m * 2^e` with `e = ⌊log2 (n / r)⌋ - (LDBL_MANT_DIG - 1)` and `m` the integer
nearest to `n / (r * 2^e)`, ties to even; then the floor is taken. -/
def ld_div_floor (n r : Nat) : Nat :=
  if n = 0 then 0
  else
    round_half_even (n * 2 ^ ((LDBL_MANT_DIG : Int) - 1 - floor_log2_quot n r).toNat)
        (r * 2 ^ (floor_log2_quot n r - ((LDBL_MANT_DIG : Int) - 1)).toNat)
      * 2 ^ (floor_log2_quot n r - ((LDBL_MANT_DIG : Int) - 1)).toNat
      / 2 ^ ((LDBL_MANT_DIG : Int) - 1 - floor_log2_quot n r).toNat

/-- Range narrowing shared by `encode` and `decode`, on `(low, high)` with
`cum_lo = cum[symbol]` and `cum_hi = cum[symbol + 1]`. `range`, the sums and the
differences are 64-bit. An offset is
`(uint64_t)((long double)range * (long double)cum / (long double)TOTAL_FREQ)`: the two
conversions are exact, the product is rounded to `long double`, the division by `2^16`
is exact, and the conversion to `uint64_t` truncates (for `cum ≤ TOTAL_FREQ`, as in every
table of the quantizer, the quotient is below `2^64`). -/
def narrow (low high cum_lo cum_hi : Nat) : Nat × Nat :=
  let range := add64 (sub64 high low) 1
  let low_off := (round_ld (range * cum_lo) / TOTAL_FREQ) % 2 ^ 64
  let high_off := (round_ld (range * cum_hi) / TOTAL_FREQ) % 2 ^ 64
  let low1 := add64 low low_off
  let high1 := sub64 (sub64 (add64 low1 high_off) low_off) 1
  (low1, high1)

/-- The tail of every non-breaking iteration: `low <<= 1; high <<= 1; high |= 1;`. -/
def ArithmeticCoder.shift (c : ArithmeticCoder) : ArithmeticCoder :=
  { c with low := shl64 c.low, high := shl64 c.high ||| 1 }

/-- `write_bit(bit); while (pending_bits > 0) { write_bit(!bit); pending_bits--; }`. -/
def ArithmeticCoder.emit (c : ArithmeticCoder) (bit : Bool) : ArithmeticCoder :=
  { c with
    bit_buffer := c.bit_buffer ++ bit :: List.replicate c.pending_bits (!bit)
    pending_bits := 0 }

/-- The `while (true)` renormalisation loop of `encode`, with fuel. -/
def encode_renormalize : Nat → ArithmeticCoder → Option ArithmeticCoder
  | 0, _ => none
  | fuel + 1, c =>
    if c.high < HALF then
      encode_renormalize fuel (c.emit false).shift
    else if c.low ≥ HALF then
      let c1 := c.emit true
      encode_renormalize fuel
        ({ c1 with low := sub64 c1.low HALF, high := sub64 c1.high HALF }).shift
    else if c.low ≥ FIRST_QUARTER ∧ c.high < THIRD_QUARTER then
      encode_renormalize fuel
        ({ c with
           pending_bits := add64 c.pending_bits 1
           low := sub64 c.low FIRST_QUARTER
           high := sub64 c.high FIRST_QUARTER }).shift
    else some c

/-- The exit condition of the renormalisation loops on `(low, high)` together with
`low ≤ high`: none of E1 (`high < HALF`), E2 (`low >= HALF`), E3 (`low >= FIRST_QUARTER`
and `high < THIRD_QUARTER`) applies. -/
def renormalized (low high : Nat) : Prop :=
  low ≤ high ∧ high < 2 ^ 64 ∧ low < HALF ∧ HALF ≤ high ∧
    ¬ (FIRST_QUARTER ≤ low ∧ high < THIRD_QUARTER)

/-- Fuel handed to each run of a renormalisation loop. -/
def RENORM_FUEL : Nat := 65

/-- The statements `low = low + low_off; high = low + high_off - low_off - 1;` of
`encode` and `decode` applied to the coder. -/
def ArithmeticCoder.narrow_to (c : ArithmeticCoder) (cum_lo cum_hi : Nat) : ArithmeticCoder :=
  { c with
    low := (narrow c.low c.high cum_lo cum_hi).1
    high := (narrow c.low c.high cum_lo cum_hi).2 }

/-- One iteration of `for (Symbol symbol : data)` in `encode`, on the coder, the local
model and the global RGBD state: quantize the biased prediction, narrow, renormalise,
update the model and the RGBD state. -/
def encode_step {F : Type} [LinearOrderedField F] [FloorRing F] (opts : GlobalOptions F)
    (st : ArithmeticCoder × FibonacciContextModel F × RGBDState) (symbol : Symbol) :
    Option (ArithmeticCoder × FibonacciContextModel F × RGBDState) :=
  (quantize (st.2.2.apply_bias opts st.2.1.get_probabilities)).bind fun freq =>
    (encode_renormalize RENORM_FUEL
      (st.1.narrow_to (cumulative freq symbol.val) (cumulative freq (symbol.val + 1)))).map
      fun c1 => (c1, st.2.1.update symbol, st.2.2.update symbol)

/-- The loop `for (Symbol symbol : data)` of `encode`. -/
def encode_loop {F : Type} [LinearOrderedField F] [FloorRing F] (opts : GlobalOptions F) :
    List Symbol → ArithmeticCoder × FibonacciContextModel F × RGBDState →
    Option (ArithmeticCoder × FibonacciContextModel F × RGBDState)
  | [], st => some st
  | symbol :: rest, st => (encode_step opts st symbol).bind (encode_loop opts rest)

/-- The coder as `encode` sets it up: `low = 0; high = TOP_VALUE; pending_bits = 0;
bit_buffer.clear();`. -/
def ArithmeticCoder.encode_init (c : ArithmeticCoder) : ArithmeticCoder :=
  { c with low := 0, high := TOP_VALUE, pending_bits := 0, bit_buffer := [] }

/-- The end of `encode`: `flush_encoder()`, then the bits packed into `byte_output`. -/
def encode_finish {F : Type}
    (st : ArithmeticCoder × FibonacciContextModel F × RGBDState) :
    List Symbol × ArithmeticCoder × RGBDState :=
  (pack_bits st.1.flush_encoder.bit_buffer, st.1.flush_encoder, st.2.2)

/-- `ArithmeticCoder::encode`, called on coder object `c` while the global RGBD state
is `g`: the returned bytes, the coder and the global state afterwards. The global state
is overwritten by `RGBDState()` before anything reads it. -/
def ArithmeticCoder.encode {F : Type} [LinearOrderedField F] [FloorRing F]
    (opts : GlobalOptions F) ( GOLDEN_RATIO : F) (c : ArithmeticCoder) (_g : RGBDState)
    (data : List Symbol) : Option (List Symbol × ArithmeticCoder × RGBDState) :=
  (encode_loop opts data
    (c.encode_init, FibonacciContextModel.default GOLDEN_RATIO, RGBDState.reset)).map
    encode_finish

/-- The 64 steps `code_value = (code_value << 1) | read_bit()` (and the same statement
inside the renormalisation loop of `decode`). -/
def ArithmeticCoder.shift_in_bit (c : ArithmeticCoder) : ArithmeticCoder :=
  let r := c.read_bit
  { r.2 with code_value := shl64 r.2.code_value ||| r.1 }

/-- The `while (true)` renormalisation loop of `decode`, with fuel. -/
def decode_renormalize : Nat → ArithmeticCoder → Option ArithmeticCoder
  | 0, _ => none
  | fuel + 1, c =>
    if c.high < HALF then
      decode_renormalize fuel c.shift.shift_in_bit
    else if c.low ≥ HALF then
      decode_renormalize fuel
        ({ c with
           low := sub64 c.low HALF
           high := sub64 c.high HALF
           code_value := sub64 c.code_value HALF }).shift.shift_in_bit
    else if c.low ≥ FIRST_QUARTER ∧ c.high < THIRD_QUARTER then
      decode_renormalize fuel
        ({ c with
           low := sub64 c.low FIRST_QUARTER
           high := sub64 c.high FIRST_QUARTER
           code_value := sub64 c.code_value FIRST_QUARTER }).shift.shift_in_bit
    else some c

/-- The value `scaled` of `decode`. In `long double`,
`sv = ((code_value - low + 1) * TOTAL_FREQ - 1) / range`, then
`scaled = (uint32_t)floor(max(0, sv))`, clamped to `TOTAL_FREQ - 1`.
The conversions of `code_value` and `low`, the difference, the `+ 1` and the product
with `2^16` are exact; the `- 1` is rounded (`round_ld`) and so is the quotient
(`ld_div_floor`). A numerator `≤ 0` gives `sv ≤ 0` or `-∞`, which `max` turns into 0.
With `range = 0` and a positive numerator the quotient is `+∞`. Converting `+∞` or a
value `≥ 2^32` to `uint32_t` has no defined result: `oor none` stands for the result
on `+∞` and `oor (some q)` for the result on `q ≥ 2^32`. -/
def scaled_value (oor : Option Nat → Nat) (code_value low range : Nat) : Nat :=
  let num : Int := ((code_value : Int) - (low : Int) + 1) * (TOTAL_FREQ : Int) - 1
  let converted : Nat :=
    if num ≤ 0 then 0
    else if range = 0 then oor none
    else if ld_div_floor (round_ld num.toNat) range < 2 ^ 32 then
      ld_div_floor (round_ld num.toNat) range
    else oor (some (ld_div_floor (round_ld num.toNat) range))
  let scaled := converted % 2 ^ 32
  if scaled ≥ TOTAL_FREQ then TOTAL_FREQ - 1 else scaled

/-- The search `for (s = 0; s < 256; ++s) if (scaled < cum[s + 1]) { ...; break; }`
with the initial value `decoded_symbol = 255`. -/
def find_symbol (cum : Nat → Nat) (scaled : Nat) : Symbol :=
  ((List.finRange 256).find? (fun s => decide (scaled < cum (s.val + 1)))).getD 255

/-- The copy of the quantizer inlined in `decode` (lines 292-353), translated on its
own: floor and renormalise, base counts and fractions, then the deficit or the surplus
adjustment. -/
def decode_quantize {F : Type} [LinearOrderedField F] [FloorRing F]
    (probabilities : Symbol → F) : Option (Symbol → Nat) :=
  let floored : Symbol → F := fun j => if probabilities j ≤ 0 then 1 / 10 ^ 12 else probabilities j
  let sum_prob_d : F := ∑ j : Symbol, floored j
  let normalized : Symbol → F :=
    if sum_prob_d ≤ 0 then fun _ => 1 / 256 else fun j => floored j / sum_prob_d
  let raw : Symbol → F := fun j => normalized j * (TOTAL_FREQ : F)
  let freq : Symbol → Nat := fun j => if ⌊raw j⌋₊ % 2 ^ 32 < 1 then 1 else ⌊raw j⌋₊ % 2 ^ 32
  let frac : Symbol → F := fun j => raw j - (⌊raw j⌋ : F)
  let sum_f : Nat := ∑ j : Symbol, freq j
  if sum_f < TOTAL_FREQ then
    some ((List.range (TOTAL_FREQ - sum_f % 2 ^ 32)).foldl
      (fun f k =>
        Function.update f
          ((List.insertionSort (fun a b => frac a ≥ frac b) (List.finRange 256)).getD (k % 256) 0)
          (f ((List.insertionSort (fun a b => frac a ≥ frac b)
            (List.finRange 256)).getD (k % 256) 0) + 1))
      freq)
  else if sum_f > TOTAL_FREQ then
    remove_surplus (List.insertionSort (fun a b => frac a ≤ frac b) (List.finRange 256))
      (256 * (sum_f % 2 ^ 32 - TOTAL_FREQ)) freq (sum_f % 2 ^ 32 - TOTAL_FREQ) 0
  else some freq

/-- The symbol `decode` selects: `scaled` from `(code_value, low, range)` with the
64-bit `range = high - low + 1`, then the search in `cum`. -/
def decode_symbol (oor : Option Nat → Nat) (c : ArithmeticCoder) (freq : Symbol → Nat) :
    Symbol :=
  find_symbol (cumulative freq)
    (scaled_value oor c.code_value c.low (add64 (sub64 c.high c.low) 1))

/-- One iteration of `for (size_t i = 0; i < original_size; ++i)` in `decode`; the last
component is `output_data`. -/
def decode_step {F : Type} [LinearOrderedField F] [FloorRing F] (oor : Option Nat → Nat)
    (opts : GlobalOptions F)
    (st : ArithmeticCoder × FibonacciContextModel F × RGBDState × List Symbol) :
    Option (ArithmeticCoder × FibonacciContextModel F × RGBDState × List Symbol) :=
  (decode_quantize (st.2.2.1.apply_bias opts st.2.1.get_probabilities)).bind fun freq =>
    (decode_renormalize RENORM_FUEL
      (st.1.narrow_to (cumulative freq (decode_symbol oor st.1 freq).val)
        (cumulative freq ((decode_symbol oor st.1 freq).val + 1)))).map
      fun c1 =>
        (c1, st.2.1.update (decode_symbol oor st.1 freq),
          st.2.2.1.update (decode_symbol oor st.1 freq),
          st.2.2.2 ++ [decode_symbol oor st.1 freq])

/-- The loop `for (size_t i = 0; i < original_size; ++i)` of `decode`. -/
def decode_loop {F : Type} [LinearOrderedField F] [FloorRing F] (oor : Option Nat → Nat)
    (opts : GlobalOptions F) :
    Nat → ArithmeticCoder × FibonacciContextModel F × RGBDState × List Symbol →
    Option (ArithmeticCoder × FibonacciContextModel F × RGBDState × List Symbol)
  | 0, st => some st
  | n + 1, st => (decode_step oor opts st).bind (decode_loop oor opts n)

/-- The coder as `decode` sets it up: `input_buffer_ptr = &compressed_data; bit_idx = 0;
code_value = 0;`, 64 times `code_value = (code_value << 1) | read_bit()`, then
`low = 0; high = TOP_VALUE;`. -/
def ArithmeticCoder.decode_init (c : ArithmeticCoder) (compressed_data : List Symbol) :
    ArithmeticCoder :=
  { (ArithmeticCoder.shift_in_bit)^[64]
      { c with input_buffer := compressed_data, bit_idx := 0, code_value := 0 } with
    low := 0, high := TOP_VALUE }

/-- The result of finishing the loop of `decode`: the returned symbols, the coder and
the global state afterwards. -/
def decode_finish {F : Type}
    (st : ArithmeticCoder × FibonacciContextModel F × RGBDState × List Symbol) :
    Except Error (List Symbol × ArithmeticCoder × RGBDState) :=
  Except.ok (st.2.2.2, st.1, st.2.2.1)

/-- `ArithmeticCoder::decode`, called on coder object `c` while the global RGBD state
is `g`: the returned symbols, the coder and the global state afterwards, or the
exception thrown. `output_data.reserve(original_size)` on the empty vector throws
`std::length_error` when `original_size > max_size()` and `std::bad_alloc` when the
storage cannot be obtained; `max_size` is the value of `vector::max_size()` and
`alloc n` tells whether storage for `n` symbols can be obtained. After a successful
`reserve` no `push_back` of the loop reallocates. The coder and the global state that a
throwing call leaves behind are not represented. -/
def ArithmeticCoder.decode {F : Type} [LinearOrderedField F] [FloorRing F]
    (max_size : Nat) (alloc : Nat → Bool)
    (oor : Option Nat → Nat) (opts : GlobalOptions F) ( GOLDEN_RATIO : F)
    (c : ArithmeticCoder) (g : RGBDState) (compressed_data : List Symbol)
    (original_size : Nat) :
    Option (Except Error (List Symbol × ArithmeticCoder × RGBDState)) :=
  if original_size = 0 then some (Except.ok ([], c, g))
  else if original_size > max_size then some (Except.error Error.length_error_vector_reserve)
  else if alloc original_size = false then some (Except.error Error.bad_alloc)
  else
    (decode_loop oor opts original_size
      (c.decode_init compressed_data, FibonacciContextModel.default GOLDEN_RATIO,
        RGBDState.reset, [])).map
      decode_finish

/-! ## Internal API and the container functions of the binding -/

/-- `compress_internal`: `ArithmeticCoder coder; return coder.encode(data);`. The
members of the new coder object are not initialised; `coder` stands for their contents. -/
def compress_internal {F : Type} [LinearOrderedField F] [FloorRing F]
    (opts : GlobalOptions F) ( GOLDEN_RATIO : F) (coder : ArithmeticCoder) (g : RGBDState)
    (data : List Symbol) : Option (List Symbol) :=
  (ArithmeticCoder.encode opts GOLDEN_RATIO coder g data).map (fun r => r.1)

/-- The check of `decompress_internal` on the decoded data. -/
def check_size (original_size : Nat) (decompressed_data : List Symbol) :
    Except Error (List Symbol) :=
  if decompressed_data.length ≠ original_size then
    Except.error Error.runtime_error_size_mismatch
  else Except.ok decompressed_data

/-- `decompress_internal`: decode with a new coder object (an exception of `decode`
propagates), then throw on a size mismatch. -/
def decompress_internal {F : Type} [LinearOrderedField F] [FloorRing F]
    (max_size : Nat) (alloc : Nat → Bool)
    (oor : Option Nat → Nat) (opts : GlobalOptions F) ( GOLDEN_RATIO : F)
    (coder : ArithmeticCoder) (g : RGBDState) (data : List Symbol) (original_size : Nat) :
    Option (Except Error (List Symbol)) :=
  (ArithmeticCoder.decode max_size alloc oor opts GOLDEN_RATIO coder g data original_size).map
    fun r => r.bind (fun decoded => check_size original_size decoded.1)

/-- The bytes of `"PHIC"`. -/
def MAGIC : List Symbol := [80, 72, 73, 67]

/-- The header of `compress_main`: `"PHIC\x01\x01"` resized to 14 bytes, then
`header[6 + i] = (original_size >> (i * 8)) & 0xFF` for `i = 0 .. 7`. -/
def make_header (original_size : Nat) : List Symbol :=
  (List.range 8).foldl
    (fun header i => header.set (6 + i) (Fin.ofNat ((original_size >>> (i * 8)) &&& 0xFF)))
    (MAGIC ++ [1, 1] ++ List.replicate 8 0)

/-- The lambda bound to `compress_main`. -/
def compress_main {F : Type} [LinearOrderedField F] [FloorRing F]
    (opts : GlobalOptions F) ( GOLDEN_RATIO : F) (coder : ArithmeticCoder) (g : RGBDState)
    (data_vec : List Symbol) : Option (List Symbol) :=
  (compress_internal opts GOLDEN_RATIO coder g data_vec).map
    fun compressed_body => make_header (data_vec.length % 2 ^ 64) ++ compressed_body

/-- The size parser of `decompress_main`:
`original_size |= uint64_t(data_str[6 + i]) << (i * 8)` for `i = 0 .. 7`. -/
def parse_size (data_str : List Symbol) : Nat :=
  (List.range 8).foldl
    (fun original_size i => original_size ||| (((data_str.getD (6 + i) 0).val <<< (i * 8)) % 2 ^ 64))
    0

/-- The lambda bound to `decompress_main`. -/
def decompress_main {F : Type} [LinearOrderedField F] [FloorRing F]
    (max_size : Nat) (alloc : Nat → Bool)
    (oor : Option Nat → Nat) (opts : GlobalOptions F) ( GOLDEN_RATIO : F)
    (coder : ArithmeticCoder) (g : RGBDState) (data_str : List Symbol) :
    Option (Except Error (List Symbol)) :=
  if data_str.length < 14 then some (Except.error Error.runtime_error_header_too_short)
  else if data_str.take 4 ≠ MAGIC then some (Except.error Error.runtime_error_magic_mismatch)
  else
    decompress_internal max_size alloc oor opts GOLDEN_RATIO coder g (data_str.drop 14)
      (parse_size data_str)

/-! ## Lemmas on the quantizer -/

theorem sum_update_add (f : Symbol → Nat) (a : Symbol) (v : Nat) :
    (∑ s : Symbol, Function.update f a v s) + f a = (∑ s : Symbol, f s) + v := by
  rw [Finset.sum_update_of_mem (Finset.mem_univ a),
    Finset.sum_eq_add_sum_diff_singleton (Finset.mem_univ a) f]
  ring

theorem distribute_deficit_spec (idx : List Symbol) (rem : Nat) (freq : Symbol → Nat) :
    (∑ s : Symbol, distribute_deficit idx rem freq s) = (∑ s : Symbol, freq s) + rem
    ∧ ∀ s, freq s ≤ distribute_deficit idx rem freq s := by
  induction rem with
  | zero => simp [distribute_deficit]
  | succ n ih =>
    have hstep : distribute_deficit idx (n + 1) freq
        = Function.update (distribute_deficit idx n freq) (idx.getD (n % 256) 0)
            (distribute_deficit idx n freq (idx.getD (n % 256) 0) + 1) := by
      simp [distribute_deficit, List.range_succ, List.foldl_append]
    rw [hstep]
    constructor
    · have h := sum_update_add (distribute_deficit idx n freq) (idx.getD (n % 256) 0)
        (distribute_deficit idx n freq (idx.getD (n % 256) 0) + 1)
      rw [ih.1] at h
      linarith
    · intro s
      by_cases hs : s = idx.getD (n % 256) 0
      · subst hs
        simp only [Function.update_same]
        exact Nat.le_succ_of_le (ih.2 _)
      · rw [Function.update_noteq hs]
        exact ih.2 s

theorem exists_gt_one_of_sum_gt (freq : Symbol → Nat) (h : 256 < ∑ s : Symbol, freq s) :
    ∃ s, 1 < freq s := by
  by_contra hno
  push_neg at hno
  have hle : (∑ s : Symbol, freq s) ≤ ∑ _s : Symbol, 1 := Finset.sum_le_sum (fun s _ => hno s)
  simp only [Finset.sum_const, Finset.card_univ, Fintype.card_fin, smul_eq_mul, mul_one] at hle
  omega

/-- Within `d + 1` iterations from position `k` the surplus loop removes one unit, when
position `k + d` holds a symbol whose count exceeds 1. -/
theorem remove_surplus_hit (idx : List Symbol) :
    ∀ (d fuel : Nat) (freq : Symbol → Nat) (over k : Nat),
      (∀ s, 1 ≤ freq s) → 1 < freq (idx.getD ((k + d) % 256) 0) → d + 1 ≤ fuel →
      ∃ (fuel1 : Nat) (freq1 : Symbol → Nat) (k1 : Nat),
        fuel ≤ fuel1 + (d + 1) ∧
        remove_surplus idx fuel freq (over + 1) k = remove_surplus idx fuel1 freq1 over k1 ∧
        (∀ s, 1 ≤ freq1 s) ∧ (∑ s : Symbol, freq1 s) + 1 = ∑ s : Symbol, freq s := by
  intro d
  induction d with
  | zero =>
    intro fuel freq over k hpos hhit hfuel
    obtain ⟨fuel0, rfl⟩ : ∃ f0, fuel = f0 + 1 := ⟨fuel - 1, by omega⟩
    simp only [Nat.add_zero] at hhit
    refine ⟨fuel0, Function.update freq (idx.getD (k % 256) 0)
      (freq (idx.getD (k % 256) 0) - 1), k + 1, by omega, ?_, ?_, ?_⟩
    · simp only [remove_surplus]
      rw [if_pos hhit]
    · intro s
      by_cases hs : s = idx.getD (k % 256) 0
      · subst hs
        simp only [Function.update_same]
        omega
      · rw [Function.update_noteq hs]
        exact hpos s
    · have h := sum_update_add freq (idx.getD (k % 256) 0) (freq (idx.getD (k % 256) 0) - 1)
      omega
  | succ d ih =>
    intro fuel freq over k hpos hhit hfuel
    obtain ⟨fuel0, rfl⟩ : ∃ f0, fuel = f0 + 1 := ⟨fuel - 1, by omega⟩
    by_cases h0 : 1 < freq (idx.getD (k % 256) 0)
    · refine ⟨fuel0, Function.update freq (idx.getD (k % 256) 0)
        (freq (idx.getD (k % 256) 0) - 1), k + 1, by omega, ?_, ?_, ?_⟩
      · simp only [remove_surplus]
        rw [if_pos h0]
      · intro s
        by_cases hs : s = idx.getD (k % 256) 0
        · subst hs
          simp only [Function.update_same]
          omega
        · rw [Function.update_noteq hs]
          exact hpos s
      · have h := sum_update_add freq (idx.getD (k % 256) 0) (freq (idx.getD (k % 256) 0) - 1)
        omega
    · have hk : k + 1 + d = k + (d + 1) := by omega
      obtain ⟨fuel1, freq1, k1, hf, heq, hpos1, hsum1⟩ :=
        ih fuel0 freq over (k + 1) hpos (by rw [hk]; exact hhit) (by omega)
      refine ⟨fuel1, freq1, k1, by omega, ?_, hpos1, hsum1⟩
      rw [← heq]
      simp only [remove_surplus]
      rw [if_neg h0]

/-- The surplus loop ends with the fuel `256 * over`: it returns counts that are all at
least 1 and whose sum is the old sum minus `over`, provided every symbol occurs in `idx`. -/
theorem remove_surplus_spec (idx : List Symbol)
    (hidx : ∀ s : Symbol, ∃ p, p < 256 ∧ idx.getD p 0 = s) :
    ∀ (over fuel : Nat) (freq : Symbol → Nat) (k total : Nat),
      (∀ s, 1 ≤ freq s) → (∑ s : Symbol, freq s) = total + over → 256 ≤ total →
      256 * over ≤ fuel →
      ∃ freq1, remove_surplus idx fuel freq over k = some freq1 ∧
        (∀ s, 1 ≤ freq1 s) ∧ (∑ s : Symbol, freq1 s) = total := by
  intro over
  induction over with
  | zero =>
    intro fuel freq k total hpos hsum _ _
    refine ⟨freq, ?_, hpos, by simpa using hsum⟩
    cases fuel <;> simp [remove_surplus]
  | succ over ih =>
    intro fuel freq k total hpos hsum htotal hfuel
    obtain ⟨s, hs⟩ := exists_gt_one_of_sum_gt freq (by omega)
    obtain ⟨p, hp, hps⟩ := hidx s
    have hd : (k + (p + 256 - k % 256) % 256) % 256 = p := by omega
    obtain ⟨fuel1, freq1, k1, hf, heq, hpos1, hsum1⟩ :=
      remove_surplus_hit idx ((p + 256 - k % 256) % 256) fuel freq over k hpos
        (by rw [hd, hps]; exact hs) (by omega)
    obtain ⟨freq2, h2, hpos2, hsum2⟩ :=
      ih fuel1 freq1 k1 total hpos1 (by omega) htotal (by omega)
    exact ⟨freq2, by rw [heq, h2], hpos2, hsum2⟩

theorem insertionSort_covers (r : Symbol → Symbol → Prop) [DecidableRel r] (s : Symbol) :
    ∃ p, p < 256 ∧ (List.insertionSort r (List.finRange 256)).getD p 0 = s := by
  have hperm := List.perm_insertionSort r (List.finRange 256)
  have hlen : (List.insertionSort r (List.finRange 256)).length = 256 := by
    rw [hperm.length_eq, List.length_finRange]
  have hmem : s ∈ List.insertionSort r (List.finRange 256) :=
    hperm.mem_iff.mpr (List.mem_finRange s)
  obtain ⟨p, hp, hps⟩ := List.mem_iff_getElem.mp hmem
  refine ⟨p, by omega, ?_⟩
  rw [List.getD_eq_getElem _ _ hp]
  exact hps

theorem floor_and_renormalize_bounds {F : Type} [LinearOrderedField F]
    (P : Symbol → F) (k : Symbol) :
    0 < floor_and_renormalize P k ∧ floor_and_renormalize P k ≤ 1 := by
  have hfl : ∀ j : Symbol, 0 < (if P j ≤ 0 then (1 : F) / 10 ^ 12 else P j) := by
    intro j
    split_ifs with h
    · positivity
    · exact not_le.mp h
  have hsum : 0 < ∑ j : Symbol, (if P j ≤ 0 then (1 : F) / 10 ^ 12 else P j) :=
    Finset.sum_pos (fun j _ => hfl j) ⟨0, Finset.mem_univ _⟩
  have hle : (if P k ≤ 0 then (1 : F) / 10 ^ 12 else P k)
      ≤ ∑ j : Symbol, (if P j ≤ 0 then (1 : F) / 10 ^ 12 else P j) :=
    Finset.single_le_sum (f := fun j : Symbol => if P j ≤ 0 then (1 : F) / 10 ^ 12 else P j)
      (fun j _ => le_of_lt (hfl j)) (Finset.mem_univ k)
  unfold floor_and_renormalize
  simp only
  rw [if_neg (not_le.mpr hsum)]
  exact ⟨div_pos (hfl k) hsum, (div_le_one hsum).mpr hle⟩

theorem base_freq_bounds {F : Type} [LinearOrderedField F] [FloorRing F]
    (P : Symbol → F) (k : Symbol) :
    1 ≤ base_freq (floor_and_renormalize P) k ∧
      base_freq (floor_and_renormalize P) k ≤ 65536 := by
  have hb := floor_and_renormalize_bounds P k
  have hraw : raw_value (floor_and_renormalize P) k ≤ ((65536 : Nat) : F) := by
    unfold raw_value TOTAL_FREQ
    have h65 : (0 : F) ≤ ((65536 : Nat) : F) := Nat.cast_nonneg _
    calc floor_and_renormalize P k * ((65536 : Nat) : F)
        ≤ 1 * ((65536 : Nat) : F) := mul_le_mul_of_nonneg_right hb.2 h65
      _ = ((65536 : Nat) : F) := one_mul _
  have hfloor : ⌊raw_value (floor_and_renormalize P) k⌋₊ ≤ 65536 := Nat.floor_le_of_le hraw
  unfold base_freq
  simp only
  split_ifs with h <;> omega

theorem sum_base_freq_le {F : Type} [LinearOrderedField F] [FloorRing F] (P : Symbol → F) :
    (∑ k : Symbol, base_freq (floor_and_renormalize P) k) ≤ 256 * 65536 := by
  have hle : (∑ k : Symbol, base_freq (floor_and_renormalize P) k) ≤ ∑ _k : Symbol, 65536 :=
    Finset.sum_le_sum (fun k _ => (base_freq_bounds P k).2)
  simp only [Finset.sum_const, Finset.card_univ, Fintype.card_fin, smul_eq_mul] at hle
  exact hle

/-- The quantizer always returns, with counts that are all at least 1 and sum to
`TOTAL_FREQ`. -/
theorem quantize_spec {F : Type} [LinearOrderedField F] [FloorRing F] (P : Symbol → F) :
    ∃ freq, quantize P = some freq ∧ (∀ s, 1 ≤ freq s) ∧
      (∑ s : Symbol, freq s) = TOTAL_FREQ := by
  have hbound := sum_base_freq_le P
  have hpos : ∀ s, 1 ≤ base_freq (floor_and_renormalize P) s := fun s => (base_freq_bounds P s).1
  unfold quantize
  simp only
  generalize hS : (∑ k : Symbol, base_freq (floor_and_renormalize P) k) = S at hbound
  have hmod : S % 2 ^ 32 = S := Nat.mod_eq_of_lt (by omega)
  rw [hmod]
  by_cases h1 : S < TOTAL_FREQ
  · rw [if_pos h1]
    obtain ⟨hsum, hge⟩ := distribute_deficit_spec
      (sort_frac_descending (frac_of (floor_and_renormalize P))) (TOTAL_FREQ - S)
      (base_freq (floor_and_renormalize P))
    refine ⟨_, rfl, fun s => le_trans (hpos s) (hge s), ?_⟩
    rw [hsum, hS]
    omega
  · rw [if_neg h1]
    by_cases h2 : S > TOTAL_FREQ
    · rw [if_pos h2]
      exact remove_surplus_spec _ (insertionSort_covers _) (S - TOTAL_FREQ) _ _ 0 TOTAL_FREQ
        hpos (by rw [hS]; omega) (by unfold TOTAL_FREQ; omega) (le_refl _)
    · rw [if_neg h2]
      exact ⟨_, rfl, hpos, by rw [hS]; omega⟩

theorem cumulative_eq_sum_range (freq : Symbol → Nat) (n : Nat) :
    cumulative freq n
      = ∑ i in Finset.range n, (if h : i < 256 then freq ⟨i, h⟩ else 0) := by
  induction n with
  | zero => simp [cumulative]
  | succ n ih => rw [Finset.sum_range_succ, ← ih, cumulative]

theorem cumulative_256 (freq : Symbol → Nat) :
    cumulative freq 256 = ∑ s : Symbol, freq s := by
  rw [cumulative_eq_sum_range,
    ← Fin.sum_univ_eq_sum_range (fun i => if h : i < 256 then freq ⟨i, h⟩ else 0) 256]
  apply Finset.sum_congr rfl
  intro s _
  simp

theorem cumulative_strictMono (freq : Symbol → Nat) (hpos : ∀ s, 1 ≤ freq s) :
    ∀ j i : Nat, i < j → j ≤ 256 → cumulative freq i < cumulative freq j := by
  intro j
  induction j with
  | zero => intro i hi; omega
  | succ j ih =>
    intro i hi hj
    have hj256 : j < 256 := by omega
    have hstep : cumulative freq (j + 1) = cumulative freq j + freq ⟨j, hj256⟩ := by
      rw [cumulative, dif_pos hj256]
    have h1 := hpos ⟨j, hj256⟩
    by_cases hij : i = j
    · subst hij
      omega
    · have := ih i (by omega) (by omega)
      omega

/-! ## Lemmas on the coder: the initial state is a fixed point -/

theorem round_ld_zero : round_ld 0 = 0 := by decide

theorem narrow_initial (a b : Nat) : narrow 0 TOP_VALUE a b = (0, TOP_VALUE) := by
  have hrange : add64 (sub64 TOP_VALUE 0) 1 = 0 := by
    unfold add64 sub64 TOP_VALUE
    norm_num
  unfold narrow
  simp only [hrange, Nat.zero_mul, round_ld_zero, Nat.zero_div, Nat.zero_mod]
  unfold add64 sub64 TOP_VALUE
  norm_num

theorem encode_renormalize_initial (fuel : Nat) (c : ArithmeticCoder)
    (hl : c.low = 0) (hh : c.high = TOP_VALUE) :
    encode_renormalize (fuel + 1) c = some c := by
  unfold encode_renormalize
  rw [hl, hh]
  unfold TOP_VALUE HALF FIRST_QUARTER THIRD_QUARTER
  norm_num

theorem decode_renormalize_initial (fuel : Nat) (c : ArithmeticCoder)
    (hl : c.low = 0) (hh : c.high = TOP_VALUE) :
    decode_renormalize (fuel + 1) c = some c := by
  unfold decode_renormalize
  rw [hl, hh]
  unfold TOP_VALUE HALF FIRST_QUARTER THIRD_QUARTER
  norm_num

theorem pack_bits_single_zero : pack_bits [false] = [0] := by decide

theorem decode_quantize_eq {F : Type} [LinearOrderedField F] [FloorRing F]
    (P : Symbol → F) : decode_quantize P = quantize P := by
  rfl

theorem narrow_to_initial (c : ArithmeticCoder) (hl : c.low = 0) (hh : c.high = TOP_VALUE)
    (a b : Nat) : c.narrow_to a b = c := by
  unfold ArithmeticCoder.narrow_to
  rw [hl, hh, narrow_initial, ← hl, ← hh]

theorem encode_step_initial {F : Type} [LinearOrderedField F] [FloorRing F]
    (opts : GlobalOptions F) (st : ArithmeticCoder × FibonacciContextModel F × RGBDState)
    (symbol : Symbol) (hl : st.1.low = 0) (hh : st.1.high = TOP_VALUE) :
    encode_step opts st symbol = some (st.1, st.2.1.update symbol, st.2.2.update symbol) := by
  obtain ⟨freq, hq, -, -⟩ := quantize_spec (st.2.2.apply_bias opts st.2.1.get_probabilities)
  unfold encode_step
  rw [hq, Option.some_bind, narrow_to_initial st.1 hl hh,
    show RENORM_FUEL = 64 + 1 from rfl, encode_renormalize_initial 64 st.1 hl hh,
    Option.map_some']

theorem encode_loop_initial {F : Type} [LinearOrderedField F] [FloorRing F]
    (opts : GlobalOptions F) :
    ∀ (data : List Symbol) (st : ArithmeticCoder × FibonacciContextModel F × RGBDState),
      st.1.low = 0 → st.1.high = TOP_VALUE →
      encode_loop opts data st
        = some (st.1, data.foldl FibonacciContextModel.update st.2.1,
            data.foldl RGBDState.update st.2.2) := by
  intro data
  induction data with
  | nil => intro st _ _; rfl
  | cons symbol rest ih =>
    intro st hl hh
    rw [encode_loop, encode_step_initial opts st symbol hl hh, Option.some_bind]
    exact ih _ hl hh

theorem flush_encoder_initial (c : ArithmeticCoder) :
    c.encode_init.flush_encoder
      = { c with low := 0, high := TOP_VALUE, pending_bits := 1, bit_buffer := [false] } := by
  unfold ArithmeticCoder.flush_encoder ArithmeticCoder.encode_init ArithmeticCoder.write_bit
    add64 sub64
  norm_num

/-- Whatever the input, `encode` leaves the registers at `(0, 2^64 - 1)`, emits only the
one flush bit, and returns the single byte `0x00`. -/
theorem encode_eq {F : Type} [LinearOrderedField F] [FloorRing F]
    (opts : GlobalOptions F) ( GOLDEN_RATIO : F) (c : ArithmeticCoder) (g : RGBDState)
    (data : List Symbol) :
    ArithmeticCoder.encode opts GOLDEN_RATIO c g data
      = some ([0],
          { c with low := 0, high := TOP_VALUE, pending_bits := 1, bit_buffer := [false] },
          data.foldl RGBDState.update RGBDState.reset) := by
  unfold ArithmeticCoder.encode
  rw [encode_loop_initial opts data _ rfl rfl, Option.map_some']
  unfold encode_finish
  rw [flush_encoder_initial, pack_bits_single_zero]

theorem compress_main_eq {F : Type} [LinearOrderedField F] [FloorRing F]
    (opts : GlobalOptions F) ( GOLDEN_RATIO : F) (c : ArithmeticCoder) (g : RGBDState)
    (data : List Symbol) :
    compress_main opts GOLDEN_RATIO c g data
      = some (make_header (data.length % 2 ^ 64) ++ [0]) := by
  unfold compress_main compress_internal
  rw [encode_eq, Option.map_some', Option.map_some']

theorem decode_step_initial {F : Type} [LinearOrderedField F] [FloorRing F]
    (oor : Option Nat → Nat) (opts : GlobalOptions F)
    (st : ArithmeticCoder × FibonacciContextModel F × RGBDState × List Symbol)
    (hl : st.1.low = 0) (hh : st.1.high = TOP_VALUE) :
    ∃ sym : Symbol, decode_step oor opts st
      = some (st.1, st.2.1.update sym, st.2.2.1.update sym, st.2.2.2 ++ [sym]) := by
  obtain ⟨freq, hq, -, -⟩ := quantize_spec (st.2.2.1.apply_bias opts st.2.1.get_probabilities)
  refine ⟨decode_symbol oor st.1 freq, ?_⟩
  unfold decode_step
  rw [decode_quantize_eq, hq, Option.some_bind, narrow_to_initial st.1 hl hh,
    show RENORM_FUEL = 64 + 1 from rfl, decode_renormalize_initial 64 st.1 hl hh,
    Option.map_some']

theorem decode_loop_initial {F : Type} [LinearOrderedField F] [FloorRing F]
    (oor : Option Nat → Nat) (opts : GlobalOptions F) :
    ∀ (n : Nat) (st : ArithmeticCoder × FibonacciContextModel F × RGBDState × List Symbol),
      st.1.low = 0 → st.1.high = TOP_VALUE →
      ∃ st1, decode_loop oor opts n st = some st1 ∧ st1.1 = st.1 ∧
        st1.2.2.2.length = st.2.2.2.length + n := by
  intro n
  induction n with
  | zero => intro st _ _; exact ⟨st, rfl, rfl, rfl⟩
  | succ n ih =>
    intro st hl hh
    obtain ⟨sym, hstep⟩ := decode_step_initial oor opts st hl hh
    obtain ⟨st1, h1, h2, h3⟩ :=
      ih (st.1, st.2.1.update sym, st.2.2.1.update sym, st.2.2.2 ++ [sym]) hl hh
    refine ⟨st1, ?_, h2, ?_⟩
    · rw [decode_loop, hstep, Option.some_bind]
      exact h1
    · rw [h3, List.length_append, List.length_singleton]
      omega

theorem decode_init_low_high (c : ArithmeticCoder) (compressed_data : List Symbol) :
    (c.decode_init compressed_data).low = 0 ∧ (c.decode_init compressed_data).high = TOP_VALUE :=
  ⟨rfl, rfl⟩

/-- The three outcomes of `decode`: `reserve` throws `std::length_error`, `reserve` throws
`std::bad_alloc`, or the loop runs and `decode` returns exactly `original_size` symbols. -/
theorem decode_outcome {F : Type} [LinearOrderedField F] [FloorRing F]
    (max_size : Nat) (alloc : Nat → Bool)
    (oor : Option Nat → Nat) (opts : GlobalOptions F) ( GOLDEN_RATIO : F)
    (c : ArithmeticCoder) (g : RGBDState) (compressed_data : List Symbol)
    (original_size : Nat) :
    (original_size ≠ 0 → max_size < original_size →
      ArithmeticCoder.decode max_size alloc oor opts GOLDEN_RATIO c g compressed_data
        original_size = some (Except.error Error.length_error_vector_reserve)) ∧
    (original_size ≠ 0 → original_size ≤ max_size → alloc original_size = false →
      ArithmeticCoder.decode max_size alloc oor opts GOLDEN_RATIO c g compressed_data
        original_size = some (Except.error Error.bad_alloc)) ∧
    ((original_size = 0 ∨ (original_size ≤ max_size ∧ alloc original_size = true)) →
      ∃ r, ArithmeticCoder.decode max_size alloc oor opts GOLDEN_RATIO c g compressed_data
          original_size = some (Except.ok r) ∧ r.1.length = original_size) := by
  unfold ArithmeticCoder.decode
  refine ⟨?_, ?_, ?_⟩
  · intro h0 hlt
    rw [if_neg h0, if_pos hlt]
  · intro h0 hle ha
    rw [if_neg h0, if_neg (Nat.not_lt_of_le hle), if_pos ha]
  · intro h
    by_cases h0 : original_size = 0
    · rw [if_pos h0]
      exact ⟨([], c, g), rfl, by rw [h0]; rfl⟩
    · rcases h with h | ⟨hle, ha⟩
      · exact absurd h h0
      · rw [if_neg h0, if_neg (Nat.not_lt_of_le hle), if_neg (by rw [ha]; decide)]
        obtain ⟨st1, h1, -, h3⟩ := decode_loop_initial oor opts original_size
          (c.decode_init compressed_data, FibonacciContextModel.default GOLDEN_RATIO,
            RGBDState.reset, []) rfl rfl
        rw [h1, Option.map_some']
        refine ⟨_, rfl, ?_⟩
        show st1.2.2.2.length = original_size
        rw [h3]
        simp

/-- When `reserve` succeeds, `decode` returns, and returns exactly `original_size`
symbols, for every body. -/
theorem decode_length {F : Type} [LinearOrderedField F] [FloorRing F]
    (max_size : Nat) (alloc : Nat → Bool)
    (oor : Option Nat → Nat) (opts : GlobalOptions F) ( GOLDEN_RATIO : F)
    (c : ArithmeticCoder) (g : RGBDState) (compressed_data : List Symbol)
    (original_size : Nat)
    (h : original_size = 0 ∨ (original_size ≤ max_size ∧ alloc original_size = true)) :
    ∃ r, ArithmeticCoder.decode max_size alloc oor opts GOLDEN_RATIO c g compressed_data
        original_size = some (Except.ok r) ∧ r.1.length = original_size :=
  (decode_outcome max_size alloc oor opts GOLDEN_RATIO c g compressed_data original_size).2.2 h

/-- The outcomes of `decompress_internal`: one of the two exceptions of `reserve`, or
`original_size` bytes; never the size-mismatch error. -/
theorem decompress_internal_outcome {F : Type} [LinearOrderedField F] [FloorRing F]
    (max_size : Nat) (alloc : Nat → Bool)
    (oor : Option Nat → Nat) (opts : GlobalOptions F) ( GOLDEN_RATIO : F)
    (c : ArithmeticCoder) (g : RGBDState) (data : List Symbol) (original_size : Nat) :
    (original_size ≠ 0 → max_size < original_size →
      decompress_internal max_size alloc oor opts GOLDEN_RATIO c g data original_size
        = some (Except.error Error.length_error_vector_reserve)) ∧
    (original_size ≠ 0 → original_size ≤ max_size → alloc original_size = false →
      decompress_internal max_size alloc oor opts GOLDEN_RATIO c g data original_size
        = some (Except.error Error.bad_alloc)) ∧
    ((original_size = 0 ∨ (original_size ≤ max_size ∧ alloc original_size = true)) →
      ∃ out, decompress_internal max_size alloc oor opts GOLDEN_RATIO c g data original_size
          = some (Except.ok out) ∧ out.length = original_size) := by
  obtain ⟨h1, h2, h3⟩ :=
    decode_outcome max_size alloc oor opts GOLDEN_RATIO c g data original_size
  unfold decompress_internal
  refine ⟨?_, ?_, ?_⟩
  · intro h0 hlt
    rw [h1 h0 hlt, Option.map_some']
    rfl
  · intro h0 hle ha
    rw [h2 h0 hle ha, Option.map_some']
    rfl
  · intro h
    obtain ⟨r, hr, hlen⟩ := h3 h
    refine ⟨r.1, ?_, hlen⟩
    rw [hr, Option.map_some']
    show some (check_size original_size r.1) = some (Except.ok r.1)
    unfold check_size
    rw [if_neg (by rw [hlen]; exact fun h => h rfl)]

/-- Byte `i` of the little-endian size field. -/
theorem size_byte_val (n i : Nat) :
    ((Fin.ofNat ((n >>> (i * 8)) &&& 0xFF) : Symbol)).val = n / 2 ^ (i * 8) % 256 := by
  have h : (n >>> (i * 8)) &&& 0xFF = n / 2 ^ (i * 8) % 256 := by
    rw [Nat.shiftRight_eq_div_pow]
    exact Nat.and_pow_two_sub_one_eq_mod _ 8
  rw [h]
  show n / 2 ^ (i * 8) % 256 % 256 = _
  exact Nat.mod_mod _ _

theorem make_header_eq (n : Nat) :
    make_header n = [80, 72, 73, 67, 1, 1,
      Fin.ofNat ((n >>> (0 * 8)) &&& 0xFF), Fin.ofNat ((n >>> (1 * 8)) &&& 0xFF),
      Fin.ofNat ((n >>> (2 * 8)) &&& 0xFF), Fin.ofNat ((n >>> (3 * 8)) &&& 0xFF),
      Fin.ofNat ((n >>> (4 * 8)) &&& 0xFF), Fin.ofNat ((n >>> (5 * 8)) &&& 0xFF),
      Fin.ofNat ((n >>> (6 * 8)) &&& 0xFF), Fin.ofNat ((n >>> (7 * 8)) &&& 0xFF)] := by
  rfl

theorem or_shift_eq_add (acc b k : Nat) (h : acc < 2 ^ k) :
    acc ||| (b <<< k) = acc + b * 2 ^ k := by
  rw [Nat.shiftLeft_eq, Nat.lor_comm, Nat.mul_comm b, ← Nat.mul_add_lt_is_or h b]
  omega

/-- The size parser reads back the eight bytes after offset 6 as a little-endian number. -/
theorem parse_size_eq (p : List Symbol) (b0 b1 b2 b3 b4 b5 b6 b7 : Symbol) (body : List Symbol)
    (hp : p.length = 6) :
    parse_size (p ++ [b0, b1, b2, b3, b4, b5, b6, b7] ++ body)
      = b0.val + b1.val * 2 ^ 8 + b2.val * 2 ^ 16 + b3.val * 2 ^ 24 + b4.val * 2 ^ 32
        + b5.val * 2 ^ 40 + b6.val * 2 ^ 48 + b7.val * 2 ^ 56 := by
  obtain ⟨x0, x1, x2, x3, x4, x5, hx⟩ : ∃ x0 x1 x2 x3 x4 x5, p = [x0, x1, x2, x3, x4, x5] := by
    match p, hp with
    | [x0, x1, x2, x3, x4, x5], _ => exact ⟨x0, x1, x2, x3, x4, x5, rfl⟩
  subst hx
  have h0 := b0.isLt
  have h1 := b1.isLt
  have h2 := b2.isLt
  have h3 := b3.isLt
  have h4 := b4.isLt
  have h5 := b5.isLt
  have h6 := b6.isLt
  have h7 := b7.isLt
  have e0 : (b0.val <<< (0 * 8)) % 2 ^ 64 = b0.val := by
    rw [Nat.shiftLeft_eq]; omega
  have e1 : (b1.val <<< (1 * 8)) % 2 ^ 64 = b1.val <<< 8 := by
    rw [Nat.shiftLeft_eq]; omega
  have e2 : (b2.val <<< (2 * 8)) % 2 ^ 64 = b2.val <<< 16 := by
    rw [Nat.shiftLeft_eq]; omega
  have e3 : (b3.val <<< (3 * 8)) % 2 ^ 64 = b3.val <<< 24 := by
    rw [Nat.shiftLeft_eq]; omega
  have e4 : (b4.val <<< (4 * 8)) % 2 ^ 64 = b4.val <<< 32 := by
    rw [Nat.shiftLeft_eq]; omega
  have e5 : (b5.val <<< (5 * 8)) % 2 ^ 64 = b5.val <<< 40 := by
    rw [Nat.shiftLeft_eq]; omega
  have e6 : (b6.val <<< (6 * 8)) % 2 ^ 64 = b6.val <<< 48 := by
    rw [Nat.shiftLeft_eq]; omega
  have e7 : (b7.val <<< (7 * 8)) % 2 ^ 64 = b7.val <<< 56 := by
    rw [Nat.shiftLeft_eq]; omega
  have hunf : parse_size ([x0, x1, x2, x3, x4, x5] ++ [b0, b1, b2, b3, b4, b5, b6, b7] ++ body)
      = (((((((0 ||| (b0.val <<< (0 * 8)) % 2 ^ 64) ||| (b1.val <<< (1 * 8)) % 2 ^ 64)
          ||| (b2.val <<< (2 * 8)) % 2 ^ 64) ||| (b3.val <<< (3 * 8)) % 2 ^ 64)
          ||| (b4.val <<< (4 * 8)) % 2 ^ 64) ||| (b5.val <<< (5 * 8)) % 2 ^ 64)
          ||| (b6.val <<< (6 * 8)) % 2 ^ 64) ||| (b7.val <<< (7 * 8)) % 2 ^ 64 := rfl
  rw [hunf, e0, e1, e2, e3, e4, e5, e6, e7, Nat.zero_or,
    or_shift_eq_add _ _ 8 (by omega), or_shift_eq_add _ _ 16 (by omega),
    or_shift_eq_add _ _ 24 (by omega), or_shift_eq_add _ _ 32 (by omega),
    or_shift_eq_add _ _ 40 (by omega), or_shift_eq_add _ _ 48 (by omega),
    or_shift_eq_add _ _ 56 (by omega)]

theorem parse_size_make_header (n : Nat) (body : List Symbol) (hn : n < 2 ^ 64) :
    parse_size (make_header n ++ body) = n := by
  rw [make_header_eq]
  have h := parse_size_eq [80, 72, 73, 67, 1, 1]
    (Fin.ofNat ((n >>> (0 * 8)) &&& 0xFF)) (Fin.ofNat ((n >>> (1 * 8)) &&& 0xFF))
    (Fin.ofNat ((n >>> (2 * 8)) &&& 0xFF)) (Fin.ofNat ((n >>> (3 * 8)) &&& 0xFF))
    (Fin.ofNat ((n >>> (4 * 8)) &&& 0xFF)) (Fin.ofNat ((n >>> (5 * 8)) &&& 0xFF))
    (Fin.ofNat ((n >>> (6 * 8)) &&& 0xFF)) (Fin.ofNat ((n >>> (7 * 8)) &&& 0xFF)) body rfl
  rw [size_byte_val, size_byte_val, size_byte_val, size_byte_val, size_byte_val,
    size_byte_val, size_byte_val, size_byte_val] at h
  have h2 : ([80, 72, 73, 67, 1, 1] : List Symbol) ++
      [Fin.ofNat ((n >>> (0 * 8)) &&& 0xFF), Fin.ofNat ((n >>> (1 * 8)) &&& 0xFF),
      Fin.ofNat ((n >>> (2 * 8)) &&& 0xFF), Fin.ofNat ((n >>> (3 * 8)) &&& 0xFF),
      Fin.ofNat ((n >>> (4 * 8)) &&& 0xFF), Fin.ofNat ((n >>> (5 * 8)) &&& 0xFF),
      Fin.ofNat ((n >>> (6 * 8)) &&& 0xFF), Fin.ofNat ((n >>> (7 * 8)) &&& 0xFF)]
      = [80, 72, 73, 67, 1, 1,
      Fin.ofNat ((n >>> (0 * 8)) &&& 0xFF), Fin.ofNat ((n >>> (1 * 8)) &&& 0xFF),
      Fin.ofNat ((n >>> (2 * 8)) &&& 0xFF), Fin.ofNat ((n >>> (3 * 8)) &&& 0xFF),
      Fin.ofNat ((n >>> (4 * 8)) &&& 0xFF), Fin.ofNat ((n >>> (5 * 8)) &&& 0xFF),
      Fin.ofNat ((n >>> (6 * 8)) &&& 0xFF), Fin.ofNat ((n >>> (7 * 8)) &&& 0xFF)] := rfl
  rw [h2] at h
  rw [h]
  omega

theorem decompress_main_short {F : Type} [LinearOrderedField F] [FloorRing F]
    (max_size : Nat) (alloc : Nat → Bool)
    (oor : Option Nat → Nat) (opts : GlobalOptions F) ( GOLDEN_RATIO : F)
    (c : ArithmeticCoder) (g : RGBDState) (data : List Symbol) (h : data.length < 14) :
    decompress_main max_size alloc oor opts GOLDEN_RATIO c g data
      = some (Except.error Error.runtime_error_header_too_short) := by
  unfold decompress_main
  rw [if_pos h]

theorem decompress_main_bad_magic {F : Type} [LinearOrderedField F] [FloorRing F]
    (max_size : Nat) (alloc : Nat → Bool)
    (oor : Option Nat → Nat) (opts : GlobalOptions F) ( GOLDEN_RATIO : F)
    (c : ArithmeticCoder) (g : RGBDState) (data : List Symbol) (h : 14 ≤ data.length)
    (hm : data.take 4 ≠ MAGIC) :
    decompress_main max_size alloc oor opts GOLDEN_RATIO c g data
      = some (Except.error Error.runtime_error_magic_mismatch) := by
  unfold decompress_main
  rw [if_neg (by omega), if_pos hm]

/-- Past the two header checks `decompress_main` is `decompress_internal` on the body and
the parsed size. -/
theorem decompress_main_body {F : Type} [LinearOrderedField F] [FloorRing F]
    (max_size : Nat) (alloc : Nat → Bool)
    (oor : Option Nat → Nat) (opts : GlobalOptions F) ( GOLDEN_RATIO : F)
    (c : ArithmeticCoder) (g : RGBDState) (data : List Symbol) (h : 14 ≤ data.length)
    (hm : data.take 4 = MAGIC) :
    decompress_main max_size alloc oor opts GOLDEN_RATIO c g data
      = decompress_internal max_size alloc oor opts GOLDEN_RATIO c g (data.drop 14)
          (parse_size data) := by
  unfold decompress_main
  rw [if_neg (by omega), if_neg (by rw [hm]; exact fun h => h rfl)]

theorem make_header_length (n : Nat) : (make_header n).length = 14 := by
  rw [make_header_eq]
  rfl

theorem make_header_take (n : Nat) (body : List Symbol) :
    (make_header n ++ body).take 4 = MAGIC := by
  rw [make_header_eq]
  rfl

theorem decode_zero {F : Type} [LinearOrderedField F] [FloorRing F]
    (max_size : Nat) (alloc : Nat → Bool)
    (oor : Option Nat → Nat) (opts : GlobalOptions F) ( GOLDEN_RATIO : F)
    (c : ArithmeticCoder) (g : RGBDState) (body : List Symbol) :
    ArithmeticCoder.decode max_size alloc oor opts GOLDEN_RATIO c g body 0
      = some (Except.ok ([], c, g)) := by
  unfold ArithmeticCoder.decode
  rw [if_pos rfl]

theorem decompress_main_size_zero {F : Type} [LinearOrderedField F] [FloorRing F]
    (max_size : Nat) (alloc : Nat → Bool)
    (oor : Option Nat → Nat) (opts : GlobalOptions F) ( GOLDEN_RATIO : F)
    (c : ArithmeticCoder) (g : RGBDState) (data : List Symbol) (h : 14 ≤ data.length)
    (hm : data.take 4 = MAGIC) (hz : parse_size data = 0) :
    decompress_main max_size alloc oor opts GOLDEN_RATIO c g data = some (Except.ok []) := by
  rw [decompress_main_body max_size alloc oor opts GOLDEN_RATIO c g data h hm, hz]
  unfold decompress_internal
  rw [decode_zero, Option.map_some']
  rfl

theorem get_probabilities_default {F : Type} [LinearOrderedField F] ( GOLDEN_RATIO : F) :
    (FibonacciContextModel.default GOLDEN_RATIO).get_probabilities = fun _ => 0 + 1 / 256 := by
  unfold FibonacciContextModel.get_probabilities
  simp [FibonacciContextModel.default, default_orders, mix_loop, mix_context]

theorem get_probabilities_after_one {F : Type} [LinearOrderedField F] ( GOLDEN_RATIO : F)
    (x : Symbol) :
    ((FibonacciContextModel.default GOLDEN_RATIO).update x).get_probabilities
      = fun _ => 0 + 1 / 256 := by
  unfold FibonacciContextModel.get_probabilities
  simp [FibonacciContextModel.default, FibonacciContextModel.update, default_orders, mix_loop, update_tables,
    mix_context]

theorem apply_bias_reset {F : Type} [LinearOrderedField F] (opts : GlobalOptions F)
    (P : Symbol → F) : RGBDState.reset.apply_bias opts P = P := by
  unfold RGBDState.apply_bias
  simp [RGBDState.reset]

theorem apply_bias_after_one {F : Type} [LinearOrderedField F] (opts : GlobalOptions F)
    (x : Symbol) (P : Symbol → F) : (RGBDState.reset.update x).apply_bias opts P = P := by
  unfold RGBDState.apply_bias
  simp [RGBDState.reset, RGBDState.update, RGBDState.advance_fib, set_cell]

theorem decode_step_eq {F : Type} [LinearOrderedField F] [FloorRing F]
    (oor : Option Nat → Nat) (opts : GlobalOptions F)
    (st : ArithmeticCoder × FibonacciContextModel F × RGBDState × List Symbol)
    (freq : Symbol → Nat)
    (hq : quantize (st.2.2.1.apply_bias opts st.2.1.get_probabilities) = some freq)
    (hl : st.1.low = 0) (hh : st.1.high = TOP_VALUE) :
    decode_step oor opts st
      = some (st.1, st.2.1.update (decode_symbol oor st.1 freq),
          st.2.2.1.update (decode_symbol oor st.1 freq),
          st.2.2.2 ++ [decode_symbol oor st.1 freq]) := by
  unfold decode_step
  rw [decode_quantize_eq, hq, Option.some_bind, narrow_to_initial st.1 hl hh,
    show RENORM_FUEL = 64 + 1 from rfl, decode_renormalize_initial 64 st.1 hl hh,
    Option.map_some']

/-- Decoding two symbols yields the same symbol twice: both predictions are the uniform
one (no context of order 2 exists yet, the RGBD cell read is still empty) and the
registers, hence `scaled`, have not moved. -/
theorem decode_two_equal {F : Type} [LinearOrderedField F] [FloorRing F]
    (max_size : Nat) (alloc : Nat → Bool)
    (oor : Option Nat → Nat) (opts : GlobalOptions F) ( GOLDEN_RATIO : F)
    (c : ArithmeticCoder) (g : RGBDState) (body : List Symbol)
    (hmax : 2 ≤ max_size) (halloc : alloc 2 = true) :
    ∃ s c1 g1, ArithmeticCoder.decode max_size alloc oor opts GOLDEN_RATIO c g body 2
      = some (Except.ok ([s, s], c1, g1)) := by
  obtain ⟨freq, hq, -, -⟩ := quantize_spec (fun _ : Symbol => (0 : F) + 1 / 256)
  have h1 := decode_step_eq oor opts
    (c.decode_init body, FibonacciContextModel.default GOLDEN_RATIO, RGBDState.reset, [])
    freq (by rw [apply_bias_reset, get_probabilities_default]; exact hq) rfl rfl
  have h2 := decode_step_eq oor opts
    (c.decode_init body,
      (FibonacciContextModel.default GOLDEN_RATIO).update
        (decode_symbol oor (c.decode_init body) freq),
      RGBDState.reset.update (decode_symbol oor (c.decode_init body) freq),
      [] ++ [decode_symbol oor (c.decode_init body) freq])
    freq (by rw [apply_bias_after_one, get_probabilities_after_one]; exact hq) rfl rfl
  refine ⟨decode_symbol oor (c.decode_init body) freq, c.decode_init body,
    (RGBDState.reset.update (decode_symbol oor (c.decode_init body) freq)).update
      (decode_symbol oor (c.decode_init body) freq), ?_⟩
  unfold ArithmeticCoder.decode
  rw [if_neg (by decide), if_neg (Nat.not_lt_of_le hmax), if_neg (by rw [halloc]; decide),
    decode_loop, h1, Option.some_bind, decode_loop, h2,
    Option.some_bind, decode_loop, Option.map_some']
  rfl

/-- The container that `compress` makes of a two-byte input, passed to `decompress`. -/
theorem decompress_main_of_two {F : Type} [LinearOrderedField F] [FloorRing F]
    (max_size : Nat) (alloc : Nat → Bool)
    (oor : Option Nat → Nat) (opts : GlobalOptions F) ( GOLDEN_RATIO : F)
    (c c1 : ArithmeticCoder) (g g1 : RGBDState) (a b : Symbol) :
    (compress_main opts GOLDEN_RATIO c g [a, b]).bind
        (decompress_main max_size alloc oor opts GOLDEN_RATIO c1 g1)
      = decompress_internal max_size alloc oor opts GOLDEN_RATIO c1 g1 [0] 2 := by
  rw [compress_main_eq, Option.some_bind]
  have hlen : 14 ≤ (make_header ([a, b].length % 2 ^ 64) ++ [0]).length := by
    rw [List.length_append, make_header_length]
    omega
  have hsize : parse_size (make_header ([a, b].length % 2 ^ 64) ++ [0]) = 2 :=
    parse_size_make_header _ _ (Nat.mod_lt _ (by decide))
  have hdrop : (make_header ([a, b].length % 2 ^ 64) ++ [0]).drop 14 = [0] := by
    rw [make_header_eq]
    rfl
  rw [decompress_main_body max_size alloc oor opts GOLDEN_RATIO c1 g1 _ hlen
    (make_header_take _ _), hsize, hdrop]

/-- `decompress(compress(s))` for a two-byte `s`: a repeated byte, or one of the two
exceptions of `reserve`. -/
theorem decompress_compress_two {F : Type} [LinearOrderedField F] [FloorRing F]
    (max_size : Nat) (alloc : Nat → Bool)
    (oor : Option Nat → Nat) (opts : GlobalOptions F) ( GOLDEN_RATIO : F)
    (c c1 : ArithmeticCoder) (g g1 : RGBDState) (a b : Symbol) :
    (∃ s, (compress_main opts GOLDEN_RATIO c g [a, b]).bind
        (decompress_main max_size alloc oor opts GOLDEN_RATIO c1 g1)
          = some (Except.ok [s, s])) ∨
    (∃ e, (compress_main opts GOLDEN_RATIO c g [a, b]).bind
        (decompress_main max_size alloc oor opts GOLDEN_RATIO c1 g1)
          = some (Except.error e)) := by
  rw [decompress_main_of_two]
  obtain ⟨h1, h2, -⟩ :=
    decompress_internal_outcome max_size alloc oor opts GOLDEN_RATIO c1 g1 [0] 2
  by_cases hmax : 2 ≤ max_size
  · by_cases halloc : alloc 2 = true
    · left
      obtain ⟨s, c2, g2, hr⟩ :=
        decode_two_equal max_size alloc oor opts GOLDEN_RATIO c1 g1 [0] hmax halloc
      refine ⟨s, ?_⟩
      unfold decompress_internal
      rw [hr, Option.map_some']
      rfl
    · right
      exact ⟨_, h2 (by decide) hmax (by simpa using halloc)⟩
  · right
    exact ⟨_, h1 (by decide) (by omega)⟩

/-! ## Claims C1 - C10 -/

/-- C1 (fails on the code): `decompress(compress(s)) = s` does not hold for the two-byte
input `s = "AB"`: whatever the coder object, the global state, the options and the
result of the out-of-range conversion, `decompress(compress("AB"))` differs from
`"AB"` (it is a repeated byte; where `reserve(2)` cannot succeed it is an exception). -/
theorem C1_round_trip_fails_on_AB {F : Type} [LinearOrderedField F] [FloorRing F]
    (max_size : Nat) (alloc : Nat → Bool)
    (oor : Option Nat → Nat) (opts : GlobalOptions F) ( GOLDEN_RATIO : F)
    (c c1 : ArithmeticCoder) (g g1 : RGBDState) :
    (compress_main opts GOLDEN_RATIO c g [0x41, 0x42]).bind
        (decompress_main max_size alloc oor opts GOLDEN_RATIO c1 g1)
      ≠ some (Except.ok [0x41, 0x42]) := by
  rcases decompress_compress_two max_size alloc oor opts GOLDEN_RATIO c c1 g g1 0x41 0x42
    with ⟨s, hs⟩ | ⟨e, he⟩
  · rw [hs]
    intro h
    injection h with h
    injection h with h
    injection h with h1 h2
    injection h2 with h2 h3
    rw [h1] at h2
    exact absurd h2 (by decide)
  · rw [he]
    intro h
    injection h with h
    exact absurd h (by simp)

/-- C2: for every byte string `s` shorter than `2^64`, `compress(s)` has at least 14
bytes, starts with `"PHIC"`, has `0x01` at offsets 4 and 5, carries `len(s)` little-endian
in bytes 6..13, and the size parser of `decompress_main` reads `len(s)` back. -/
theorem C2_header_layout {F : Type} [LinearOrderedField F] [FloorRing F]
    (opts : GlobalOptions F) ( GOLDEN_RATIO : F) (c : ArithmeticCoder) (g : RGBDState)
    (s : List Symbol) (hs : s.length < 2 ^ 64) :
    ∃ out, compress_main opts GOLDEN_RATIO c g s = some out ∧ 14 ≤ out.length ∧
      out.take 4 = [80, 72, 73, 67] ∧ out.getD 4 0 = 1 ∧ out.getD 5 0 = 1 ∧
      (∀ i, i < 8 → (out.getD (6 + i) 0).val = s.length / 2 ^ (i * 8) % 256) ∧
      parse_size out = s.length := by
  refine ⟨make_header (s.length % 2 ^ 64) ++ [0], compress_main_eq opts GOLDEN_RATIO c g s,
    ?_, make_header_take _ _, ?_, ?_, ?_, ?_⟩
  · rw [List.length_append, make_header_length]
    omega
  · rw [make_header_eq]
    rfl
  · rw [make_header_eq]
    rfl
  · intro i hi
    rw [Nat.mod_eq_of_lt hs, make_header_eq]
    have hcases : i = 0 ∨ i = 1 ∨ i = 2 ∨ i = 3 ∨ i = 4 ∨ i = 5 ∨ i = 6 ∨ i = 7 := by omega
    rcases hcases with h | h | h | h | h | h | h | h <;> subst h <;>
      exact size_byte_val s.length _
  · rw [parse_size_make_header _ _ (Nat.mod_lt _ (by decide)), Nat.mod_eq_of_lt hs]

/-- Witness for C2 at `s = "A"`. -/
theorem C2_header_layout_witness :
    ∃ out, compress_main (⟨false, 3 / 20⟩ : GlobalOptions ℚ) (13 / 8)
        ⟨0, 0, 0, 0, [], [], 0⟩ RGBDState.reset [0x41] = some out ∧ 14 ≤ out.length ∧
      out.take 4 = [80, 72, 73, 67] ∧ out.getD 4 0 = 1 ∧ out.getD 5 0 = 1 ∧
      (∀ i, i < 8 → (out.getD (6 + i) 0).val = [(0x41 : Symbol)].length / 2 ^ (i * 8) % 256) ∧
      parse_size out = [(0x41 : Symbol)].length :=
  C2_header_layout ⟨false, 3 / 20⟩ (13 / 8) ⟨0, 0, 0, 0, [], [], 0⟩ RGBDState.reset [0x41]
    (by decide)

/-- C3 (counterexample): with the default options, `compress("")` is not the 14-byte
header alone. -/
theorem C3_empty_input_counterexample :
    compress_main (⟨false, 3 / 20⟩ : GlobalOptions ℚ) (13 / 8)
        ⟨0, 0, 0, 0, [], [], 0⟩ RGBDState.reset []
      ≠ some [80, 72, 73, 67, 1, 1, 0, 0, 0, 0, 0, 0, 0, 0] := by
  rw [compress_main_eq]
  decide

/-- C3 (amended): `compress("")` is the 14-byte header `"PHIC" 01 01 00*8` followed by
the one body byte `0x00` that holds the flush bit: 15 bytes. -/
theorem C3_empty_input {F : Type} [LinearOrderedField F] [FloorRing F]
    (opts : GlobalOptions F) ( GOLDEN_RATIO : F) (c : ArithmeticCoder) (g : RGBDState) :
    compress_main opts GOLDEN_RATIO c g []
      = some [80, 72, 73, 67, 1, 1, 0, 0, 0, 0, 0, 0, 0, 0, 0] := by
  rw [compress_main_eq]
  rfl

/-- C4: `decompress` throws on every input shorter than 14 bytes and on every input of
at least 14 bytes whose first four bytes are not `"PHIC"`; in particular on the first 13
bytes of any compressed string and on a compressed string whose first byte is replaced
by `'X'`. An exception means that nothing is returned. -/
theorem C4_decompress_rejects_malformed {F : Type} [LinearOrderedField F] [FloorRing F]
    (max_size : Nat) (alloc : Nat → Bool)
    (oor : Option Nat → Nat) (opts : GlobalOptions F) ( GOLDEN_RATIO : F)
    (c c1 : ArithmeticCoder) (g g1 : RGBDState) :
    (∀ data : List Symbol, data.length < 14 →
      decompress_main max_size alloc oor opts GOLDEN_RATIO c g data
        = some (Except.error Error.runtime_error_header_too_short)) ∧
    (∀ data : List Symbol, 14 ≤ data.length → data.take 4 ≠ MAGIC →
      decompress_main max_size alloc oor opts GOLDEN_RATIO c g data
        = some (Except.error Error.runtime_error_magic_mismatch)) ∧
    (∀ s out : List Symbol, compress_main opts GOLDEN_RATIO c1 g1 s = some out →
      decompress_main max_size alloc oor opts GOLDEN_RATIO c g (out.take 13)
        = some (Except.error Error.runtime_error_header_too_short) ∧
      decompress_main max_size alloc oor opts GOLDEN_RATIO c g (out.set 0 88)
        = some (Except.error Error.runtime_error_magic_mismatch)) := by
  refine ⟨fun data h => decompress_main_short max_size alloc oor opts GOLDEN_RATIO c g data h,
    fun data h hm =>
      decompress_main_bad_magic max_size alloc oor opts GOLDEN_RATIO c g data h hm, ?_⟩
  intro s out hout
  rw [compress_main_eq] at hout
  injection hout with hout
  subst hout
  constructor
  · apply decompress_main_short
    rw [List.length_take]
    omega
  · apply decompress_main_bad_magic
    · rw [List.length_set, List.length_append, make_header_length]
      omega
    · rw [make_header_eq]
      show ([88, 72, 73, 67] : List Symbol) ≠ MAGIC
      decide

/-- Witness for C4: the 13-byte truncation and the `'X'` corruption of `compress("")`. -/
theorem C4_decompress_rejects_malformed_witness :
    decompress_main (2 ^ 63 - 1) (fun _ => true) (fun _ => 0)
        (⟨false, 3 / 20⟩ : GlobalOptions ℚ) (13 / 8)
        ⟨0, 0, 0, 0, [], [], 0⟩ RGBDState.reset
        (List.take 13 [80, 72, 73, 67, 1, 1, 0, 0, 0, 0, 0, 0, 0, 0, 0])
      = some (Except.error Error.runtime_error_header_too_short) ∧
    decompress_main (2 ^ 63 - 1) (fun _ => true) (fun _ => 0)
        (⟨false, 3 / 20⟩ : GlobalOptions ℚ) (13 / 8)
        ⟨0, 0, 0, 0, [], [], 0⟩ RGBDState.reset
        (List.set [80, 72, 73, 67, 1, 1, 0, 0, 0, 0, 0, 0, 0, 0, 0] 0 88)
      = some (Except.error Error.runtime_error_magic_mismatch) :=
  (C4_decompress_rejects_malformed (2 ^ 63 - 1) (fun _ => true) (fun _ => 0)
    (⟨false, 3 / 20⟩ : GlobalOptions ℚ) (13 / 8)
    ⟨0, 0, 0, 0, [], [], 0⟩ ⟨0, 0, 0, 0, [], [], 0⟩ RGBDState.reset RGBDState.reset).2.2 []
    [80, 72, 73, 67, 1, 1, 0, 0, 0, 0, 0, 0, 0, 0, 0]
    (by rw [compress_main_eq]; rfl)

/-- C5: `decompress` of the 14-byte header with size field 0 returns the empty string,
and `decode(body, 0)` returns the empty sequence for every body, leaving the coder object
and the global RGBD state as they were (it returns before `reserve` is reached). -/
theorem C5_decode_size_zero {F : Type} [LinearOrderedField F] [FloorRing F]
    (max_size : Nat) (alloc : Nat → Bool)
    (oor : Option Nat → Nat) (opts : GlobalOptions F) ( GOLDEN_RATIO : F)
    (c : ArithmeticCoder) (g : RGBDState) :
    decompress_main max_size alloc oor opts GOLDEN_RATIO c g
        [80, 72, 73, 67, 1, 1, 0, 0, 0, 0, 0, 0, 0, 0]
      = some (Except.ok []) ∧
    ∀ body : List Symbol,
      ArithmeticCoder.decode max_size alloc oor opts GOLDEN_RATIO c g body 0
        = some (Except.ok ([], c, g)) :=
  ⟨decompress_main_size_zero max_size alloc oor opts GOLDEN_RATIO c g _ (by decide)
      (by decide) (by decide),
    fun body => decode_zero max_size alloc oor opts GOLDEN_RATIO c g body⟩

/-- C7: the output of `compress` (and the whole result of `encode`, final RGBD state
included) is the same for any two coder objects and any two prior contents of the global
RGBD state: it is a function of the input and the options only. -/
theorem C7_compress_deterministic {F : Type} [LinearOrderedField F] [FloorRing F]
    (opts : GlobalOptions F) ( GOLDEN_RATIO : F) (c c1 : ArithmeticCoder) (g g1 : RGBDState)
    (s : List Symbol) :
    compress_main opts GOLDEN_RATIO c g s = compress_main opts GOLDEN_RATIO c1 g1 s ∧
    (ArithmeticCoder.encode opts GOLDEN_RATIO c g s).map (fun r => (r.1, r.2.2))
      = (ArithmeticCoder.encode opts GOLDEN_RATIO c1 g1 s).map (fun r => (r.1, r.2.2)) := by
  constructor
  · rw [compress_main_eq, compress_main_eq]
  · rw [encode_eq, encode_eq]
    rfl

/-- C8: for every input vector (non-negative or not), in exact arithmetic, the quantizer
of `encode` returns counts with `freq[k] ≥ 1` and `Σ freq[k] = 65536`, and the cumulative
vector has `cum[0] = 0`, `cum[k+1] = cum[k] + freq[k]`, `cum[256] = 65536` and is strictly
increasing. -/
theorem C8_quantizer_valid {F : Type} [LinearOrderedField F] [FloorRing F]
    (P : Symbol → F) :
    ∃ freq, quantize P = some freq ∧ (∀ k, 1 ≤ freq k) ∧ (∑ k : Symbol, freq k) = 65536 ∧
      cumulative freq 0 = 0 ∧
      (∀ k : Symbol, cumulative freq (k.val + 1) = cumulative freq k.val + freq k) ∧
      cumulative freq 256 = 65536 ∧
      (∀ i j : Nat, i < j → j ≤ 256 → cumulative freq i < cumulative freq j) := by
  obtain ⟨freq, hq, hpos, hsum⟩ := quantize_spec P
  refine ⟨freq, hq, hpos, hsum, rfl, ?_, ?_, fun i j hij hj =>
    cumulative_strictMono freq hpos j i hij hj⟩
  · intro k
    rw [cumulative, dif_pos k.isLt]
  · rw [cumulative_256, hsum]
    rfl

/-- C10: the constructor throws exactly when the order list is empty; for a non-empty
list it succeeds with the orders stored, one empty table per order, an empty history and
`max_order` equal to the last order. -/
theorem C10_constructor {F : Type} ( GOLDEN_RATIO : F) (orders : List Nat) :
    ((∃ e, FibonacciContextModel.new GOLDEN_RATIO orders = Except.error e) ↔ orders = []) ∧
    (FibonacciContextModel.new GOLDEN_RATIO ([] : List Nat)
      = (Except.error Error.invalid_argument_orders_empty :
          Except Error (FibonacciContextModel F))) ∧
    (∀ h : orders ≠ [], ∃ m, FibonacciContextModel.new GOLDEN_RATIO orders = Except.ok m ∧
      m.fib_orders = orders ∧ m.context_models.length = orders.length ∧
      (∀ tree ∈ m.context_models, ∀ key, tree key = none) ∧ m.history = [] ∧
      m.max_order = orders.getLast h ∧ m.phi = GOLDEN_RATIO) := by
  refine ⟨?_, rfl, ?_⟩
  · constructor
    · rintro ⟨e, he⟩
      by_contra hne
      unfold FibonacciContextModel.new at he
      rw [if_neg hne] at he
      exact absurd he (by simp)
    · intro h
      subst h
      exact ⟨_, rfl⟩
  · intro h
    refine ⟨_, by unfold FibonacciContextModel.new; rw [if_neg h], rfl, ?_, ?_, rfl, ?_, rfl⟩
    · simp
    · intro tree ht key
      rw [List.eq_of_mem_replicate ht]
    · simp only
      rw [List.getLastD_eq_getLast?, List.getLast?_eq_getLast _ h]
      rfl

/-- Witness for C10 on the order list `{2, 3}`. -/
theorem C10_constructor_witness :
    ∃ m, FibonacciContextModel.new (13 / 8 : ℚ) [2, 3] = Except.ok m ∧
      m.fib_orders = [2, 3] ∧ m.context_models.length = [2, 3].length ∧
      (∀ tree ∈ m.context_models, ∀ key, tree key = none) ∧ m.history = [] ∧
      m.max_order = [2, 3].getLast (by decide) ∧ m.phi = 13 / 8 :=
  (C10_constructor (13 / 8 : ℚ) [2, 3]).2.2 (by decide)

/-! ## Lemmas on the context model -/

theorem count_sum_increment_count (counts : SymbolCounts) (s : Symbol)
    (h : count_sum counts + 1 < 2 ^ 32) :
    count_sum (increment_count counts s) = count_sum counts + 1 := by
  have hle : (counts s).getD 0 ≤ count_sum counts :=
    Finset.single_le_sum (f := fun x : Symbol => (counts x).getD 0)
      (fun _ _ => Nat.zero_le _) (Finset.mem_univ s)
  have hfun : (fun x : Symbol => ((increment_count counts s) x).getD 0)
      = Function.update (fun x : Symbol => (counts x).getD 0) s ((counts s).getD 0 + 1) := by
    funext x
    unfold increment_count
    by_cases hx : x = s
    · subst hx
      rw [Function.update_same, Function.update_same, Nat.mod_eq_of_lt (by omega)]
      rfl
    · rw [Function.update_noteq hx, Function.update_noteq hx]
  have hsum : (∑ x : Symbol, Function.update (fun x : Symbol => (counts x).getD 0) s
        ((counts s).getD 0 + 1) x) + (counts s).getD 0
      = (∑ x : Symbol, (counts x).getD 0) + ((counts s).getD 0 + 1) :=
    sum_update_add (fun x : Symbol => (counts x).getD 0) s ((counts s).getD 0 + 1)
  have hcongr : (∑ x : Symbol, ((increment_count counts s) x).getD 0)
      = ∑ x : Symbol, Function.update (fun x : Symbol => (counts x).getD 0) s
        ((counts s).getD 0 + 1) x :=
    Finset.sum_congr rfl (fun x _ => congrFun hfun x)
  unfold count_sum at h hle ⊢
  rw [hcongr]
  omega

theorem increment_context_bounded (N : Nat) (tree : ContextTree) (context : ContextKey)
    (s : Symbol) (h : counts_bounded N tree) (hN : N + 1 < 2 ^ 32) :
    counts_bounded (N + 1) (increment_context tree context s) := by
  intro key counts hkey
  unfold increment_context at hkey
  by_cases hk : key = context
  · subst hk
    rw [Function.update_same] at hkey
    injection hkey with hkey
    subst hkey
    cases hold : tree key with
    | none =>
      have h0 : count_sum (fun _ : Symbol => (none : Option Nat)) = 0 := by
        unfold count_sum
        simp
      rw [Option.getD_none, count_sum_increment_count _ _ (by rw [h0]; omega), h0]
      omega
    | some old =>
      obtain ⟨h1, h2⟩ := h key old hold
      rw [Option.getD_some, count_sum_increment_count _ _ (by omega)]
      omega
  · rw [Function.update_noteq hk] at hkey
    obtain ⟨h1, h2⟩ := h key counts hkey
    exact ⟨h1, by omega⟩

theorem update_tables_bounded (N : Nat) (history : List Symbol) (s : Symbol)
    (hN : N + 1 < 2 ^ 32) :
    ∀ (orders : List Nat) (trees : List ContextTree),
      (∀ t ∈ trees, counts_bounded N t) →
      ∀ t ∈ update_tables history s orders trees, counts_bounded (N + 1) t := by
  have hmono : ∀ t, counts_bounded N t → counts_bounded (N + 1) t := by
    intro t ht key counts hkey
    obtain ⟨h1, h2⟩ := ht key counts hkey
    exact ⟨h1, by omega⟩
  intro orders
  induction orders with
  | nil =>
    intro trees h t ht
    rw [update_tables] at ht
    exact hmono t (h t ht)
  | cons order orders ih =>
    intro trees h t ht
    cases trees with
    | nil =>
      rw [update_tables] at ht
      exact absurd ht (List.not_mem_nil t)
    | cons tree trees =>
      rw [update_tables, List.mem_cons] at ht
      rcases ht with ht | ht
      · subst ht
        split_ifs
        · exact increment_context_bounded N tree _ s (h tree (List.mem_cons_self _ _)) hN
        · exact hmono tree (h tree (List.mem_cons_self _ _))
      · exact ih trees (fun t1 ht1 => h t1 (List.mem_cons_of_mem _ ht1)) t ht

theorem foldl_update_bounded {F : Type} :
    ∀ (l : List Symbol) (N : Nat) (m : FibonacciContextModel F),
      (∀ t ∈ m.context_models, counts_bounded N t) → N + l.length < 2 ^ 32 →
      ∀ t ∈ (l.foldl FibonacciContextModel.update m).context_models,
        counts_bounded (N + l.length) t := by
  intro l
  induction l with
  | nil => intro N m h _; exact h
  | cons s rest ih =>
    intro N m h hN
    rw [List.length_cons] at hN
    rw [List.foldl_cons, List.length_cons, show N + (rest.length + 1) = (N + 1) + rest.length by omega]
    apply ih (N + 1) (m.update s) _ (by omega)
    exact update_tables_bounded N m.history s (by omega) m.fib_orders m.context_models h

theorem foldl_update_fib_orders {F : Type} :
    ∀ (l : List Symbol) (m : FibonacciContextModel F),
      (l.foldl FibonacciContextModel.update m).fib_orders = m.fib_orders ∧
      (l.foldl FibonacciContextModel.update m).phi = m.phi := by
  intro l
  induction l with
  | nil => intro m; exact ⟨rfl, rfl⟩
  | cons s rest ih =>
    intro m
    rw [List.foldl_cons]
    exact ih (m.update s)

theorem mix_context_unmatched {F : Type} [LinearOrderedField F] (phi : F)
    (history : List Symbol) (i order : Nat) (tree : ContextTree) (acc : (Symbol → F) × F)
    (h : ¬ (order ≤ history.length ∧ (tree (context_of history order)).isSome = true)) :
    mix_context phi history i order tree acc = acc := by
  unfold mix_context
  by_cases hlen : history.length < order
  · rw [if_pos hlen]
  · rw [if_neg hlen]
    cases htree : tree (context_of history order) with
    | none => rfl
    | some counts =>
      exfalso
      apply h
      rw [htree]
      exact ⟨by omega, rfl⟩

theorem mix_context_matched {F : Type} [LinearOrderedField F] (phi : F)
    (history : List Symbol) (i order : Nat) (tree : ContextTree) (acc : (Symbol → F) × F)
    (counts : SymbolCounts) (hlen : order ≤ history.length)
    (htree : tree (context_of history order) = some counts)
    (h1 : 1 ≤ count_sum counts) (h2 : count_sum counts < 2 ^ 32) :
    mix_context phi history i order tree acc
      = (fun k => acc.1 k + phi ^ i * ((((counts k).getD 0 : Nat) : F) / (count_sum counts : F)),
         acc.2 + phi ^ i) := by
  have htot : context_total counts = count_sum counts := Nat.mod_eq_of_lt h2
  unfold mix_context
  rw [if_neg (by omega), htree]
  show (if context_total counts > 0 then
      ((fun k => match counts k with
        | some c => acc.1 k + phi ^ i * ((c : F) / (context_total counts : F))
        | none => acc.1 k), acc.2 + phi ^ i)
    else acc) = _
  rw [htot, if_pos (by omega)]
  refine Prod.ext (funext fun k => ?_) rfl
  show (match counts k with
      | some c => acc.1 k + phi ^ i * ((c : F) / (count_sum counts : F))
      | none => acc.1 k)
    = acc.1 k + phi ^ i * ((((counts k).getD 0 : Nat) : F) / (count_sum counts : F))
  generalize counts k = o
  cases o with
  | none =>
    show acc.1 k = acc.1 k + phi ^ i * (((0 : Nat) : F) / (count_sum counts : F))
    rw [Nat.cast_zero, zero_div, mul_zero, add_zero]
  | some c => rfl

theorem mix_context_inv {F : Type} [LinearOrderedField F] (phi : F) (hphi : 0 < phi)
    (history : List Symbol) (i order N : Nat) (tree : ContextTree) (acc : (Symbol → F) × F)
    (ht : counts_bounded N tree) (hN : N < 2 ^ 32)
    (hsum : (∑ k : Symbol, acc.1 k) = acc.2) (hnn : ∀ k, 0 ≤ acc.1 k) (htw : 0 ≤ acc.2) :
    (∑ k : Symbol, (mix_context phi history i order tree acc).1 k)
        = (mix_context phi history i order tree acc).2 ∧
      (∀ k, 0 ≤ (mix_context phi history i order tree acc).1 k) ∧
      acc.2 ≤ (mix_context phi history i order tree acc).2 ∧
      ((order ≤ history.length ∧ (tree (context_of history order)).isSome = true) →
        0 < (mix_context phi history i order tree acc).2) := by
  by_cases hm : order ≤ history.length ∧ (tree (context_of history order)).isSome = true
  · obtain ⟨hlen, hsome⟩ := hm
    obtain ⟨counts, htree⟩ := Option.isSome_iff_exists.mp hsome
    obtain ⟨h1, h2⟩ := ht _ counts htree
    rw [mix_context_matched phi history i order tree acc counts hlen htree h1 (by omega)]
    have hw : 0 < phi ^ i := pow_pos hphi i
    have hS : (0 : F) < (count_sum counts : F) := by
      exact_mod_cast (by omega : 0 < count_sum counts)
    refine ⟨?_, ?_, ?_, ?_⟩
    · simp only
      rw [Finset.sum_add_distrib, ← Finset.mul_sum, ← Finset.sum_div, hsum]
      have hcast : (∑ k : Symbol, (((counts k).getD 0 : Nat) : F)) = (count_sum counts : F) := by
        unfold count_sum
        rw [Nat.cast_sum]
      rw [hcast, div_self (ne_of_gt hS), mul_one]
    · intro k
      simp only
      have : (0 : F) ≤ (((counts k).getD 0 : Nat) : F) / (count_sum counts : F) :=
        div_nonneg (Nat.cast_nonneg _) (le_of_lt hS)
      have := mul_nonneg (le_of_lt hw) this
      linarith [hnn k]
    · simp only
      linarith
    · intro _
      simp only
      linarith
  · rw [mix_context_unmatched phi history i order tree acc hm]
    exact ⟨hsum, hnn, le_refl _, fun h => absurd h hm⟩

theorem matched_at_iff {F : Type} (m : FibonacciContextModel F) (i : Nat) :
    m.matched_at i = true ↔ ∃ order tree, m.fib_orders[i]? = some order ∧
      m.context_models[i]? = some tree ∧ order ≤ m.history.length ∧
      (tree (context_of m.history order)).isSome = true := by
  unfold FibonacciContextModel.matched_at
  cases h1 : m.fib_orders[i]? with
  | none => simp
  | some order =>
    cases h2 : m.context_models[i]? with
    | none => simp
    | some tree => simp

/-- The invariant of the mixing loop: after the indices below `n` are processed the
accumulated probabilities are non-negative and sum to the accumulated weight, the weight
has not decreased, and it is positive exactly when it was positive before or one of
these indices matched. -/
theorem mix_loop_inv {F : Type} [LinearOrderedField F] (m : FibonacciContextModel F)
    (hphi : 0 < m.phi) (N : Nat) (hN : N < 2 ^ 32)
    (ht : ∀ t ∈ m.context_models, counts_bounded N t) :
    ∀ (n : Nat) (acc : (Symbol → F) × F),
      (∑ k : Symbol, acc.1 k) = acc.2 → (∀ k, 0 ≤ acc.1 k) → 0 ≤ acc.2 →
      (∑ k : Symbol, (mix_loop m n acc).1 k) = (mix_loop m n acc).2 ∧
      (∀ k, 0 ≤ (mix_loop m n acc).1 k) ∧ acc.2 ≤ (mix_loop m n acc).2 ∧
      (0 < (mix_loop m n acc).2 ↔ (0 < acc.2 ∨ ∃ i, i < n ∧ m.matched_at i = true)) := by
  intro n
  induction n with
  | zero =>
    intro acc hsum hnn htw
    refine ⟨hsum, hnn, le_refl _, ?_⟩
    constructor
    · intro h; exact Or.inl h
    · rintro (h | ⟨i, hi, -⟩)
      · exact h
      · omega
  | succ n ih =>
    intro acc hsum hnn htw
    rw [mix_loop]
    cases h1 : m.fib_orders[n]? with
    | none =>
      obtain ⟨a, b, c, d⟩ := ih acc hsum hnn htw
      refine ⟨a, b, c, d.trans ?_⟩
      have hnot : m.matched_at n = false := by
        unfold FibonacciContextModel.matched_at
        rw [h1]
      constructor
      · rintro (h | ⟨i, hi, hmi⟩)
        · exact Or.inl h
        · exact Or.inr ⟨i, by omega, hmi⟩
      · rintro (h | ⟨i, hi, hmi⟩)
        · exact Or.inl h
        · by_cases hin : i = n
          · subst hin; rw [hnot] at hmi; exact absurd hmi (by simp)
          · exact Or.inr ⟨i, by omega, hmi⟩
    | some order =>
      cases h2 : m.context_models[n]? with
      | none =>
        obtain ⟨a, b, c, d⟩ := ih acc hsum hnn htw
        refine ⟨a, b, c, d.trans ?_⟩
        have hnot : m.matched_at n = false := by
          unfold FibonacciContextModel.matched_at
          rw [h1, h2]
        constructor
        · rintro (h | ⟨i, hi, hmi⟩)
          · exact Or.inl h
          · exact Or.inr ⟨i, by omega, hmi⟩
        · rintro (h | ⟨i, hi, hmi⟩)
          · exact Or.inl h
          · by_cases hin : i = n
            · subst hin; rw [hnot] at hmi; exact absurd hmi (by simp)
            · exact Or.inr ⟨i, by omega, hmi⟩
      | some tree =>
        have htree : counts_bounded N tree := ht tree (List.getElem?_mem h2)
        obtain ⟨s1, s2, s3, s4⟩ := mix_context_inv m.phi hphi m.history n order N tree acc
          htree hN hsum hnn htw
        obtain ⟨a, b, c, d⟩ := ih _ s1 s2 (le_trans htw s3)
        refine ⟨a, b, le_trans s3 c, d.trans ?_⟩
        have hmat : m.matched_at n = true ↔
            (order ≤ m.history.length ∧ (tree (context_of m.history order)).isSome = true) := by
          unfold FibonacciContextModel.matched_at
          rw [h1, h2]
          simp
        constructor
        · rintro (h | ⟨i, hi, hmi⟩)
          · by_cases hm : order ≤ m.history.length ∧
                (tree (context_of m.history order)).isSome = true
            · exact Or.inr ⟨n, by omega, hmat.mpr hm⟩
            · rw [mix_context_unmatched m.phi m.history n order tree acc hm] at h
              exact Or.inl h
          · exact Or.inr ⟨i, by omega, hmi⟩
        · rintro (h | ⟨i, hi, hmi⟩)
          · exact Or.inl (lt_of_lt_of_le h s3)
          · by_cases hin : i = n
            · subst hin
              exact Or.inl (s4 (hmat.mp hmi))
            · exact Or.inr ⟨i, by omega, hmi⟩

theorem get_probabilities_eq {F : Type} [LinearOrderedField F] (m : FibonacciContextModel F) :
    m.get_probabilities
      = if (mix_loop m m.fib_orders.length (fun _ => 0, 0)).2 > 0 then
          fun k => ((mix_loop m m.fib_orders.length (fun _ => 0, 0)).1 k
              / (mix_loop m m.fib_orders.length (fun _ => 0, 0)).2)
            * (1 - m.phi ^ (-(m.fib_orders.length : ℤ)))
            + m.phi ^ (-(m.fib_orders.length : ℤ)) / 256
        else fun k => (mix_loop m m.fib_orders.length (fun _ => 0, 0)).1 k + 1 / 256 :=
  rfl

theorem context_matched_iff {F : Type} (m : FibonacciContextModel F) :
    m.context_matched = true ↔ ∃ i, i < m.fib_orders.length ∧ m.matched_at i = true := by
  unfold FibonacciContextModel.context_matched
  rw [List.any_eq_true]
  constructor
  · rintro ⟨i, hi, hm⟩
    exact ⟨i, List.mem_range.mp hi, hm⟩
  · rintro ⟨i, hi, hm⟩
    exact ⟨i, List.mem_range.mpr hi, hm⟩

/-- The output of `get_probabilities` on a model whose stored counts have not wrapped:
it sums to 1, every entry is positive, and every entry is at least `escape / 256`. -/
theorem get_probabilities_spec {F : Type} [LinearOrderedField F] (m : FibonacciContextModel F)
    (hphi : 1 ≤ m.phi) (N : Nat) (hN : N < 2 ^ 32)
    (ht : ∀ t ∈ m.context_models, counts_bounded N t) :
    (∑ k : Symbol, m.get_probabilities k) = 1 ∧ (∀ k, 0 < m.get_probabilities k) ∧
      (∀ k, (if m.context_matched = true then m.phi ^ (-(m.fib_orders.length : ℤ)) else 1) / 256
        ≤ m.get_probabilities k) := by
  have hpos : 0 < m.phi := lt_of_lt_of_le one_pos hphi
  obtain ⟨hsum, hnn, -, hiff⟩ := mix_loop_inv m hpos N hN ht m.fib_orders.length
    (fun _ => 0, 0) (by simp) (fun _ => le_refl _) (le_refl _)
  have he_pos : 0 < m.phi ^ (-(m.fib_orders.length : ℤ)) := zpow_pos hpos _
  have he_le : m.phi ^ (-(m.fib_orders.length : ℤ)) ≤ 1 :=
    zpow_le_one_of_nonpos₀ hphi (by omega)
  rw [get_probabilities_eq]
  generalize mix_loop m m.fib_orders.length (fun _ => 0, 0) = acc at hsum hnn hiff
  generalize m.phi ^ (-(m.fib_orders.length : ℤ)) = e at he_pos he_le
  by_cases htw : acc.2 > 0
  · rw [if_pos htw]
    have hmatched : m.context_matched = true := by
      rw [context_matched_iff]
      rcases hiff.mp htw with h | h
      · exact absurd h (lt_irrefl _)
      · exact h
    rw [if_pos hmatched]
    have hk : ∀ k, e / 256 ≤ acc.1 k / acc.2 * (1 - e) + e / 256 := by
      intro k
      have h1 : 0 ≤ acc.1 k / acc.2 := div_nonneg (hnn k) (le_of_lt htw)
      have h2 : 0 ≤ acc.1 k / acc.2 * (1 - e) := mul_nonneg h1 (by linarith)
      linarith
    have he256 : 0 < e / 256 := div_pos he_pos (by norm_num)
    refine ⟨?_, fun k => lt_of_lt_of_le he256 (hk k), hk⟩
    rw [Finset.sum_add_distrib, ← Finset.sum_mul, ← Finset.sum_div, hsum,
      div_self (ne_of_gt htw), Finset.sum_const, Finset.card_univ, Fintype.card_fin]
    simp only [nsmul_eq_mul, Nat.cast_ofNat]
    ring
  · rw [if_neg htw]
    have hk : ∀ k, (1 : F) / 256 ≤ acc.1 k + 1 / 256 := fun k => by linarith [hnn k]
    have hzero : acc.2 = 0 := by
      rcases lt_or_eq_of_le (show acc.2 ≤ 0 from not_lt.mp htw) with h | h
      · have h0 : 0 ≤ acc.2 := by
          rw [← hsum]
          exact Finset.sum_nonneg (fun k _ => hnn k)
        linarith
      · exact h
    have h256 : (0 : F) < 1 / 256 := by norm_num
    refine ⟨?_, fun k => lt_of_lt_of_le h256 (hk k), fun k => le_trans ?_ (hk k)⟩
    · rw [Finset.sum_add_distrib, hsum, hzero, Finset.sum_const, Finset.card_univ,
        Fintype.card_fin]
      simp only [nsmul_eq_mul, Nat.cast_ofNat]
      norm_num
    · split_ifs
      · exact div_le_div_of_nonneg_right he_le (by norm_num)
      · exact le_refl _

/-! ## The order-1 model on `overflow_input` -/

theorem update_order_one_first {F : Type} (phi : F) (t : ContextTree) (s : Symbol) :
    (⟨[1], 1, [t], [], phi⟩ : FibonacciContextModel F).update s = ⟨[1], 1, [t], [s], phi⟩ :=
  rfl

theorem update_order_one {F : Type} (phi : F) (t : ContextTree) (h s : Symbol) :
    (⟨[1], 1, [t], [h], phi⟩ : FibonacciContextModel F).update s
      = ⟨[1], 1, [increment_context t [h] s], [s], phi⟩ :=
  rfl

theorem foldl_update_replicate {F : Type} (phi : F) (a : Symbol) :
    ∀ (n : Nat) (t : ContextTree),
      (List.replicate n a).foldl FibonacciContextModel.update
          (⟨[1], 1, [t], [a], phi⟩ : FibonacciContextModel F)
        = ⟨[1], 1, [(fun t => increment_context t [a] a)^[n] t], [a], phi⟩ := by
  intro n
  induction n with
  | zero => intro t; rfl
  | succ n ih =>
    intro t
    rw [List.replicate_succ, List.foldl_cons, update_order_one, ih, Function.iterate_succ_apply]

theorem foldl_update_alternate {F : Type} (phi : F) (a b : Symbol) :
    ∀ (n : Nat) (t : ContextTree),
      (alternate b a n).foldl FibonacciContextModel.update
          (⟨[1], 1, [t], [a], phi⟩ : FibonacciContextModel F)
        = ⟨[1], 1,
            [(fun t => increment_context (increment_context t [a] b) [b] a)^[n] t], [a], phi⟩ := by
  intro n
  induction n with
  | zero => intro t; rfl
  | succ n ih =>
    intro t
    rw [alternate, List.foldl_cons, List.foldl_cons, update_order_one, update_order_one, ih,
      Function.iterate_succ_apply]

theorem increment_count_apply (c : SymbolCounts) (s x : Symbol) :
    increment_count c s x = if x = s then some (((c s).getD 0 + 1) % 2 ^ 32) else c x := by
  unfold increment_count
  by_cases hx : x = s
  · subst hx
    rw [Function.update_same, if_pos rfl]
  · rw [Function.update_noteq hx, if_neg hx]

theorem iterate_increment_count (s : Symbol) :
    ∀ (n : Nat) (c : SymbolCounts) (x : Symbol),
      ((fun c => increment_count c s)^[n] c) x
        = if x = s then (if n = 0 then c s else some (((c s).getD 0 + n) % 2 ^ 32)) else c x := by
  intro n
  induction n with
  | zero =>
    intro c x
    by_cases hx : x = s
    · subst hx
      rw [if_pos rfl, if_pos rfl]
      rfl
    · rw [if_neg hx]
      rfl
  | succ n ih =>
    intro c x
    rw [Function.iterate_succ_apply', increment_count_apply, ih, ih, if_pos rfl]
    by_cases hx : x = s
    · subst hx
      rw [if_pos rfl, if_pos rfl, if_neg (Nat.succ_ne_zero n)]
      by_cases hn : n = 0
      · subst hn
        rw [if_pos rfl]
      · rw [if_neg hn, Option.getD_some]
        congr 1
        omega
    · rw [if_neg hx, if_neg hx, if_neg hx]

theorem getD_iterate_same (a : Symbol) :
    ∀ (n : Nat) (t : ContextTree),
      (((fun t => increment_context t [a] a)^[n] t) [a]).getD (fun _ => none)
        = (fun c => increment_count c a)^[n] ((t [a]).getD (fun _ => none)) := by
  intro n
  induction n with
  | zero => intro t; rfl
  | succ n ih =>
    intro t
    rw [Function.iterate_succ_apply', Function.iterate_succ_apply', ← ih]
    unfold increment_context
    rw [Function.update_same]
    rfl

theorem getD_iterate_pair (a b : Symbol) (hab : ([b] : ContextKey) ≠ [a]) :
    ∀ (n : Nat) (t : ContextTree),
      (((fun t => increment_context (increment_context t [a] b) [b] a)^[n] t) [a]).getD
          (fun _ => none)
        = (fun c => increment_count c b)^[n] ((t [a]).getD (fun _ => none)) := by
  intro n
  induction n with
  | zero => intro t; rfl
  | succ n ih =>
    intro t
    rw [Function.iterate_succ_apply', Function.iterate_succ_apply', ← ih]
    unfold increment_context
    rw [Function.update_noteq hab.symm, Function.update_same]
    rfl

theorem get_iterate_pair_succ (a b : Symbol) (hab : ([b] : ContextKey) ≠ [a]) (n : Nat)
    (t : ContextTree) :
    ((fun t => increment_context (increment_context t [a] b) [b] a)^[n + 1] t) [a]
      = some ((fun c => increment_count c b)^[n + 1] ((t [a]).getD (fun _ => none))) := by
  rw [Function.iterate_succ_apply', Function.iterate_succ_apply', ← getD_iterate_pair a b hab]
  unfold increment_context
  rw [Function.update_noteq hab.symm, Function.update_same]

theorem foldl_update_overflow_shape {F : Type} (phi : F) (N M : Nat) :
    (List.replicate (N + 1) (0 : Symbol) ++ alternate 1 0 M).foldl FibonacciContextModel.update
        (⟨[1], 1, [fun _ => none], [], phi⟩ : FibonacciContextModel F)
      = ⟨[1], 1,
          [(fun t => increment_context (increment_context t [0] 1) [1] 0)^[M]
            ((fun t => increment_context t [0] 0)^[N] (fun _ => none))],
          [0], phi⟩ := by
  rw [List.foldl_append, List.replicate_succ, List.foldl_cons, update_order_one_first,
    foldl_update_replicate, foldl_update_alternate]

theorem overflow_counts_general (N M : Nat) (hN : 0 < N) (hN2 : N < 2 ^ 32)
    (hM : M + 1 < 2 ^ 32) :
    ∃ counts : SymbolCounts,
      ((fun t => increment_context (increment_context t [0] 1) [1] 0)^[M + 1]
        ((fun t => increment_context t [0] 0)^[N] (fun _ => none))) [0] = some counts ∧
      counts 0 = some N ∧ counts 1 = some (M + 1) ∧
      ∀ x : Symbol, x ≠ 0 → x ≠ 1 → counts x = none := by
  have hab : ([1] : ContextKey) ≠ [0] := by decide
  have h01 : (0 : Symbol) ≠ 1 := by decide
  refine ⟨_, get_iterate_pair_succ 0 1 hab M _, ?_, ?_, ?_⟩
  · rw [iterate_increment_count, if_neg h01, getD_iterate_same, iterate_increment_count,
      if_pos rfl, if_neg (by omega)]
    show some ((0 + N) % 2 ^ 32) = some N
    rw [Nat.zero_add, Nat.mod_eq_of_lt hN2]
  · rw [iterate_increment_count, if_pos rfl, if_neg (Nat.succ_ne_zero M), getD_iterate_same,
      iterate_increment_count, if_neg h01.symm]
    show some ((0 + (M + 1)) % 2 ^ 32) = some (M + 1)
    rw [Nat.zero_add, Nat.mod_eq_of_lt hM]
  · intro x hx0 hx1
    rw [iterate_increment_count, if_neg hx1, getD_iterate_same, iterate_increment_count,
      if_neg hx0]
    rfl

theorem count_sum_two (counts : SymbolCounts) (n0 n1 : Nat) (h0 : counts 0 = some n0)
    (h1 : counts 1 = some n1) (hx : ∀ x : Symbol, x ≠ 0 → x ≠ 1 → counts x = none) :
    count_sum counts = n0 + n1 := by
  have hfun : ∀ x : Symbol, (counts x).getD 0
      = (if x = 0 then n0 else 0) + (if x = 1 then n1 else 0) := by
    intro x
    by_cases hx0 : x = 0
    · subst hx0
      rw [h0, if_pos rfl, if_neg (by decide)]
      rfl
    · by_cases hx1 : x = 1
      · subst hx1
        rw [h1, if_neg hx0, if_pos rfl]
        simp
      · rw [hx x hx0 hx1, if_neg hx0, if_neg hx1]
        rfl
  unfold count_sum
  rw [Finset.sum_congr rfl (fun x _ => hfun x), Finset.sum_add_distrib,
    Finset.sum_ite_eq' Finset.univ (0 : Symbol) (fun _ => n0),
    Finset.sum_ite_eq' Finset.univ (1 : Symbol) (fun _ => n1),
    if_pos (Finset.mem_univ _), if_pos (Finset.mem_univ _)]

theorem gold_ge_three_halves : (3 : ℝ) / 2 ≤ goldenRatio := by
  have h2 : (2 : ℝ) ≤ Real.sqrt 5 := Real.le_sqrt_of_sq_le (by norm_num)
  unfold goldenRatio
  linarith

theorem get_probabilities_overflow {F : Type} [LinearOrderedField F] (phi : F)
    (t : ContextTree) (counts : SymbolCounts) (ht : t [0] = some counts)
    (h0 : counts 0 = some (2 ^ 31)) (hsum : count_sum counts = 2 ^ 32 + 1) :
    (⟨[1], 1, [t], [0], phi⟩ : FibonacciContextModel F).get_probabilities 0
      = (2 : F) ^ 31 * (1 - phi ^ (-(1 : ℤ))) + phi ^ (-(1 : ℤ)) / 256 := by
  have htot : context_total counts = 1 := by
    unfold context_total
    unfold count_sum at hsum
    rw [hsum]
    norm_num
  have hmix : mix_loop (⟨[1], 1, [t], [0], phi⟩ : FibonacciContextModel F) 1 (fun _ => 0, 0)
      = ((fun k => match counts k with
          | some c => (0 : F) + phi ^ 0 * ((c : F) / ((1 : Nat) : F))
          | none => 0), (0 : F) + phi ^ 0) := by
    show mix_context phi [0] 0 1 t (fun _ => 0, 0) = _
    unfold mix_context
    rw [if_neg (by decide)]
    show (match t [0] with
      | none => ((fun _ : Symbol => (0 : F)), (0 : F))
      | some counts =>
        if context_total counts > 0 then
          ((fun k => match counts k with
            | some c => (0 : F) + phi ^ 0 * ((c : F) / (context_total counts : F))
            | none => 0), (0 : F) + phi ^ 0)
        else ((fun _ : Symbol => (0 : F)), (0 : F))) = _
    rw [ht]
    show (if context_total counts > 0 then
          ((fun k => match counts k with
            | some c => (0 : F) + phi ^ 0 * ((c : F) / (context_total counts : F))
            | none => 0), (0 : F) + phi ^ 0)
        else ((fun _ : Symbol => (0 : F)), (0 : F))) = _
    rw [htot, if_pos (by decide)]
  rw [get_probabilities_eq]
  show (if (mix_loop (⟨[1], 1, [t], [0], phi⟩ : FibonacciContextModel F) 1 (fun _ => 0, 0)).2 > 0
      then fun k => ((mix_loop (⟨[1], 1, [t], [0], phi⟩ : FibonacciContextModel F) 1
              (fun _ => 0, 0)).1 k
            / (mix_loop (⟨[1], 1, [t], [0], phi⟩ : FibonacciContextModel F) 1 (fun _ => 0, 0)).2)
          * (1 - phi ^ (-(1 : ℤ))) + phi ^ (-(1 : ℤ)) / 256
      else fun k => (mix_loop (⟨[1], 1, [t], [0], phi⟩ : FibonacciContextModel F) 1
          (fun _ => 0, 0)).1 k + 1 / 256) 0 = _
  rw [hmix]
  have hpos : ((0 : F) + phi ^ 0) > 0 := by norm_num
  rw [if_pos hpos]
  show ((match counts 0 with
        | some c => (0 : F) + phi ^ 0 * ((c : F) / ((1 : Nat) : F))
        | none => 0) / ((0 : F) + phi ^ 0)) * (1 - phi ^ (-(1 : ℤ))) + phi ^ (-(1 : ℤ)) / 256 = _
  rw [h0]
  show (((0 : F) + phi ^ 0 * ((((2 ^ 31 : Nat)) : F) / ((1 : Nat) : F))) / ((0 : F) + phi ^ 0))
      * (1 - phi ^ (-(1 : ℤ))) + phi ^ (-(1 : ℤ)) / 256 = _
  norm_num

/-- C9 (counterexample): with the order list `{1}` and the input `overflow_input` the two
counts stored for the context `00` add up to `2^32 + 1`, the 32-bit `context_total` wraps to
1, and the result of `get_probabilities` no longer sums to 1 with positive entries (its
entry for the byte 00 alone exceeds 1). -/
theorem C9_counts_wrap_counterexample :
    ∃ m0, FibonacciContextModel.new goldenRatio [1] = Except.ok m0 ∧
      ¬ ((∑ k : Symbol,
            (overflow_input.foldl FibonacciContextModel.update m0).get_probabilities k) = 1 ∧
          ∀ k : Symbol,
            0 < (overflow_input.foldl FibonacciContextModel.update m0).get_probabilities k) := by
  refine ⟨⟨[1], 1, [fun _ => none], [], goldenRatio⟩, rfl, ?_⟩
  unfold overflow_input
  rw [foldl_update_overflow_shape goldenRatio (2 ^ 31) (2 ^ 31 + 1)]
  obtain ⟨counts, ht, h0, h1, hx⟩ :=
    overflow_counts_general (2 ^ 31) (2 ^ 31) (by norm_num) (by norm_num) (by norm_num)
  have hsum : count_sum counts = 2 ^ 32 + 1 := by
    rw [count_sum_two counts _ _ h0 h1 hx]
    norm_num
  have hP := get_probabilities_overflow goldenRatio _ counts ht h0 hsum
  rintro ⟨hone, hposall⟩
  have hge := Finset.single_le_sum (fun k _ => le_of_lt (hposall k)) (Finset.mem_univ (0 : Symbol))
  rw [hone, hP, zpow_neg_one] at hge
  have hg := gold_ge_three_halves
  have hinv : goldenRatio⁻¹ ≤ 2 / 3 := by
    rw [inv_le_comm₀ gold_pos (by norm_num)]
    norm_num
    linarith
  have hinv0 : 0 < goldenRatio⁻¹ := inv_pos.mpr gold_pos
  have h31 : (2 : ℝ) ^ 31 * (1 - goldenRatio⁻¹) ≥ 2 ^ 31 * (1 / 3) :=
    mul_le_mul_of_nonneg_left (by linarith) (by positivity)
  have hbig : (2 : ℝ) ^ 31 * (1 / 3) > 1 := by norm_num
  linarith [div_pos hinv0 (by norm_num : (0 : ℝ) < 256)]

/-- C9 (amended): for every non-empty order list and every sequence of fewer than `2^32`
update calls, `get_probabilities()` (in exact arithmetic, with any `φ ≥ 1`) returns a
vector that sums to exactly 1, whose entries are all positive and at least `escape / 256`,
where `escape = φ^(-n)` when some context matched and 1 otherwise. -/
theorem C9_model_sanity {F : Type} [LinearOrderedField F] ( GOLDEN_RATIO : F)
    (hphi : 1 ≤ GOLDEN_RATIO) (orders : List Nat) (m0 : FibonacciContextModel F)
    (hnew : FibonacciContextModel.new GOLDEN_RATIO orders = Except.ok m0)
    (updates : List Symbol) (hlen : updates.length < 2 ^ 32) :
    (∑ k : Symbol, (updates.foldl FibonacciContextModel.update m0).get_probabilities k) = 1 ∧
    (∀ k : Symbol, 0 < (updates.foldl FibonacciContextModel.update m0).get_probabilities k) ∧
    (∀ k : Symbol,
      (if (updates.foldl FibonacciContextModel.update m0).context_matched = true
        then GOLDEN_RATIO ^ (-(orders.length : ℤ)) else 1) / 256
      ≤ (updates.foldl FibonacciContextModel.update m0).get_probabilities k) := by
  unfold FibonacciContextModel.new at hnew
  by_cases he : orders = []
  · rw [if_pos he] at hnew
    exact absurd hnew (by simp)
  · rw [if_neg he] at hnew
    injection hnew with hm0
    subst hm0
    have hinit : ∀ t ∈ (⟨orders, orders.getLastD 0,
        List.replicate orders.length (fun _ => none), [], GOLDEN_RATIO⟩ :
          FibonacciContextModel F).context_models, counts_bounded 0 t := by
      intro t ht key counts hkey
      rw [List.eq_of_mem_replicate ht] at hkey
      exact absurd hkey (by simp)
    have hb := foldl_update_bounded updates 0 _ hinit (by omega)
    obtain ⟨ho, hp⟩ := foldl_update_fib_orders updates
      (⟨orders, orders.getLastD 0, List.replicate orders.length (fun _ => none), [],
        GOLDEN_RATIO⟩ : FibonacciContextModel F)
    have hspec := get_probabilities_spec _ (by rw [hp]; exact hphi) (0 + updates.length)
      (by omega) hb
    rw [ho, hp] at hspec
    exact hspec

/-- Witness for C9 over the reals, with the golden ratio, the default orders and the
updates `"ABA"`. -/
theorem C9_model_sanity_witness :
    (∑ k : Symbol, (([0x41, 0x42, 0x41] : List Symbol).foldl FibonacciContextModel.update
        (FibonacciContextModel.default goldenRatio)).get_probabilities k) = 1 ∧
    (∀ k : Symbol, 0 < (([0x41, 0x42, 0x41] : List Symbol).foldl FibonacciContextModel.update
        (FibonacciContextModel.default goldenRatio)).get_probabilities k) ∧
    (∀ k : Symbol,
      (if (([0x41, 0x42, 0x41] : List Symbol).foldl FibonacciContextModel.update
          (FibonacciContextModel.default goldenRatio)).context_matched = true
        then goldenRatio ^ (-(([2, 3, 5, 8, 13] : List Nat).length : ℤ)) else 1) / 256
      ≤ (([0x41, 0x42, 0x41] : List Symbol).foldl FibonacciContextModel.update
          (FibonacciContextModel.default goldenRatio)).get_probabilities k) :=
  C9_model_sanity goldenRatio (le_of_lt one_lt_gold) [2, 3, 5, 8, 13]
    (FibonacciContextModel.default goldenRatio) rfl [0x41, 0x42, 0x41] (by norm_num)

/-! ## Claims C11 - C20 -/

/-- C11: at `(low, high) = (0, 2^64 - 1)` the 64-bit `range = high - low + 1` is 0, both
offsets are 0 and `high = low - 1` wraps back to `2^64 - 1`, so narrowing leaves the state
where it is; no renormalisation branch fires there (the loop returns the coder unchanged,
so no bit is written); `encode` returns the one byte `0x00` for every input and every
option setting; and two inputs of the same length have the same `compress` output. -/
theorem C11_initial_state_fixed_point {F : Type} [LinearOrderedField F] [FloorRing F]
    (opts : GlobalOptions F) ( GOLDEN_RATIO : F) (c : ArithmeticCoder) (g : RGBDState)
    (s1 s2 : List Symbol) (hlen : s1.length = s2.length) :
    add64 (sub64 TOP_VALUE 0) 1 = 0 ∧
    (∀ cum_lo : Nat, (add64 (sub64 TOP_VALUE 0) 1 * cum_lo / TOTAL_FREQ) % 2 ^ 64 = 0) ∧
    sub64 (sub64 (add64 (add64 0 0) 0) 0) 1 = TOP_VALUE ∧
    (∀ cum_lo cum_hi : Nat, narrow 0 TOP_VALUE cum_lo cum_hi = (0, TOP_VALUE)) ∧
    (∀ (fuel : Nat) (d : ArithmeticCoder), d.low = 0 → d.high = TOP_VALUE →
      encode_renormalize (fuel + 1) d = some d) ∧
    (ArithmeticCoder.encode opts GOLDEN_RATIO c g s1).map (fun r => r.1) = some [0] ∧
    compress_main opts GOLDEN_RATIO c g s1 = compress_main opts GOLDEN_RATIO c g s2 := by
  have hrange : add64 (sub64 TOP_VALUE 0) 1 = 0 := by
    unfold add64 sub64 TOP_VALUE
    norm_num
  refine ⟨hrange, ?_, ?_, narrow_initial, encode_renormalize_initial, ?_, ?_⟩
  · intro cum_lo
    rw [hrange, Nat.zero_mul, Nat.zero_div, Nat.zero_mod]
  · unfold add64 sub64 TOP_VALUE
    norm_num
  · rw [encode_eq]
    rfl
  · rw [compress_main_eq, compress_main_eq, hlen]

/-- Witness for C11 on the inputs `"A"` and `"B"`. -/
theorem C11_initial_state_fixed_point_witness :
    (ArithmeticCoder.encode (⟨true, 3 / 20⟩ : GlobalOptions ℚ) (13 / 8)
        ⟨0, 0, 0, 0, [], [], 0⟩ RGBDState.reset [0x41]).map (fun r => r.1) = some [0] ∧
    compress_main (⟨true, 3 / 20⟩ : GlobalOptions ℚ) (13 / 8)
        ⟨0, 0, 0, 0, [], [], 0⟩ RGBDState.reset [0x41]
      = compress_main (⟨true, 3 / 20⟩ : GlobalOptions ℚ) (13 / 8)
        ⟨0, 0, 0, 0, [], [], 0⟩ RGBDState.reset [0x42] :=
  (C11_initial_state_fixed_point (⟨true, 3 / 20⟩ : GlobalOptions ℚ) (13 / 8)
    ⟨0, 0, 0, 0, [], [], 0⟩ RGBDState.reset [0x41] [0x42] rfl).2.2.2.2.2

/-- C12 (fails on the code): from the initial state `low = 0`, `high = 2^64 - 1`, with
`cum[sym] = 16640` and `cum[sym + 1] = 16896` (the byte `'A'` under the uniform table),
the narrowing step of the code yields `(0, 2^64 - 1)` again, not
`[16640 * 2^48, 16896 * 2^48 - 1]`: its `range` is the 64-bit value 0, not `2^64`. -/
theorem C12_initial_narrowing_wraps :
    add64 (sub64 TOP_VALUE 0) 1 = 0 ∧
    narrow 0 TOP_VALUE 16640 16896 = (0, TOP_VALUE) ∧
    narrow 0 TOP_VALUE 16640 16896 ≠ (16640 * 2 ^ 48, 16896 * 2 ^ 48 - 1) := by
  have hrange : add64 (sub64 TOP_VALUE 0) 1 = 0 := by
    unfold add64 sub64 TOP_VALUE
    norm_num
  refine ⟨hrange, narrow_initial _ _, ?_⟩
  rw [narrow_initial]
  intro h
  injection h with h1 h2
  exact absurd h1 (by norm_num)

/-! ## Lemmas on narrowing and renormalisation -/

theorem shift_in_bit_low_high (c : ArithmeticCoder) :
    c.shift_in_bit.low = c.low ∧ c.shift_in_bit.high = c.high ∧
    c.shift_in_bit.pending_bits = c.pending_bits ∧ c.shift_in_bit.bit_buffer = c.bit_buffer ∧
    c.shift_in_bit.input_buffer = c.input_buffer := by
  unfold ArithmeticCoder.shift_in_bit ArithmeticCoder.read_bit
  split_ifs <;> exact ⟨rfl, rfl, rfl, rfl, rfl⟩

theorem emit_low_high (c : ArithmeticCoder) (bit : Bool) :
    (c.emit bit).low = c.low ∧ (c.emit bit).high = c.high :=
  ⟨rfl, rfl⟩

theorem encode_next_low_high (c : ArithmeticCoder) (bit : Bool) (x y p : Nat) :
    ((c.emit bit).shift.low = shl64 c.low ∧ (c.emit bit).shift.high = shl64 c.high ||| 1) ∧
    (({ c.emit bit with low := x, high := y } : ArithmeticCoder).shift.low = shl64 x ∧
      ({ c.emit bit with low := x, high := y } : ArithmeticCoder).shift.high = shl64 y ||| 1) ∧
    (({ c with pending_bits := p, low := x, high := y } : ArithmeticCoder).shift.low = shl64 x ∧
      ({ c with pending_bits := p, low := x, high := y } : ArithmeticCoder).shift.high
        = shl64 y ||| 1) :=
  ⟨⟨rfl, rfl⟩, ⟨rfl, rfl⟩, ⟨rfl, rfl⟩⟩

theorem decode_next_low_high (c : ArithmeticCoder) (x y v : Nat) :
    (c.shift.shift_in_bit.low = shl64 c.low ∧ c.shift.shift_in_bit.high = shl64 c.high ||| 1) ∧
    (({ c with low := x, high := y, code_value := v } : ArithmeticCoder).shift.shift_in_bit.low
        = shl64 x ∧
      ({ c with low := x, high := y, code_value := v } : ArithmeticCoder).shift.shift_in_bit.high
        = shl64 y ||| 1) := by
  refine ⟨⟨?_, ?_⟩, ⟨?_, ?_⟩⟩
  · rw [(shift_in_bit_low_high _).1]; rfl
  · rw [(shift_in_bit_low_high _).2.1]; rfl
  · rw [(shift_in_bit_low_high _).1]; rfl
  · rw [(shift_in_bit_low_high _).2.1]; rfl

/-- The renormalisation loops of `encode` and `decode` take the same branches: started on
coders with the same `(low, high)` they stop after the same number of iterations (for
every fuel both run out or both return) with the same `(low, high)`. -/
theorem renormalize_lockstep :
    ∀ (fuel : Nat) (ce cd : ArithmeticCoder), ce.low = cd.low → ce.high = cd.high →
      (encode_renormalize fuel ce).map (fun c => (c.low, c.high))
        = (decode_renormalize fuel cd).map (fun c => (c.low, c.high)) := by
  intro fuel
  induction fuel with
  | zero => intro ce cd _ _; rfl
  | succ fuel ih =>
    intro ce cd hl hh
    rw [encode_renormalize, decode_renormalize, hl, hh]
    by_cases h1 : cd.high < HALF
    · rw [if_pos h1, if_pos h1]
      apply ih
      · rw [(encode_next_low_high ce false 0 0 0).1.1, (decode_next_low_high cd 0 0 0).1.1, hl]
      · rw [(encode_next_low_high ce false 0 0 0).1.2, (decode_next_low_high cd 0 0 0).1.2, hh]
    · rw [if_neg h1, if_neg h1]
      by_cases h2 : cd.low ≥ HALF
      · rw [if_pos h2, if_pos h2]
        apply ih
        · rw [(encode_next_low_high ce true _ _ 0).2.1.1, (decode_next_low_high cd _ _ _).2.1,
            (emit_low_high ce true).1, hl]
        · rw [(encode_next_low_high ce true _ _ 0).2.1.2, (decode_next_low_high cd _ _ _).2.2,
            (emit_low_high ce true).2, hh]
      · rw [if_neg h2, if_neg h2]
        by_cases h3 : cd.low ≥ FIRST_QUARTER ∧ cd.high < THIRD_QUARTER
        · rw [if_pos h3, if_pos h3]
          apply ih
          · rw [(encode_next_low_high ce true _ _ _).2.2.1, (decode_next_low_high cd _ _ _).2.1]
          · rw [(encode_next_low_high ce true _ _ _).2.2.2, (decode_next_low_high cd _ _ _).2.2]
        · rw [if_neg h3, if_neg h3, Option.map_some', Option.map_some', hl, hh]

theorem shl64_or_one (x : Nat) : shl64 x ||| 1 = (2 * x) % 2 ^ 64 + 1 := by
  unfold shl64
  rw [Nat.shiftLeft_eq]
  have h : x * 2 ^ 1 % 2 ^ 64 = 2 ^ 1 * (x % 2 ^ 63) := by omega
  rw [h, ← Nat.mul_add_lt_is_or (by decide : 1 < 2 ^ 1)]
  omega

theorem shl64_eq (x : Nat) : shl64 x = (2 * x) % 2 ^ 64 := by
  unfold shl64
  rw [Nat.shiftLeft_eq]
  omega

/-- One renormalisation iteration keeps `low ≤ high < 2^64` and doubles the width
`high - low + 1`; the three cases are E1, E2 and E3. -/
theorem renormalize_iteration (low high : Nat) (hlh : low ≤ high) (hhigh : high < 2 ^ 64) :
    (high < HALF →
      shl64 low ≤ (shl64 high ||| 1) ∧ (shl64 high ||| 1) < 2 ^ 64 ∧
      (shl64 high ||| 1) - shl64 low + 1 = 2 * (high - low + 1)) ∧
    (HALF ≤ low →
      shl64 (sub64 low HALF) ≤ (shl64 (sub64 high HALF) ||| 1) ∧
      (shl64 (sub64 high HALF) ||| 1) < 2 ^ 64 ∧
      (shl64 (sub64 high HALF) ||| 1) - shl64 (sub64 low HALF) + 1 = 2 * (high - low + 1)) ∧
    (FIRST_QUARTER ≤ low ∧ high < THIRD_QUARTER →
      shl64 (sub64 low FIRST_QUARTER) ≤ (shl64 (sub64 high FIRST_QUARTER) ||| 1) ∧
      (shl64 (sub64 high FIRST_QUARTER) ||| 1) < 2 ^ 64 ∧
      (shl64 (sub64 high FIRST_QUARTER) ||| 1) - shl64 (sub64 low FIRST_QUARTER) + 1
        = 2 * (high - low + 1)) := by
  simp only [shl64_or_one]
  simp only [shl64_eq]
  unfold sub64 HALF FIRST_QUARTER THIRD_QUARTER
  refine ⟨fun h => ?_, fun h => ?_, fun h => ?_⟩ <;> omega

/-- From `low ≤ high < 2^64` the loop of `encode` returns within 65 iterations, and the
state it returns satisfies `low ≤ high`, `low < 2^63 ≤ high` and is not inside the middle
half. -/
theorem encode_renormalize_post :
    ∀ (fuel : Nat) (c : ArithmeticCoder), c.low ≤ c.high → c.high < 2 ^ 64 →
      2 ^ 64 < (c.high - c.low + 1) * 2 ^ fuel →
      ∃ c1, encode_renormalize fuel c = some c1 ∧ c1.low ≤ c1.high ∧ c1.high < 2 ^ 64 ∧
        c1.low < HALF ∧ HALF ≤ c1.high ∧
        ¬ (FIRST_QUARTER ≤ c1.low ∧ c1.high < THIRD_QUARTER) := by
  intro fuel
  induction fuel with
  | zero =>
    intro c hlh hhigh hfuel
    exfalso
    rw [pow_zero, mul_one] at hfuel
    omega
  | succ fuel ih =>
    intro c hlh hhigh hfuel
    obtain ⟨e1, e2, e3⟩ := renormalize_iteration c.low c.high hlh hhigh
    have hstep : ∀ w1 : Nat, w1 = 2 * (c.high - c.low + 1) → 2 ^ 64 < w1 * 2 ^ fuel := by
      intro w1 hw1
      rw [hw1]
      calc 2 ^ 64 < (c.high - c.low + 1) * 2 ^ (fuel + 1) := hfuel
        _ = 2 * (c.high - c.low + 1) * 2 ^ fuel := by ring
    rw [encode_renormalize]
    by_cases h1 : c.high < HALF
    · rw [if_pos h1]
      obtain ⟨a1, a2, a3⟩ := e1 h1
      apply ih
      · rw [(encode_next_low_high c false 0 0 0).1.1, (encode_next_low_high c false 0 0 0).1.2]
        exact a1
      · rw [(encode_next_low_high c false 0 0 0).1.2]
        exact a2
      · rw [(encode_next_low_high c false 0 0 0).1.1, (encode_next_low_high c false 0 0 0).1.2]
        exact hstep _ a3
    · rw [if_neg h1]
      by_cases h2 : c.low ≥ HALF
      · rw [if_pos h2]
        obtain ⟨a1, a2, a3⟩ := e2 h2
        apply ih
        · rw [(encode_next_low_high c true _ _ 0).2.1.1, (encode_next_low_high c true _ _ 0).2.1.2,
            (emit_low_high c true).1, (emit_low_high c true).2]
          exact a1
        · rw [(encode_next_low_high c true _ _ 0).2.1.2, (emit_low_high c true).2]
          exact a2
        · rw [(encode_next_low_high c true _ _ 0).2.1.1, (encode_next_low_high c true _ _ 0).2.1.2,
            (emit_low_high c true).1, (emit_low_high c true).2]
          exact hstep _ a3
      · rw [if_neg h2]
        by_cases h3 : c.low ≥ FIRST_QUARTER ∧ c.high < THIRD_QUARTER
        · rw [if_pos h3]
          obtain ⟨a1, a2, a3⟩ := e3 h3
          apply ih
          · rw [(encode_next_low_high c true _ _ _).2.2.1, (encode_next_low_high c true _ _ _).2.2.2]
            exact a1
          · rw [(encode_next_low_high c true _ _ _).2.2.2]
            exact a2
          · rw [(encode_next_low_high c true _ _ _).2.2.1, (encode_next_low_high c true _ _ _).2.2.2]
            exact hstep _ a3
        · rw [if_neg h3]
          exact ⟨c, rfl, hlh, hhigh, by omega, by omega, h3⟩

theorem renorm_fuel_enough (c : ArithmeticCoder) :
    2 ^ 64 < (c.high - c.low + 1) * 2 ^ RENORM_FUEL := by
  have h1 : 1 ≤ c.high - c.low + 1 := by omega
  calc 2 ^ 64 < 1 * 2 ^ RENORM_FUEL := by unfold RENORM_FUEL; norm_num
    _ ≤ (c.high - c.low + 1) * 2 ^ RENORM_FUEL := Nat.mul_le_mul_right _ h1

theorem encode_renormalize_exit :
    ∀ (fuel : Nat) (c c1 : ArithmeticCoder), c.low ≤ c.high → c.high < 2 ^ 64 →
      encode_renormalize fuel c = some c1 → renormalized c1.low c1.high := by
  intro fuel
  induction fuel with
  | zero =>
    intro c c1 _ _ h
    rw [encode_renormalize] at h
    exact absurd h (by simp)
  | succ fuel ih =>
    intro c c1 hlh hhigh h
    obtain ⟨e1, e2, e3⟩ := renormalize_iteration c.low c.high hlh hhigh
    rw [encode_renormalize] at h
    by_cases h1 : c.high < HALF
    · rw [if_pos h1] at h
      obtain ⟨a1, a2, -⟩ := e1 h1
      refine ih _ c1 ?_ ?_ h
      · rw [(encode_next_low_high c false 0 0 0).1.1, (encode_next_low_high c false 0 0 0).1.2]
        exact a1
      · rw [(encode_next_low_high c false 0 0 0).1.2]
        exact a2
    · rw [if_neg h1] at h
      by_cases h2 : c.low ≥ HALF
      · rw [if_pos h2] at h
        obtain ⟨a1, a2, -⟩ := e2 h2
        refine ih _ c1 ?_ ?_ h
        · rw [(encode_next_low_high c true _ _ 0).2.1.1, (encode_next_low_high c true _ _ 0).2.1.2,
            (emit_low_high c true).1, (emit_low_high c true).2]
          exact a1
        · rw [(encode_next_low_high c true _ _ 0).2.1.2, (emit_low_high c true).2]
          exact a2
      · rw [if_neg h2] at h
        by_cases h3 : c.low ≥ FIRST_QUARTER ∧ c.high < THIRD_QUARTER
        · rw [if_pos h3] at h
          obtain ⟨a1, a2, -⟩ := e3 h3
          refine ih _ c1 ?_ ?_ h
          · rw [(encode_next_low_high c true _ _ _).2.2.1, (encode_next_low_high c true _ _ _).2.2.2]
            exact a1
          · rw [(encode_next_low_high c true _ _ _).2.2.2]
            exact a2
        · rw [if_neg h3] at h
          injection h with h
          subst h
          exact ⟨hlh, hhigh, by omega, by omega, h3⟩

theorem decode_of_encode_renormalize (fuel : Nat) (c : ArithmeticCoder) :
    (∀ c2, decode_renormalize fuel c = some c2 →
      ∃ c1, encode_renormalize fuel c = some c1 ∧ c1.low = c2.low ∧ c1.high = c2.high) ∧
    (∀ c1, encode_renormalize fuel c = some c1 →
      ∃ c2, decode_renormalize fuel c = some c2 ∧ c2.low = c1.low ∧ c2.high = c1.high) := by
  have h := renormalize_lockstep fuel c c rfl rfl
  constructor
  · intro c2 h2
    rw [h2, Option.map_some'] at h
    cases he : encode_renormalize fuel c with
    | none => rw [he] at h; exact absurd h (by simp)
    | some c1 =>
      rw [he, Option.map_some'] at h
      injection h with h
      injection h with h1 h2
      exact ⟨c1, rfl, h1, h2⟩
  · intro c1 h1
    rw [h1, Option.map_some'] at h
    cases hd : decode_renormalize fuel c with
    | none => rw [hd] at h; exact absurd h (by simp)
    | some c2 =>
      rw [hd, Option.map_some'] at h
      injection h with h
      injection h with h1 h2
      exact ⟨c2, rfl, h1.symm, h2.symm⟩

/-- After renormalisation the interval is wider than a quarter and its exact width is at
least `TOTAL_FREQ`. -/
theorem renormalized_facts (low high : Nat) (h : renormalized low high) :
    2 ^ 62 ≤ high - low ∧ TOTAL_FREQ ≤ high - low + 1 := by
  obtain ⟨hlh, hhigh, h1, h2, h3⟩ := h
  unfold HALF at h1 h2
  unfold FIRST_QUARTER THIRD_QUARTER at h3
  have hw : 2 ^ 62 ≤ high - low := by omega
  exact ⟨hw, by unfold TOTAL_FREQ; omega⟩

theorem encode_next_frame (c : ArithmeticCoder) (bit : Bool) (x y p : Nat) :
    ((c.emit bit).shift.code_value = c.code_value ∧
      (c.emit bit).shift.input_buffer = c.input_buffer ∧
      (c.emit bit).shift.bit_idx = c.bit_idx) ∧
    (({ c.emit bit with low := x, high := y } : ArithmeticCoder).shift.code_value = c.code_value ∧
      ({ c.emit bit with low := x, high := y } : ArithmeticCoder).shift.input_buffer
        = c.input_buffer ∧
      ({ c.emit bit with low := x, high := y } : ArithmeticCoder).shift.bit_idx = c.bit_idx) ∧
    (({ c with pending_bits := p, low := x, high := y } : ArithmeticCoder).shift.code_value
        = c.code_value ∧
      ({ c with pending_bits := p, low := x, high := y } : ArithmeticCoder).shift.input_buffer
        = c.input_buffer ∧
      ({ c with pending_bits := p, low := x, high := y } : ArithmeticCoder).shift.bit_idx
        = c.bit_idx) :=
  ⟨⟨rfl, rfl, rfl⟩, ⟨rfl, rfl, rfl⟩, ⟨rfl, rfl, rfl⟩⟩

theorem decode_next_frame (c : ArithmeticCoder) (x y v : Nat) :
    (c.shift.shift_in_bit.pending_bits = c.pending_bits ∧
      c.shift.shift_in_bit.bit_buffer = c.bit_buffer ∧
      c.shift.shift_in_bit.input_buffer = c.input_buffer) ∧
    (({ c with low := x, high := y, code_value := v } :
        ArithmeticCoder).shift.shift_in_bit.pending_bits = c.pending_bits ∧
      ({ c with low := x, high := y, code_value := v } :
        ArithmeticCoder).shift.shift_in_bit.bit_buffer = c.bit_buffer ∧
      ({ c with low := x, high := y, code_value := v } :
        ArithmeticCoder).shift.shift_in_bit.input_buffer = c.input_buffer) := by
  refine ⟨⟨?_, ?_, ?_⟩, ⟨?_, ?_, ?_⟩⟩
  · rw [(shift_in_bit_low_high _).2.2.1]; rfl
  · rw [(shift_in_bit_low_high _).2.2.2.1]; rfl
  · rw [(shift_in_bit_low_high _).2.2.2.2]; rfl
  · rw [(shift_in_bit_low_high _).2.2.1]; rfl
  · rw [(shift_in_bit_low_high _).2.2.2.1]; rfl
  · rw [(shift_in_bit_low_high _).2.2.2.2]; rfl

theorem encode_renormalize_frame :
    ∀ (fuel : Nat) (c c1 : ArithmeticCoder), encode_renormalize fuel c = some c1 →
      c1.code_value = c.code_value ∧ c1.input_buffer = c.input_buffer ∧ c1.bit_idx = c.bit_idx := by
  intro fuel
  induction fuel with
  | zero =>
    intro c c1 h
    rw [encode_renormalize] at h
    exact absurd h (by simp)
  | succ fuel ih =>
    intro c c1 h
    rw [encode_renormalize] at h
    by_cases h1 : c.high < HALF
    · rw [if_pos h1] at h
      obtain ⟨a, b, d⟩ := ih _ c1 h
      obtain ⟨p, q, r⟩ := (encode_next_frame c false 0 0 0).1
      exact ⟨a.trans p, b.trans q, d.trans r⟩
    · rw [if_neg h1] at h
      by_cases h2 : c.low ≥ HALF
      · rw [if_pos h2] at h
        obtain ⟨a, b, d⟩ := ih _ c1 h
        obtain ⟨p, q, r⟩ := (encode_next_frame c true (sub64 (c.emit true).low HALF)
          (sub64 (c.emit true).high HALF) 0).2.1
        exact ⟨a.trans p, b.trans q, d.trans r⟩
      · rw [if_neg h2] at h
        by_cases h3 : c.low ≥ FIRST_QUARTER ∧ c.high < THIRD_QUARTER
        · rw [if_pos h3] at h
          obtain ⟨a, b, d⟩ := ih _ c1 h
          obtain ⟨p, q, r⟩ := (encode_next_frame c true (sub64 c.low FIRST_QUARTER)
            (sub64 c.high FIRST_QUARTER) (add64 c.pending_bits 1)).2.2
          exact ⟨a.trans p, b.trans q, d.trans r⟩
        · rw [if_neg h3] at h
          injection h with h
          subst h
          exact ⟨rfl, rfl, rfl⟩

theorem decode_renormalize_frame :
    ∀ (fuel : Nat) (c c1 : ArithmeticCoder), decode_renormalize fuel c = some c1 →
      c1.pending_bits = c.pending_bits ∧ c1.bit_buffer = c.bit_buffer ∧
      c1.input_buffer = c.input_buffer := by
  intro fuel
  induction fuel with
  | zero =>
    intro c c1 h
    rw [decode_renormalize] at h
    exact absurd h (by simp)
  | succ fuel ih =>
    intro c c1 h
    rw [decode_renormalize] at h
    by_cases h1 : c.high < HALF
    · rw [if_pos h1] at h
      obtain ⟨a, b, d⟩ := ih _ c1 h
      obtain ⟨p, q, r⟩ := (decode_next_frame c 0 0 0).1
      exact ⟨a.trans p, b.trans q, d.trans r⟩
    · rw [if_neg h1] at h
      by_cases h2 : c.low ≥ HALF
      · rw [if_pos h2] at h
        obtain ⟨a, b, d⟩ := ih _ c1 h
        obtain ⟨p, q, r⟩ := (decode_next_frame c (sub64 c.low HALF) (sub64 c.high HALF)
          (sub64 c.code_value HALF)).2
        exact ⟨a.trans p, b.trans q, d.trans r⟩
      · rw [if_neg h2] at h
        by_cases h3 : c.low ≥ FIRST_QUARTER ∧ c.high < THIRD_QUARTER
        · rw [if_pos h3] at h
          obtain ⟨a, b, d⟩ := ih _ c1 h
          obtain ⟨p, q, r⟩ := (decode_next_frame c (sub64 c.low FIRST_QUARTER)
            (sub64 c.high FIRST_QUARTER) (sub64 c.code_value FIRST_QUARTER)).2
          exact ⟨a.trans p, b.trans q, d.trans r⟩
        · rw [if_neg h3] at h
          injection h with h
          subst h
          exact ⟨rfl, rfl, rfl⟩

/-- After renormalisation the 64-bit `range` of the next narrowing is the exact width,
except on the full interval, where it is 0. -/
theorem renormalized_range (low high : Nat) (h : renormalized low high) :
    (add64 (sub64 high low) 1 = high - low + 1 ∧ TOTAL_FREQ ≤ add64 (sub64 high low) 1) ∨
    (low = 0 ∧ high = TOP_VALUE ∧ add64 (sub64 high low) 1 = 0) := by
  obtain ⟨hlh, hhigh, h1, h2, h3⟩ := h
  unfold HALF at h1 h2
  unfold FIRST_QUARTER THIRD_QUARTER at h3
  unfold add64 sub64 TOP_VALUE TOTAL_FREQ
  by_cases hfull : high - low + 1 < 2 ^ 64
  · left
    have e1 : (high + 2 ^ 64 - low) % 2 ^ 64 = high - low := by
      rw [show high + 2 ^ 64 - low = (high - low) + 2 ^ 64 by omega, Nat.add_mod_right]
      exact Nat.mod_eq_of_lt (by omega)
    omega
  · right
    have hl0 : low = 0 := by omega
    have hh0 : high = 2 ^ 64 - 1 := by omega
    subst hl0
    subst hh0
    norm_num

/-- Started from any registers with `low ≤ high` (below `2^64`), the renormalisation
loops of `encode` and of `decode` exit (65 units of fuel are enough, and whatever the
fuel a returned state is an exit state); at the exit `low ≤ high`, `low < 2^63 ≤ high`
and not (`low ≥ 2^62` and `high < 3 * 2^62`). Every such state has `high - low ≥ 2^62`
and an exact width of at least `TOTAL_FREQ`; the 64-bit variable `range` of the code
holds that width at every exit state but `(0, 2^64 - 1)`, where it is 0. -/
theorem renormalize_postcondition (c : ArithmeticCoder) (hlh : c.low ≤ c.high)
    (hhigh : c.high < 2 ^ 64) :
    (∃ c1, encode_renormalize RENORM_FUEL c = some c1 ∧ renormalized c1.low c1.high) ∧
    (∃ c2, decode_renormalize RENORM_FUEL c = some c2 ∧ renormalized c2.low c2.high) ∧
    (∀ fuel c1, encode_renormalize fuel c = some c1 → renormalized c1.low c1.high) ∧
    (∀ fuel c2, decode_renormalize fuel c = some c2 → renormalized c2.low c2.high) ∧
    (∀ low high : Nat, renormalized low high →
      2 ^ 62 ≤ high - low ∧ TOTAL_FREQ ≤ high - low + 1 ∧
      ((add64 (sub64 high low) 1 = high - low + 1 ∧ TOTAL_FREQ ≤ add64 (sub64 high low) 1) ∨
        (low = 0 ∧ high = TOP_VALUE ∧ add64 (sub64 high low) 1 = 0))) := by
  obtain ⟨c1, hc1, hpost⟩ := encode_renormalize_post RENORM_FUEL c hlh hhigh
    (renorm_fuel_enough c)
  obtain ⟨c2, hc2, hl2, hh2⟩ := (decode_of_encode_renormalize RENORM_FUEL c).2 c1 hc1
  refine ⟨⟨c1, hc1, hpost⟩, ⟨c2, hc2, ?_⟩, ?_, ?_, ?_⟩
  · rw [hl2, hh2]
    exact hpost
  · intro fuel d hd
    exact encode_renormalize_exit fuel c d hlh hhigh hd
  · intro fuel d hd
    obtain ⟨e, he, hel, heh⟩ := (decode_of_encode_renormalize fuel c).1 d hd
    rw [← hel, ← heh]
    exact encode_renormalize_exit fuel c e hlh hhigh he
  · intro low high h
    obtain ⟨hw, hT⟩ := renormalized_facts low high h
    exact ⟨hw, hT, renormalized_range low high h⟩

/-- C18 (fails on the code): in `encode` and in `decode` the renormalisation loop that
follows the narrowing for the first symbol, whatever its cumulative bounds `a`, `b`,
exits at once in the state `low = 0`, `high = 2^64 - 1`. This state satisfies the exit
condition, has `high - low ≥ 2^62` and the exact width `2^64 ≥ TOTAL_FREQ`, but the
64-bit `range = high - low + 1` of the next narrowing is 0, which is not at least
`TOTAL_FREQ`. The loop of `encode` also exits in this state when started at
`low = 0`, `high = 2^63 - 1` (one E1 iteration). -/
theorem C18_exit_state_range_wraps (c : ArithmeticCoder) (a b : Nat) (d : List Symbol) :
    encode_renormalize RENORM_FUEL (c.encode_init.narrow_to a b) = some c.encode_init ∧
    decode_renormalize RENORM_FUEL ((c.decode_init d).narrow_to a b)
      = some (c.decode_init d) ∧
    (c.encode_init.low, c.encode_init.high) = (0, TOP_VALUE) ∧
    ((c.decode_init d).low, (c.decode_init d).high) = (0, TOP_VALUE) ∧
    renormalized 0 TOP_VALUE ∧
    2 ^ 62 ≤ TOP_VALUE - 0 ∧
    TOTAL_FREQ ≤ TOP_VALUE - 0 + 1 ∧
    add64 (sub64 TOP_VALUE 0) 1 = 0 ∧
    ¬ (TOTAL_FREQ ≤ add64 (sub64 TOP_VALUE 0) 1) ∧
    (encode_renormalize RENORM_FUEL ⟨0, 2 ^ 63 - 1, 0, 0, [], [], 0⟩).map
        (fun c1 => (c1.low, c1.high)) = some (0, TOP_VALUE) := by
  have hrange : add64 (sub64 TOP_VALUE 0) 1 = 0 := by
    unfold add64 sub64 TOP_VALUE
    norm_num
  refine ⟨?_, ?_, rfl, rfl, ?_, by decide, by decide, hrange, ?_, ?_⟩
  · rw [narrow_to_initial c.encode_init rfl rfl, show RENORM_FUEL = 64 + 1 from rfl,
      encode_renormalize_initial 64 _ rfl rfl]
  · rw [narrow_to_initial (c.decode_init d) rfl rfl, show RENORM_FUEL = 64 + 1 from rfl,
      decode_renormalize_initial 64 _ rfl rfl]
  · unfold renormalized TOP_VALUE HALF FIRST_QUARTER THIRD_QUARTER
    norm_num
  · rw [hrange]
    unfold TOTAL_FREQ
    norm_num
  · have h1 : encode_renormalize RENORM_FUEL ⟨0, 2 ^ 63 - 1, 0, 0, [], [], 0⟩
        = encode_renormalize 64 ((⟨0, 2 ^ 63 - 1, 0, 0, [], [], 0⟩ : ArithmeticCoder).emit
            false).shift := by
      show encode_renormalize (64 + 1) _ = _
      rw [encode_renormalize, if_pos (by unfold HALF; norm_num)]
    have hl : ((⟨0, 2 ^ 63 - 1, 0, 0, [], [], 0⟩ : ArithmeticCoder).emit false).shift.low = 0 := by
      decide
    have hh : ((⟨0, 2 ^ 63 - 1, 0, 0, [], [], 0⟩ : ArithmeticCoder).emit false).shift.high
        = TOP_VALUE := by
      decide
    rw [h1, encode_renormalize_initial 63 _ hl hh, Option.map_some', hl, hh]

/-- The registers after narrowing are below `2^64`. -/
theorem narrow_to_high_lt (c : ArithmeticCoder) (a b : Nat) : (c.narrow_to a b).high < 2 ^ 64 :=
  Nat.mod_lt _ (by decide)

/-- C15: take an encoder `ce` and a decoder `cd` holding the same `(low, high)`, any
count table and any symbol `s`. Narrowing for `s` gives both the same registers; for
every amount of fuel the two renormalisation loops either both return, with the same
final `(low, high)`, or both do not, so they run the same number of iterations (a run
of `n` iterations is one that returns with fuel `n + 1` and not with less); the encoder
leaves `code_value` and the input cursor alone, the decoder leaves `pending_bits` and
`bit_buffer` alone; and when the narrowed interval has `low ≤ high` both loops do
return within 65 iterations. -/
theorem C15_encoder_decoder_lockstep (ce cd : ArithmeticCoder) (hl : ce.low = cd.low)
    (hh : ce.high = cd.high) (freq : Symbol → Nat) (s : Symbol) :
    (ce.narrow_to (cumulative freq s.val) (cumulative freq (s.val + 1))).low
      = (cd.narrow_to (cumulative freq s.val) (cumulative freq (s.val + 1))).low ∧
    (ce.narrow_to (cumulative freq s.val) (cumulative freq (s.val + 1))).high
      = (cd.narrow_to (cumulative freq s.val) (cumulative freq (s.val + 1))).high ∧
    (∀ fuel : Nat,
      (encode_renormalize fuel
          (ce.narrow_to (cumulative freq s.val) (cumulative freq (s.val + 1)))).map
          (fun c => (c.low, c.high))
        = (decode_renormalize fuel
          (cd.narrow_to (cumulative freq s.val) (cumulative freq (s.val + 1)))).map
          (fun c => (c.low, c.high))) ∧
    (∀ fuel : Nat,
      encode_renormalize fuel
          (ce.narrow_to (cumulative freq s.val) (cumulative freq (s.val + 1))) = none ↔
        decode_renormalize fuel
          (cd.narrow_to (cumulative freq s.val) (cumulative freq (s.val + 1))) = none) ∧
    (∀ fuel c1,
      encode_renormalize fuel
          (ce.narrow_to (cumulative freq s.val) (cumulative freq (s.val + 1))) = some c1 →
        c1.code_value = ce.code_value ∧ c1.input_buffer = ce.input_buffer ∧
          c1.bit_idx = ce.bit_idx) ∧
    (∀ fuel c2,
      decode_renormalize fuel
          (cd.narrow_to (cumulative freq s.val) (cumulative freq (s.val + 1))) = some c2 →
        c2.pending_bits = cd.pending_bits ∧ c2.bit_buffer = cd.bit_buffer ∧
          c2.input_buffer = cd.input_buffer) ∧
    ((ce.narrow_to (cumulative freq s.val) (cumulative freq (s.val + 1))).low
        ≤ (ce.narrow_to (cumulative freq s.val) (cumulative freq (s.val + 1))).high →
      ∃ c1 c2,
        encode_renormalize RENORM_FUEL
          (ce.narrow_to (cumulative freq s.val) (cumulative freq (s.val + 1))) = some c1 ∧
        decode_renormalize RENORM_FUEL
          (cd.narrow_to (cumulative freq s.val) (cumulative freq (s.val + 1))) = some c2 ∧
        c1.low = c2.low ∧ c1.high = c2.high) := by
  have hnl : ∀ a b : Nat, (ce.narrow_to a b).low = (cd.narrow_to a b).low := by
    intro a b
    show (narrow ce.low ce.high a b).1 = (narrow cd.low cd.high a b).1
    rw [hl, hh]
  have hnh : ∀ a b : Nat, (ce.narrow_to a b).high = (cd.narrow_to a b).high := by
    intro a b
    show (narrow ce.low ce.high a b).2 = (narrow cd.low cd.high a b).2
    rw [hl, hh]
  generalize cumulative freq s.val = a at *
  generalize cumulative freq (s.val + 1) = b at *
  have hlock := fun fuel : Nat =>
    renormalize_lockstep fuel (ce.narrow_to a b) (cd.narrow_to a b) (hnl a b) (hnh a b)
  refine ⟨hnl a b, hnh a b, hlock, ?_, ?_, ?_, ?_⟩
  · intro fuel
    have h := hlock fuel
    constructor
    · intro he
      rw [he] at h
      cases hd : decode_renormalize fuel (cd.narrow_to a b) with
      | none => rfl
      | some d => rw [hd] at h; exact absurd h (by simp)
    · intro hd
      rw [hd] at h
      cases he : encode_renormalize fuel (ce.narrow_to a b) with
      | none => rfl
      | some d => rw [he] at h; exact absurd h (by simp)
  · intro fuel c1 h
    obtain ⟨p, q, r⟩ := encode_renormalize_frame fuel (ce.narrow_to a b) c1 h
    exact ⟨p, q, r⟩
  · intro fuel c2 h
    obtain ⟨p, q, r⟩ := decode_renormalize_frame fuel (cd.narrow_to a b) c2 h
    exact ⟨p, q, r⟩
  · intro hle
    obtain ⟨c1, hc1, -⟩ := encode_renormalize_post RENORM_FUEL (ce.narrow_to a b) hle
      (narrow_to_high_lt ce a b) (renorm_fuel_enough _)
    have h := hlock RENORM_FUEL
    rw [hc1, Option.map_some'] at h
    cases hd : decode_renormalize RENORM_FUEL (cd.narrow_to a b) with
    | none => rw [hd] at h; exact absurd h (by simp)
    | some c2 =>
      rw [hd, Option.map_some'] at h
      injection h with h
      injection h with h1 h2
      exact ⟨c1, c2, hc1, rfl, h1, h2⟩

/-- Witness for C15: an encoder and a decoder at `low = 0`, `high = 2^63 + 5`, the
uniform table with 256 counts per symbol, the symbol `'A'`. -/
theorem C15_encoder_decoder_lockstep_witness :
    (encode_renormalize RENORM_FUEL
        ((⟨0, 2 ^ 63 + 5, 2, 0, [true], [], 0⟩ : ArithmeticCoder).narrow_to
          (cumulative (fun _ => 256) (0x41 : Symbol).val)
          (cumulative (fun _ => 256) ((0x41 : Symbol).val + 1)))).map
        (fun c => (c.low, c.high))
      = (decode_renormalize RENORM_FUEL
        ((⟨0, 2 ^ 63 + 5, 0, 77, [], [0x12, 0x34], 3⟩ : ArithmeticCoder).narrow_to
          (cumulative (fun _ => 256) (0x41 : Symbol).val)
          (cumulative (fun _ => 256) ((0x41 : Symbol).val + 1)))).map
        (fun c => (c.low, c.high)) :=
  (C15_encoder_decoder_lockstep ⟨0, 2 ^ 63 + 5, 2, 0, [true], [], 0⟩
    ⟨0, 2 ^ 63 + 5, 0, 77, [], [0x12, 0x34], 3⟩ rfl rfl (fun _ => 256) 0x41).2.2.1 RENORM_FUEL

/-- C16: the quantizer inlined in `decode` is the same function as the one inlined in
`encode`: on every input vector both return the same count table `freq`, hence the same
cumulative table `cum`; in particular both use the same sorted index list (the same
stable sort, comparator and initial order `0, 1, ..., 255`) in the deficit and in the
surplus branch. -/
theorem C16_quantizer_identical {F : Type} [LinearOrderedField F] [FloorRing F]
    (P : Symbol → F) :
    decode_quantize P = quantize P ∧
    (decode_quantize P).map cumulative = (quantize P).map cumulative ∧
    (∀ frac : Symbol → F,
      List.insertionSort (fun a b => frac a ≥ frac b) (List.finRange 256)
        = sort_frac_descending frac ∧
      List.insertionSort (fun a b => frac a ≤ frac b) (List.finRange 256)
        = sort_frac_ascending frac) :=
  ⟨rfl, rfl, fun _ => ⟨rfl, rfl⟩⟩

/-! ## Lemmas on the symbol search of `decode` -/

theorem cumulative_mono (freq : Symbol → Nat) :
    ∀ j i : Nat, i ≤ j → cumulative freq i ≤ cumulative freq j := by
  intro j
  induction j with
  | zero =>
    intro i hi
    rw [Nat.le_zero.mp hi]
  | succ j ih =>
    intro i hi
    by_cases hij : i = j + 1
    · rw [hij]
    · have h1 := ih i (by omega)
      have h2 : cumulative freq j ≤ cumulative freq (j + 1) := by
        rw [cumulative]
        exact Nat.le_add_right _ _
      exact Nat.le_trans h1 h2

/-- On a strictly increasing list `find?` returns the least element that passes. -/
theorem find?_least (p : Symbol → Bool) (x : Symbol) (hx : p x = true)
    (hlt : ∀ y : Symbol, y < x → p y = false) :
    ∀ l : List Symbol, l.Pairwise (fun a b => a < b) → x ∈ l → l.find? p = some x := by
  intro l
  induction l with
  | nil =>
    intro _ hmem
    exact absurd hmem (List.not_mem_nil x)
  | cons h t ih =>
    intro hpw hmem
    rw [List.pairwise_cons] at hpw
    by_cases hhx : h = x
    · rw [hhx, List.find?_cons_of_pos _ hx]
    · have hmem1 : x ∈ t := by
        rcases List.mem_cons.mp hmem with e | e
        · exact absurd e.symm hhx
        · exact e
      have hph : ¬ (p h = true) := by
        rw [hlt h (hpw.1 x hmem1)]
        exact Bool.false_ne_true
      rw [List.find?_cons_of_neg _ hph]
      exact ih hpw.2 hmem1

/-- The search of `decode` returns `s` when `cum[s] ≤ scaled < cum[s + 1]`. -/
theorem find_symbol_eq (freq : Symbol → Nat) (scaled : Nat) (s : Symbol)
    (h1 : cumulative freq s.val ≤ scaled) (h2 : scaled < cumulative freq (s.val + 1)) :
    (List.finRange 256).find? (fun t => decide (scaled < cumulative freq (t.val + 1))) = some s ∧
    find_symbol (cumulative freq) scaled = s := by
  have h : (List.finRange 256).find? (fun t => decide (scaled < cumulative freq (t.val + 1)))
      = some s := by
    apply find?_least _ s _ _ _ (List.pairwise_lt_finRange 256) (List.mem_finRange s)
    · exact decide_eq_true h2
    · intro y hy
      apply decide_eq_false
      have hle : cumulative freq (y.val + 1) ≤ cumulative freq s.val :=
        cumulative_mono freq s.val (y.val + 1) (Nat.succ_le_of_lt hy)
      omega
  refine ⟨h, ?_⟩
  unfold find_symbol
  rw [h]
  rfl

/-- Every value below `cum[n]` lies in one of the first `n` cells of the table. -/
theorem cumulative_cell (freq : Symbol → Nat) (scaled : Nat) :
    ∀ n : Nat, n ≤ 256 → scaled < cumulative freq n →
      ∃ s : Symbol, cumulative freq s.val ≤ scaled ∧ scaled < cumulative freq (s.val + 1) := by
  intro n
  induction n with
  | zero =>
    intro _ h
    rw [cumulative] at h
    exact absurd h (Nat.not_lt_zero _)
  | succ n ih =>
    intro hn h
    by_cases hlt : scaled < cumulative freq n
    · exact ih (by omega) hlt
    · exact ⟨⟨n, by omega⟩, Nat.le_of_not_lt hlt, h⟩

/-- The value `scaled` is always inside `[0, TOTAL_FREQ - 1]`. -/
theorem scaled_value_lt (oor : Option Nat → Nat) (code_value low range : Nat) :
    scaled_value oor code_value low range < TOTAL_FREQ := by
  unfold scaled_value
  dsimp only
  split_ifs <;> first
    | exact (by decide : TOTAL_FREQ - 1 < TOTAL_FREQ)
    | (apply Nat.lt_of_not_le; assumption)

/-- On the 64-bit range 0 (the quotient is `+∞`) the value `scaled` is the clamped
conversion result, whatever the code value. -/
theorem scaled_value_range_zero (oor : Option Nat → Nat) (code : Nat) :
    scaled_value oor code 0 0
      = if oor none % 2 ^ 32 ≥ TOTAL_FREQ then TOTAL_FREQ - 1 else oor none % 2 ^ 32 := by
  have hpos : ¬ (((code : Int) - ((0 : Nat) : Int) + 1) * (TOTAL_FREQ : Int) - 1 ≤ 0) := by
    unfold TOTAL_FREQ
    push_cast
    omega
  unfold scaled_value
  simp only [if_neg hpos, if_true]

theorem cumulative_const (v : Nat) : ∀ n : Nat, n ≤ 256 → cumulative (fun _ => v) n = n * v := by
  intro n
  induction n with
  | zero =>
    intro _
    rw [cumulative, Nat.zero_mul]
  | succ n ih =>
    intro hn
    rw [cumulative, ih (by omega), dif_pos (by omega), Nat.succ_mul]

/-- The first selection of `decode` does not depend on the compressed data. -/
theorem decode_symbol_initial (oor : Option Nat → Nat) (c : ArithmeticCoder)
    (freq : Symbol → Nat) (d : List Symbol) :
    decode_symbol oor (c.decode_init d) freq
      = find_symbol (cumulative freq)
          (if oor none % 2 ^ 32 ≥ TOTAL_FREQ then TOTAL_FREQ - 1 else oor none % 2 ^ 32) := by
  have hrange : add64 (sub64 TOP_VALUE 0) 1 = 0 := by
    unfold add64 sub64 TOP_VALUE
    norm_num
  unfold decode_symbol
  rw [(decode_init_low_high c d).1, (decode_init_low_high c d).2, hrange,
    scaled_value_range_zero]

/-- A step of the initial fill of `code_value` depends on the code value, the input and
the cursor only. -/
theorem shift_in_bit_congr (c d : ArithmeticCoder) (h1 : c.code_value = d.code_value)
    (h2 : c.input_buffer = d.input_buffer) (h3 : c.bit_idx = d.bit_idx) :
    c.shift_in_bit.code_value = d.shift_in_bit.code_value ∧
    c.shift_in_bit.input_buffer = d.shift_in_bit.input_buffer ∧
    c.shift_in_bit.bit_idx = d.shift_in_bit.bit_idx := by
  unfold ArithmeticCoder.shift_in_bit ArithmeticCoder.read_bit
  by_cases hc : c.bit_idx ≥ c.input_buffer.length * 8
  · have hd : d.bit_idx ≥ d.input_buffer.length * 8 := by
      rw [← h2, ← h3]
      exact hc
    rw [if_pos hc, if_pos hd]
    refine ⟨?_, h2, h3⟩
    show shl64 c.code_value ||| 0 = shl64 d.code_value ||| 0
    rw [h1]
  · have hd : ¬ (d.bit_idx ≥ d.input_buffer.length * 8) := by
      rw [← h2, ← h3]
      exact hc
    rw [if_neg hc, if_neg hd]
    refine ⟨?_, h2, ?_⟩
    · show shl64 c.code_value
          ||| ((c.input_buffer.getD (c.bit_idx / 8) 0).val >>> (7 - c.bit_idx % 8) &&& 1)
        = shl64 d.code_value
          ||| ((d.input_buffer.getD (d.bit_idx / 8) 0).val >>> (7 - d.bit_idx % 8) &&& 1)
      rw [h1, h2, h3]
    · show c.bit_idx + 1 = d.bit_idx + 1
      rw [h3]

theorem iterate_shift_in_bit_congr (n : Nat) (c d : ArithmeticCoder)
    (h1 : c.code_value = d.code_value) (h2 : c.input_buffer = d.input_buffer)
    (h3 : c.bit_idx = d.bit_idx) :
    ((ArithmeticCoder.shift_in_bit)^[n] c).code_value
        = ((ArithmeticCoder.shift_in_bit)^[n] d).code_value ∧
    ((ArithmeticCoder.shift_in_bit)^[n] c).input_buffer
        = ((ArithmeticCoder.shift_in_bit)^[n] d).input_buffer ∧
    ((ArithmeticCoder.shift_in_bit)^[n] c).bit_idx
        = ((ArithmeticCoder.shift_in_bit)^[n] d).bit_idx := by
  induction n with
  | zero => exact ⟨h1, h2, h3⟩
  | succ n ih =>
    rw [Function.iterate_succ_apply', Function.iterate_succ_apply']
    exact shift_in_bit_congr _ _ ih.1 ih.2.1 ih.2.2

/-- The code value that `decode` starts with depends on the compressed data only. -/
theorem decode_init_code_value (c d : ArithmeticCoder) (data : List Symbol) :
    (c.decode_init data).code_value = (d.decode_init data).code_value := by
  show ((ArithmeticCoder.shift_in_bit)^[64]
      { c with input_buffer := data, bit_idx := 0, code_value := 0 }).code_value
    = ((ArithmeticCoder.shift_in_bit)^[64]
      { d with input_buffer := data, bit_idx := 0, code_value := 0 }).code_value
  exact (iterate_shift_in_bit_congr 64
    { c with input_buffer := data, bit_idx := 0, code_value := 0 }
    { d with input_buffer := data, bit_idx := 0, code_value := 0 } rfl rfl rfl).1

theorem decode_init_code_zeros (c : ArithmeticCoder) :
    (c.decode_init [0, 0, 0, 0, 0, 0, 0, 0]).code_value = 0 := by
  rw [decode_init_code_value c ⟨0, 0, 0, 0, [], [], 0⟩]
  set_option maxRecDepth 1000000 in decide

theorem decode_init_code_ones (c : ArithmeticCoder) :
    (c.decode_init [255, 255, 255, 255, 255, 255, 255, 255]).code_value = 2 ^ 64 - 1 := by
  rw [decode_init_code_value c ⟨0, 0, 0, 0, [], [], 0⟩]
  set_option maxRecDepth 1000000 in decide

/-- The value of `Nat.log2` from the two powers of two around `n`. -/
theorem log2_eq_of (n k : Nat) (h1 : 2 ^ k ≤ n) (h2 : n < 2 ^ (k + 1)) :
    Nat.log2 n = k := by
  rw [Nat.log2_eq_log_two]
  exact Nat.log_eq_of_pow_le_of_lt_pow h1 h2

/-- The `long double` evaluation of `scaled` on `low = 0`, `range = 2^64 - 1` and the code
value `9295429630892703742`: the numerator `129 * 2^72 - 65537` is rounded to
`129 * 2^72 - 65536`, the quotient to `33024`. -/
theorem scaled_value_rounded (oor : Option Nat → Nat) :
    scaled_value oor 9295429630892703742 0 (2 ^ 64 - 1) = 33024 := by
  have hnum : ¬ (((9295429630892703742 : Nat) : Int) - ((0 : Nat) : Int) + 1)
      * (TOTAL_FREQ : Int) - 1 ≤ 0 := by
    decide
  have hN : ((((9295429630892703742 : Nat) : Int) - ((0 : Nat) : Int) + 1)
      * (TOTAL_FREQ : Int) - 1).toNat = 609185276290184232501247 := by
    decide
  have hr : ¬ (2 ^ 64 - 1 = 0) := by decide
  have hlogN : Nat.log2 609185276290184232501247 = 79 :=
    log2_eq_of _ _ (by decide) (by decide)
  have hlogM : Nat.log2 609185276290184232501248 = 79 :=
    log2_eq_of _ _ (by decide) (by decide)
  have hlogr : Nat.log2 (2 ^ 64 - 1) = 63 :=
    log2_eq_of _ _ (by decide) (by decide)
  have hround : round_ld 609185276290184232501247 = 609185276290184232501248 := by
    unfold round_ld
    rw [hlogN]
    decide
  have he : floor_log2_quot 609185276290184232501248 (2 ^ 64 - 1) = 15 := by
    unfold floor_log2_quot
    rw [hlogM, hlogr]
    decide
  have hs1 : ((LDBL_MANT_DIG : Int) - 1 - 15).toNat = 48 := by decide
  have hs2 : ((15 : Int) - ((LDBL_MANT_DIG : Int) - 1)).toNat = 0 := by decide
  have hm : round_half_even (609185276290184232501248 * 2 ^ 48) ((2 ^ 64 - 1) * 2 ^ 0)
      = 33024 * 2 ^ 48 := by
    decide
  have hq : ld_div_floor 609185276290184232501248 (2 ^ 64 - 1) = 33024 := by
    unfold ld_div_floor
    rw [he, hs1, hs2, hm]
    decide
  unfold scaled_value
  simp only [if_neg hnum, if_neg hr, hN, hround, hq, if_pos (by decide : (33024 : Nat) < 2 ^ 32)]
  decide

/-- The rounding of the product shows in the offsets: on `low = 0`, `high = 2^64 - 3` and
the cumulative bounds `33024`, `33280` the narrowing of the code gives
`(9295429630892703743, 9367487224930631678)`, one more on each side than the exact
quotients give. -/
theorem narrow_rounded :
    narrow 0 (2 ^ 64 - 3) 33024 33280 = (9295429630892703743, 9367487224930631678) ∧
    (0 + (2 ^ 64 - 3 - 0 + 1) * 33024 / TOTAL_FREQ,
      0 + (2 ^ 64 - 3 - 0 + 1) * 33280 / TOTAL_FREQ - 1)
      = (9295429630892703742, 9367487224930631677) := by
  have hrange : add64 (sub64 (2 ^ 64 - 3) 0) 1 = 2 ^ 64 - 2 := by decide
  have hp1 : (2 ^ 64 - 2) * 33024 = 609185276290184232500736 := by decide
  have hp2 : (2 ^ 64 - 2) * 33280 = 613907642773053877713920 := by decide
  have hl1 : Nat.log2 609185276290184232500736 = 79 :=
    log2_eq_of _ _ (by decide) (by decide)
  have hl2 : Nat.log2 613907642773053877713920 = 79 :=
    log2_eq_of _ _ (by decide) (by decide)
  have hr1 : round_ld 609185276290184232500736 = 609185276290184232501248 := by
    unfold round_ld
    rw [hl1]
    decide
  have hr2 : round_ld 613907642773053877713920 = 613907642773053877714944 := by
    unfold round_ld
    rw [hl2]
    decide
  refine ⟨?_, by decide⟩
  unfold narrow
  simp only [hrange, hp1, hp2, hr1, hr2]
  decide

/-- C13 (fails on the code): `decode` does not select the symbol whose exact sub-interval
holds the code value. At its first symbol `decode` has `low = 0`, `high = 2^64 - 1`, the
64-bit `range` is 0 and the quotient is `+∞`; whatever the conversion of `+∞` gives, the
selection is the same for every compressed body. The body of eight bytes `00` has the
code value 0 and the body of eight bytes `ff` the code value `2^64 - 1`; under the table
with 256 counts per symbol these lie in the exact sub-intervals of the symbols 0 and 255,
so the two selections cannot both be right, and with the conversion result 0 the body of
`ff` bytes selects 0, not 255. Apart from the wrap, `scaled` is computed in `long double`:
on the registers `low = 0`, `high = 2^64 - 2` and the code value `9295429630892703742`,
the top of the exact sub-interval of symbol 128, the exact `scaled` is 33023 but the
expression of the code gives 33024 and selects 129. -/
theorem C13_decode_selection_fails (oor : Option Nat → Nat) (c : ArithmeticCoder) :
    (∀ (freq : Symbol → Nat) (d1 d2 : List Symbol),
      decode_symbol oor (c.decode_init d1) freq = decode_symbol oor (c.decode_init d2) freq) ∧
    (c.decode_init [0, 0, 0, 0, 0, 0, 0, 0]).code_value = 0 ∧
    (c.decode_init [255, 255, 255, 255, 255, 255, 255, 255]).code_value = 2 ^ 64 - 1 ∧
    (0 + (TOP_VALUE - 0 + 1) * cumulative (fun _ => 256) (0 : Symbol).val / TOTAL_FREQ ≤ 0 ∧
      0 ≤ 0 + (TOP_VALUE - 0 + 1) * cumulative (fun _ => 256) ((0 : Symbol).val + 1)
        / TOTAL_FREQ - 1) ∧
    (0 + (TOP_VALUE - 0 + 1) * cumulative (fun _ => 256) (255 : Symbol).val / TOTAL_FREQ
        ≤ 2 ^ 64 - 1 ∧
      2 ^ 64 - 1 ≤ 0 + (TOP_VALUE - 0 + 1) * cumulative (fun _ => 256) ((255 : Symbol).val + 1)
        / TOTAL_FREQ - 1) ∧
    ¬ (decode_symbol oor (c.decode_init [0, 0, 0, 0, 0, 0, 0, 0]) (fun _ => 256) = 0 ∧
      decode_symbol oor (c.decode_init [255, 255, 255, 255, 255, 255, 255, 255])
        (fun _ => 256) = 255) ∧
    decode_symbol (fun _ => 0) (c.decode_init [255, 255, 255, 255, 255, 255, 255, 255])
      (fun _ => 256) = 0 ∧
    (0 + (2 ^ 64 - 2 - 0 + 1) * cumulative (fun _ => 256) (128 : Symbol).val / TOTAL_FREQ
        ≤ 9295429630892703742 ∧
      9295429630892703742
        ≤ 0 + (2 ^ 64 - 2 - 0 + 1) * cumulative (fun _ => 256) ((128 : Symbol).val + 1)
          / TOTAL_FREQ - 1) ∧
    ((9295429630892703742 - 0 + 1) * TOTAL_FREQ - 1) / (2 ^ 64 - 2 - 0 + 1) = 33023 ∧
    scaled_value oor 9295429630892703742 0 (add64 (sub64 (2 ^ 64 - 2) 0) 1) = 33024 ∧
    decode_symbol oor ⟨0, 2 ^ 64 - 2, 0, 9295429630892703742, [], [], 0⟩ (fun _ => 256)
      = 129 := by
  have hc0 : cumulative (fun _ => 256) (0 : Symbol).val = 0 :=
    cumulative_const 256 _ (by decide)
  have hc1 : cumulative (fun _ => 256) ((0 : Symbol).val + 1) = 256 :=
    cumulative_const 256 _ (by decide)
  have hc255 : cumulative (fun _ => 256) (255 : Symbol).val = 65280 :=
    cumulative_const 256 _ (by decide)
  have hc256 : cumulative (fun _ => 256) ((255 : Symbol).val + 1) = 65536 :=
    cumulative_const 256 _ (by decide)
  have hc128 : cumulative (fun _ => 256) (128 : Symbol).val = 32768 :=
    cumulative_const 256 _ (by decide)
  have hc129 : cumulative (fun _ => 256) ((128 : Symbol).val + 1) = 33024 :=
    cumulative_const 256 _ (by decide)
  have hc129a : cumulative (fun _ => 256) (129 : Symbol).val = 33024 :=
    cumulative_const 256 _ (by decide)
  have hc130 : cumulative (fun _ => 256) ((129 : Symbol).val + 1) = 33280 :=
    cumulative_const 256 _ (by decide)
  have hrange : add64 (sub64 (2 ^ 64 - 2) 0) 1 = 2 ^ 64 - 1 := by decide
  have hsame : ∀ (freq : Symbol → Nat) (d1 d2 : List Symbol),
      decode_symbol oor (c.decode_init d1) freq = decode_symbol oor (c.decode_init d2) freq := by
    intro freq d1 d2
    rw [decode_symbol_initial, decode_symbol_initial]
  refine ⟨hsame, decode_init_code_zeros c, decode_init_code_ones c, ?_, ?_, ?_, ?_, ?_, ?_,
    ?_, ?_⟩
  · rw [hc0, hc1]
    decide
  · rw [hc255, hc256]
    decide
  · rintro ⟨h0, h255⟩
    rw [hsame _ _ [255, 255, 255, 255, 255, 255, 255, 255]] at h0
    rw [h0] at h255
    exact absurd h255 (by decide)
  · rw [decode_symbol_initial]
    have h : (if (fun (_ : Option Nat) => 0) none % 2 ^ 32 ≥ TOTAL_FREQ then TOTAL_FREQ - 1
        else (fun (_ : Option Nat) => 0) none % 2 ^ 32) = 0 := by decide
    rw [h]
    exact (find_symbol_eq (fun _ => 256) 0 0 (by rw [hc0]) (by rw [hc1]; decide)).2
  · rw [hc128, hc129]
    decide
  · decide
  · rw [hrange]
    exact scaled_value_rounded oor
  · unfold decode_symbol
    show find_symbol (cumulative (fun _ => 256))
      (scaled_value oor 9295429630892703742 0 (add64 (sub64 (2 ^ 64 - 2) 0) 1)) = 129
    rw [hrange, scaled_value_rounded]
    exact (find_symbol_eq (fun _ => 256) 33024 129 (by rw [hc129a]) (by rw [hc130]; decide)).2

/-- C14: for the count table that the quantizer of `decode` produces from any prediction,
`cum[256] = TOTAL_FREQ`; the value `scaled` of `decode` is always below `TOTAL_FREQ`;
and for every `scaled < TOTAL_FREQ` the search stops at a symbol `s` (it does not fall
through to the default 255), that `s` has `cum[s] ≤ scaled < cum[s + 1]`, and no smaller
symbol passes the test. -/
theorem C14_symbol_search_succeeds {F : Type} [LinearOrderedField F] [FloorRing F]
    (P : Symbol → F) (oor : Option Nat → Nat) (code_value low range : Nat) :
    ∃ freq, decode_quantize P = some freq ∧ cumulative freq 256 = TOTAL_FREQ ∧
      scaled_value oor code_value low range < TOTAL_FREQ ∧
      ∀ scaled : Nat, scaled < TOTAL_FREQ →
        ∃ s : Symbol,
          (List.finRange 256).find? (fun t => decide (scaled < cumulative freq (t.val + 1)))
            = some s ∧
          find_symbol (cumulative freq) scaled = s ∧
          cumulative freq s.val ≤ scaled ∧ scaled < cumulative freq (s.val + 1) ∧
          ∀ t : Symbol, t < s → ¬ (scaled < cumulative freq (t.val + 1)) := by
  obtain ⟨freq, hq, _, hsum⟩ := quantize_spec P
  have hT : cumulative freq 256 = TOTAL_FREQ := by
    rw [cumulative_256, hsum]
  refine ⟨freq, ?_, hT, scaled_value_lt oor code_value low range, ?_⟩
  · rw [decode_quantize_eq]
    exact hq
  · intro scaled hs
    obtain ⟨s, h1, h2⟩ := cumulative_cell freq scaled 256 (Nat.le_refl _) (by rw [hT]; exact hs)
    obtain ⟨f1, f2⟩ := find_symbol_eq freq scaled s h1 h2
    refine ⟨s, f1, f2, h1, h2, ?_⟩
    intro t ht
    have hle : cumulative freq (t.val + 1) ≤ cumulative freq s.val :=
      cumulative_mono freq s.val (t.val + 1) (Nat.succ_le_of_lt ht)
    omega

/-! ## Lemmas on flushing, bit packing and bit reading -/

theorem iterate_write_bit (b : Bool) :
    ∀ (n : Nat) (c : ArithmeticCoder),
      ((fun (d : ArithmeticCoder) => d.write_bit b)^[n] c).bit_buffer
        = c.bit_buffer ++ List.replicate n b := by
  intro n
  induction n with
  | zero =>
    intro c
    rw [Function.iterate_zero, id, List.replicate_zero, List.append_nil]
  | succ n ih =>
    intro c
    rw [Function.iterate_succ_apply']
    show ((fun (d : ArithmeticCoder) => d.write_bit b)^[n] c).bit_buffer ++ [b] = _
    rw [ih, List.replicate_succ', List.append_assoc]

/-- C19: for every coder state with `pending_bits = p` (a 64-bit value) `flush_encoder`
appends exactly `p + 1` bits to `bit_buffer`: first the bit `b` that is 1 iff
`low ≥ 2^62`, then `p` copies of the complement of `b`; so at least one bit is written. -/
theorem C19_flush_appends (c : ArithmeticCoder) (hp : c.pending_bits < 2 ^ 64) :
    c.flush_encoder.bit_buffer
      = c.bit_buffer ++
        (decide (c.low ≥ 2 ^ 62) :: List.replicate c.pending_bits (!decide (c.low ≥ 2 ^ 62))) ∧
    c.flush_encoder.bit_buffer.length = c.bit_buffer.length + (c.pending_bits + 1) ∧
    c.bit_buffer.length + 1 ≤ c.flush_encoder.bit_buffer.length := by
  have hcount : sub64 (add64 c.pending_bits 1) 1 = c.pending_bits := by
    unfold sub64 add64
    omega
  have hbit : (if c.low < 2 ^ 62 then false else true) = decide (c.low ≥ 2 ^ 62) := by
    by_cases h : c.low < 2 ^ 62
    · rw [if_pos h, decide_eq_false (Nat.not_le_of_lt h)]
    · rw [if_neg h, decide_eq_true (Nat.le_of_not_lt h)]
  have hbuf : c.flush_encoder.bit_buffer
      = c.bit_buffer ++
        (decide (c.low ≥ 2 ^ 62) :: List.replicate c.pending_bits (!decide (c.low ≥ 2 ^ 62))) := by
    unfold ArithmeticCoder.flush_encoder
    show ((fun (d : ArithmeticCoder) => d.write_bit (!(if c.low < 2 ^ 62 then false else true)))^[
        sub64 (add64 c.pending_bits 1) 1]
        (({ c with pending_bits := add64 c.pending_bits 1 } : ArithmeticCoder).write_bit
          (if c.low < 2 ^ 62 then false else true))).bit_buffer = _
    rw [iterate_write_bit, hcount, hbit]
    show (c.bit_buffer ++ [decide (c.low ≥ 2 ^ 62)]) ++ _ = _
    rw [List.append_assoc]
    rfl
  refine ⟨hbuf, ?_, ?_⟩
  · rw [hbuf, List.length_append, List.length_cons, List.length_replicate]
  · rw [hbuf, List.length_append, List.length_cons, List.length_replicate]
    omega

/-- Witness for C19: `low = 2^62`, three pending bits, one bit already in the buffer. -/
theorem C19_flush_appends_witness :
    (⟨2 ^ 62, 2 ^ 64 - 1, 3, 0, [false], [], 0⟩ : ArithmeticCoder).flush_encoder.bit_buffer
      = [false, true, false, false, false] :=
  (C19_flush_appends ⟨2 ^ 62, 2 ^ 64 - 1, 3, 0, [false], [], 0⟩ (by decide)).1

theorem byte_bit_table :
    ∀ (b0 b1 b2 b3 b4 b5 b6 b7 : Bool) (r : Fin 8),
      ((Fin.ofNat
        (((((((((0 <<< 1 % 256 ||| b0.toNat) <<< 1 % 256 ||| b1.toNat) <<< 1 % 256 |||
          b2.toNat) <<< 1 % 256 ||| b3.toNat) <<< 1 % 256 ||| b4.toNat) <<< 1 % 256 |||
          b5.toNat) <<< 1 % 256 ||| b6.toNat) <<< 1 % 256 ||| b7.toNat)) : Symbol).val >>>
        (7 - r.val)) &&& 1
        = ([b0, b1, b2, b3, b4, b5, b6, b7].getD r.val false).toNat := by
  decide

/-- Bit `r` of a packed byte, counted from the most significant one, is bit `i + r` of
the bit sequence (0 past its end). -/
theorem pack_byte_bit (bits : List Bool) (i r : Nat) (hr : r < 8) :
    ((pack_byte bits i).val >>> (7 - r)) &&& 1 = (bits.getD (i + r) false).toNat := by
  have hf : (fun (byte j : Nat) =>
        let shifted := (byte <<< 1) % 256
        if i + j < bits.length then shifted ||| (bits.getD (i + j) false).toNat else shifted)
      = (fun (byte j : Nat) => (byte <<< 1) % 256 ||| (bits.getD (i + j) false).toNat) := by
    funext byte j
    by_cases h : i + j < bits.length
    · simp only [if_pos h]
    · simp only [if_neg h]
      rw [List.getD_eq_default _ _ (Nat.le_of_not_lt h)]
      exact (Nat.or_zero _).symm
  have hr8 : List.range 8 = [0, 1, 2, 3, 4, 5, 6, 7] := by decide
  unfold pack_byte
  rw [hf, hr8]
  simp only [List.foldl_cons, List.foldl_nil]
  have key := byte_bit_table (bits.getD (i + 0) false) (bits.getD (i + 1) false)
    (bits.getD (i + 2) false) (bits.getD (i + 3) false) (bits.getD (i + 4) false)
    (bits.getD (i + 5) false) (bits.getD (i + 6) false) (bits.getD (i + 7) false) ⟨r, hr⟩
  rw [key]
  congr 1
  interval_cases r <;> rfl

theorem pack_bits_length (bits : List Bool) :
    (pack_bits bits).length = (bits.length + 7) / 8 := by
  unfold pack_bits
  rw [List.length_map, List.length_range]

theorem pack_bits_getD (bits : List Bool) (q : Nat) (hq : q < (bits.length + 7) / 8) :
    (pack_bits bits).getD q 0 = pack_byte bits (8 * q) := by
  have hlen : q < (pack_bits bits).length := by
    rw [pack_bits_length]
    exact hq
  rw [List.getD_eq_getElem _ _ hlen]
  unfold pack_bits
  rw [List.getElem_map, List.getElem_range]

/-- Bit `i` of the packed bytes (byte `i / 8`, bit position `7 - i % 8`) is bit `i` of the
bit sequence, and 0 from the end of the sequence on. -/
theorem packed_bit (bits : List Bool) (i : Nat) :
    (((pack_bits bits).getD (i / 8) 0).val >>> (7 - i % 8)) &&& 1
      = (bits.getD i false).toNat := by
  by_cases hq : i / 8 < (bits.length + 7) / 8
  · rw [pack_bits_getD bits _ hq, pack_byte_bit bits _ _ (Nat.mod_lt _ (by decide)),
      Nat.div_add_mod]
  · have hlen : (pack_bits bits).length ≤ i / 8 := by
      rw [pack_bits_length]
      exact Nat.le_of_not_lt hq
    have hi : bits.length ≤ i := by omega
    rw [List.getD_eq_default _ _ hlen, List.getD_eq_default _ _ hi]
    show (0 >>> (7 - i % 8)) &&& 1 = 0
    rw [Nat.zero_shiftRight, Nat.zero_and]

theorem read_bit_state (d : ArithmeticCoder) :
    d.read_bit.2.input_buffer = d.input_buffer ∧
    d.read_bit.2.bit_idx
      = (if d.bit_idx < d.input_buffer.length * 8 then d.bit_idx + 1 else d.bit_idx) ∧
    d.read_bit.1
      = (if d.bit_idx < d.input_buffer.length * 8 then
          ((d.input_buffer.getD (d.bit_idx / 8) 0).val >>> (7 - d.bit_idx % 8)) &&& 1
        else 0) := by
  unfold ArithmeticCoder.read_bit
  by_cases h : d.bit_idx ≥ d.input_buffer.length * 8
  · rw [if_pos h, if_neg (Nat.not_lt_of_le h), if_neg (Nat.not_lt_of_le h)]
    exact ⟨rfl, rfl, rfl⟩
  · rw [if_neg h, if_pos (Nat.lt_of_not_le h), if_pos (Nat.lt_of_not_le h)]
    exact ⟨rfl, rfl, rfl⟩

theorem iterate_read_bit (buf : List Symbol) (c : ArithmeticCoder) :
    ∀ n : Nat,
      ((fun (d : ArithmeticCoder) => d.read_bit.2)^[n]
          { c with input_buffer := buf, bit_idx := 0 }).input_buffer = buf ∧
      ((fun (d : ArithmeticCoder) => d.read_bit.2)^[n]
          { c with input_buffer := buf, bit_idx := 0 }).bit_idx = min n (8 * buf.length) := by
  intro n
  induction n with
  | zero =>
    rw [Function.iterate_zero, id]
    exact ⟨rfl, (Nat.zero_min _).symm⟩
  | succ n ih =>
    rw [Function.iterate_succ_apply']
    obtain ⟨h1, h2⟩ := ih
    obtain ⟨r1, r2, -⟩ := read_bit_state ((fun (d : ArithmeticCoder) => d.read_bit.2)^[n]
      { c with input_buffer := buf, bit_idx := 0 })
    refine ⟨r1.trans h1, ?_⟩
    show (((fun (d : ArithmeticCoder) => d.read_bit.2)^[n]
      { c with input_buffer := buf, bit_idx := 0 }).read_bit).2.bit_idx = _
    rw [r2, h1, h2]
    split_ifs <;> omega

/-- C20: the packing loop of `encode` turns a bit sequence of length `m` into `⌈m / 8⌉`
bytes; bit `i` of the sequence sits in byte `⌊i / 8⌋` at bit position `7 - i mod 8`, and
every position from `m` on holds 0 (the padding of the last byte). On a coder whose
input is those bytes and whose cursor starts at 0, after `n` calls of `read_bit` the
cursor is `min n (8 * bytes)` (it stops advancing at the end of the input) and the next
call returns bit `n` of the sequence when `n < m` and 0 otherwise. -/
theorem C20_packing_and_reading (bits : List Bool) (c : ArithmeticCoder) :
    (pack_bits bits).length = (bits.length + 7) / 8 ∧
    (∀ i : Nat, (((pack_bits bits).getD (i / 8) 0).val >>> (7 - i % 8)) &&& 1
      = if h : i < bits.length then (bits.get ⟨i, h⟩).toNat else 0) ∧
    (∀ n : Nat,
      ((fun (d : ArithmeticCoder) => d.read_bit.2)^[n]
          { c with input_buffer := pack_bits bits, bit_idx := 0 }).bit_idx
        = min n (8 * (pack_bits bits).length) ∧
      (((fun (d : ArithmeticCoder) => d.read_bit.2)^[n]
          { c with input_buffer := pack_bits bits, bit_idx := 0 }).read_bit).1
        = if h : n < bits.length then (bits.get ⟨n, h⟩).toNat else 0) := by
  have hget : ∀ i : Nat, (bits.getD i false).toNat
      = if h : i < bits.length then (bits.get ⟨i, h⟩).toNat else 0 := by
    intro i
    by_cases h : i < bits.length
    · rw [dif_pos h, List.getD_eq_getElem _ _ h]
      rfl
    · rw [dif_neg h, List.getD_eq_default _ _ (Nat.le_of_not_lt h)]
      rfl
  refine ⟨pack_bits_length bits, ?_, ?_⟩
  · intro i
    rw [packed_bit, hget]
  · intro n
    obtain ⟨h1, h2⟩ := iterate_read_bit (pack_bits bits) c n
    refine ⟨h2, ?_⟩
    obtain ⟨-, -, r3⟩ := read_bit_state ((fun (d : ArithmeticCoder) => d.read_bit.2)^[n]
      { c with input_buffer := pack_bits bits, bit_idx := 0 })
    rw [r3, h1, h2, ← hget]
    have hlen := pack_bits_length bits
    by_cases hn : n < (pack_bits bits).length * 8
    · have hmin : min n (8 * (pack_bits bits).length) = n := by omega
      rw [hmin, if_pos hn, packed_bit]
    · have hmin : min n (8 * (pack_bits bits).length) = 8 * (pack_bits bits).length := by omega
      rw [hmin, if_neg (by omega)]
      have hm : bits.length ≤ n := by omega
      rw [List.getD_eq_default _ _ hm]
      rfl

/-! ## Lemmas on the deficit branch of the quantizer -/

theorem distribute_deficit_succ (idx : List Symbol) (n : Nat) (freq : Symbol → Nat) :
    distribute_deficit idx (n + 1) freq
      = Function.update (distribute_deficit idx n freq) (idx.getD (n % 256) 0)
          (distribute_deficit idx n freq (idx.getD (n % 256) 0) + 1) := by
  simp [distribute_deficit, List.range_succ, List.foldl_append]

/-- A symbol that no step of the deficit loop visits keeps its count. -/
theorem distribute_deficit_untouched (idx : List Symbol) (freq : Symbol → Nat) (s : Symbol) :
    ∀ rem : Nat, (∀ k, k < rem → idx.getD (k % 256) 0 ≠ s) →
      distribute_deficit idx rem freq s = freq s := by
  intro rem
  induction rem with
  | zero =>
    intro _
    rfl
  | succ n ih =>
    intro h
    rw [distribute_deficit_succ, Function.update_noteq (h n (Nat.lt_succ_self n)).symm]
    exact ih (fun k hk => h k (Nat.lt_succ_of_lt hk))

/-- A symbol that some step of the deficit loop visits gains at least one unit. -/
theorem distribute_deficit_touched (idx : List Symbol) (freq : Symbol → Nat) (s : Symbol) :
    ∀ rem : Nat, (∃ k, k < rem ∧ idx.getD (k % 256) 0 = s) →
      freq s < distribute_deficit idx rem freq s := by
  intro rem
  induction rem with
  | zero =>
    intro h
    obtain ⟨k, hk, -⟩ := h
    exact absurd hk (Nat.not_lt_zero k)
  | succ n ih =>
    intro h
    rw [distribute_deficit_succ]
    by_cases hn : idx.getD (n % 256) 0 = s
    · rw [hn, Function.update_same]
      exact Nat.lt_succ_of_le ((distribute_deficit_spec idx n freq).2 s)
    · rw [Function.update_noteq (fun e => hn e.symm)]
      obtain ⟨k, hk, hks⟩ := h
      have hkn : k ≠ n := by
        intro e
        rw [e] at hks
        exact hn hks
      exact ih ⟨k, by omega, hks⟩

/-- Two entries of a list, taken in the order of their positions, form a sublist. -/
theorem pair_sublist_of_lt (l : List Symbol) (p q : Nat) (hpq : p < q) (hq : q < l.length) :
    List.Sublist [l.getD p 0, l.getD q 0] l := by
  have hp : p < l.length := Nat.lt_trans hpq hq
  rw [List.getD_eq_getElem _ _ hp, List.getD_eq_getElem _ _ hq]
  have hlen : p < (List.take q l).length := by
    rw [List.length_take]
    omega
  have h1 : List.Sublist [l[p]] (List.take q l) := by
    rw [List.singleton_sublist]
    have hmem := List.getElem_mem hlen
    rw [List.getElem_take] at hmem
    exact hmem
  have h2 : List.Sublist [l[q]] (List.drop q l) := by
    rw [List.singleton_sublist, List.drop_eq_getElem_cons hq]
    exact List.mem_cons_self _ _
  have h := List.Sublist.append h1 h2
  rw [List.take_append_drop] at h
  exact h

/-- In a list without repetition two entries cannot occur in both orders. -/
theorem not_both_orders (a b : Symbol) :
    ∀ l : List Symbol, l.Nodup → List.Sublist [a, b] l → List.Sublist [b, a] l → False := by
  intro l
  induction l with
  | nil =>
    intro _ h _
    cases h
  | cons x t ih =>
    intro hnd h1 h2
    rw [List.nodup_cons] at hnd
    cases h1 with
    | cons _ h1 =>
      cases h2 with
      | cons _ h2 => exact ih hnd.2 h1 h2
      | cons₂ _ h2 =>
        exact hnd.1 (h1.subset (List.mem_cons_of_mem _ (List.mem_singleton_self _)))
    | cons₂ _ h1 =>
      cases h2 with
      | cons _ h2 =>
        exact hnd.1 (h2.subset (List.mem_cons_of_mem _ (List.mem_singleton_self _)))
      | cons₂ _ h2 => exact hnd.1 (List.singleton_sublist.mp h2)

theorem sort_frac_descending_length {F : Type} [LinearOrderedField F] (frac : Symbol → F) :
    (sort_frac_descending frac).length = 256 := by
  unfold sort_frac_descending
  rw [(List.perm_insertionSort _ _).length_eq, List.length_finRange]

theorem sort_frac_descending_nodup {F : Type} [LinearOrderedField F] (frac : Symbol → F) :
    (sort_frac_descending frac).Nodup := by
  unfold sort_frac_descending
  exact (List.perm_insertionSort _ _).nodup_iff.mpr (List.nodup_finRange 256)

/-- The order of the sorted index list: an earlier entry has a larger fraction, or the
same fraction and a smaller index. -/
theorem sort_frac_descending_order {F : Type} [LinearOrderedField F] (frac : Symbol → F)
    (p q : Nat) (hpq : p < q) (hq : q < 256) :
    frac ((sort_frac_descending frac).getD q 0) < frac ((sort_frac_descending frac).getD p 0) ∨
    (frac ((sort_frac_descending frac).getD p 0) = frac ((sort_frac_descending frac).getD q 0) ∧
      (sort_frac_descending frac).getD p 0 < (sort_frac_descending frac).getD q 0) := by
  haveI : IsTotal Symbol (fun a b => frac a ≥ frac b) := ⟨fun a b => le_total (frac b) (frac a)⟩
  haveI : IsTrans Symbol (fun a b => frac a ≥ frac b) :=
    ⟨fun _ _ _ hab hbc => le_trans hbc hab⟩
  have hlen := sort_frac_descending_length frac
  have hnd := sort_frac_descending_nodup frac
  have hsub := pair_sublist_of_lt (sort_frac_descending frac) p q hpq (by rw [hlen]; exact hq)
  have hp : p < (sort_frac_descending frac).length := by rw [hlen]; omega
  have hq1 : q < (sort_frac_descending frac).length := by rw [hlen]; exact hq
  have hne : (sort_frac_descending frac).getD p 0 ≠ (sort_frac_descending frac).getD q 0 := by
    rw [List.getD_eq_getElem _ _ hp, List.getD_eq_getElem _ _ hq1]
    intro e
    have := (List.Nodup.getElem_inj_iff hnd).mp e
    omega
  generalize (sort_frac_descending frac).getD p 0 = j at hsub hne
  generalize (sort_frac_descending frac).getD q 0 = k at hsub hne
  have hsorted : List.Sorted (fun a b => frac a ≥ frac b) (sort_frac_descending frac) :=
    List.sorted_insertionSort _ _
  have hjk : frac j ≥ frac k := by
    have hpw : List.Pairwise (fun a b => frac a ≥ frac b) [j, k] := List.Pairwise.sublist hsub hsorted
    rw [List.pairwise_cons] at hpw
    exact hpw.1 k (List.mem_singleton_self _)
  rcases lt_or_eq_of_le hjk with hlt | heq
  · exact Or.inl hlt
  · right
    refine ⟨heq.symm, ?_⟩
    by_contra hnot
    have hkj : k < j := lt_of_le_of_ne (not_lt.mp hnot) (fun e => hne e.symm)
    have hfin : List.Sublist [k, j] (List.finRange 256) := by
      have h := pair_sublist_of_lt (List.finRange 256) k.val j.val hkj
        (by rw [List.length_finRange]; exact j.isLt)
      rw [List.getD_eq_getElem _ _ (by rw [List.length_finRange]; exact k.isLt),
        List.getD_eq_getElem _ _ (by rw [List.length_finRange]; exact j.isLt),
        List.getElem_finRange, List.getElem_finRange] at h
      exact h
    have hrev : List.Sublist [k, j] (sort_frac_descending frac) :=
      List.pair_sublist_insertionSort (r := fun a b => frac a ≥ frac b) (le_of_eq heq.symm) hfin
    exact not_both_orders j k _ hnd hsub hrev

/-- In the deficit case `quantize` returns the base counts after the deficit loop. -/
theorem quantize_deficit {F : Type} [LinearOrderedField F] [FloorRing F] (P : Symbol → F)
    (hS : (∑ k : Symbol, base_freq (floor_and_renormalize P) k) < TOTAL_FREQ) :
    quantize P = some (distribute_deficit
      (sort_frac_descending (frac_of (floor_and_renormalize P)))
      (TOTAL_FREQ - ∑ k : Symbol, base_freq (floor_and_renormalize P) k)
      (base_freq (floor_and_renormalize P))) := by
  have hbound := sum_base_freq_le P
  unfold quantize
  simp only
  generalize (∑ k : Symbol, base_freq (floor_and_renormalize P) k) = S at hbound hS
  have hmod : S % 2 ^ 32 = S := Nat.mod_eq_of_lt (by omega)
  rw [hmod, if_pos hS]

/-- The normalised prediction sums to 1. -/
theorem floor_and_renormalize_sum {F : Type} [LinearOrderedField F] (P : Symbol → F) :
    (∑ k : Symbol, floor_and_renormalize P k) = 1 := by
  unfold floor_and_renormalize
  simp only
  split_ifs with h
  · rw [Finset.sum_const, Finset.card_univ, Fintype.card_fin, nsmul_eq_mul]
    norm_num
  · rw [← Finset.sum_div]
    exact div_self (ne_of_gt (not_le.mp h))

/-- The base counts fall short of `TOTAL_FREQ` by less than 256. -/
theorem deficit_lt_256 {F : Type} [LinearOrderedField F] [FloorRing F] (P : Symbol → F) :
    TOTAL_FREQ < (∑ k : Symbol, base_freq (floor_and_renormalize P) k) + 256 := by
  have hk : ∀ k : Symbol, raw_value (floor_and_renormalize P) k
      < ((base_freq (floor_and_renormalize P) k + 1 : Nat) : F) := by
    intro k
    have hb := floor_and_renormalize_bounds P k
    have hraw : raw_value (floor_and_renormalize P) k ≤ ((65536 : Nat) : F) := by
      unfold raw_value TOTAL_FREQ
      have h65 : (0 : F) ≤ ((65536 : Nat) : F) := Nat.cast_nonneg _
      calc floor_and_renormalize P k * ((65536 : Nat) : F)
          ≤ 1 * ((65536 : Nat) : F) := mul_le_mul_of_nonneg_right hb.2 h65
        _ = ((65536 : Nat) : F) := one_mul _
    have hfloor : ⌊raw_value (floor_and_renormalize P) k⌋₊ ≤ 65536 := Nat.floor_le_of_le hraw
    have hle : ⌊raw_value (floor_and_renormalize P) k⌋₊ ≤ base_freq (floor_and_renormalize P) k := by
      unfold base_freq
      simp only
      split_ifs with h <;> omega
    calc raw_value (floor_and_renormalize P) k
        < ((⌊raw_value (floor_and_renormalize P) k⌋₊ : Nat) : F) + 1 := Nat.lt_floor_add_one _
      _ = ((⌊raw_value (floor_and_renormalize P) k⌋₊ + 1 : Nat) : F) := by push_cast; rfl
      _ ≤ ((base_freq (floor_and_renormalize P) k + 1 : Nat) : F) :=
          Nat.cast_le.mpr (Nat.succ_le_succ hle)
  have hsum : (∑ k : Symbol, raw_value (floor_and_renormalize P) k)
      < ∑ k : Symbol, ((base_freq (floor_and_renormalize P) k + 1 : Nat) : F) :=
    Finset.sum_lt_sum_of_nonempty ⟨0, Finset.mem_univ _⟩ (fun k _ => hk k)
  have hraw : (∑ k : Symbol, raw_value (floor_and_renormalize P) k) = ((TOTAL_FREQ : Nat) : F) := by
    unfold raw_value
    rw [← Finset.sum_mul, floor_and_renormalize_sum, one_mul]
  have hnat : (∑ k : Symbol, ((base_freq (floor_and_renormalize P) k + 1 : Nat) : F))
      = (((∑ k : Symbol, base_freq (floor_and_renormalize P) k) + 256 : Nat) : F) := by
    rw [← Nat.cast_sum, Finset.sum_add_distrib, Finset.sum_const, Finset.card_univ,
      Fintype.card_fin, smul_eq_mul, Nat.mul_one]
  rw [hraw, hnat] at hsum
  exact Nat.cast_lt.mp hsum

/-- With at most 256 steps over an index list without repetition the deficit loop adds
at most one unit to each symbol. -/
theorem distribute_deficit_le_succ (idx : List Symbol) (hnd : idx.Nodup)
    (hlen : idx.length = 256) (freq : Symbol → Nat) (s : Symbol) :
    ∀ rem : Nat, rem ≤ 256 → distribute_deficit idx rem freq s ≤ freq s + 1 := by
  intro rem
  induction rem with
  | zero =>
    intro _
    exact Nat.le_succ _
  | succ n ih =>
    intro hn
    rw [distribute_deficit_succ]
    by_cases hs : idx.getD (n % 256) 0 = s
    · rw [hs, Function.update_same]
      apply Nat.succ_le_succ
      apply Nat.le_of_eq
      apply distribute_deficit_untouched
      intro k hk e
      rw [← hs, Nat.mod_eq_of_lt (by omega : k < 256), Nat.mod_eq_of_lt (by omega : n < 256),
        List.getD_eq_getElem _ _ (by omega : k < idx.length),
        List.getD_eq_getElem _ _ (by omega : n < idx.length)] at e
      have := (List.Nodup.getElem_inj_iff hnd).mp e
      omega
    · rw [Function.update_noteq (fun e => hs e.symm)]
      exact ih (by omega)

theorem sum_ite_zero {M : Type} [AddCommMonoid M] (a b : M) :
    (∑ k : Symbol, (if k = 0 then a else b)) = a + 255 • b := by
  rw [Fin.sum_univ_succ, if_pos rfl,
    Finset.sum_congr rfl (fun (i : Fin 255) _ => if_neg (Fin.succ_ne_zero i)),
    Finset.sum_const, Finset.card_univ, Fintype.card_fin]

/-- C17: when the base counts sum to `S < TOTAL_FREQ`, `quantize` returns counts that
add `TOTAL_FREQ - S` units to the base counts, at most one per symbol; and whenever
symbol `j` receives a unit and symbol `k` does not, `frac[j] > frac[k]`, or
`frac[j] = frac[k]` and `j < k`. -/
theorem C17_deficit_tie_break {F : Type} [LinearOrderedField F] [FloorRing F]
    (P : Symbol → F)
    (hS : (∑ k : Symbol, base_freq (floor_and_renormalize P) k) < TOTAL_FREQ) :
    ∃ freq, quantize P = some freq ∧
      (∑ s : Symbol, freq s) = (∑ s : Symbol, base_freq (floor_and_renormalize P) s)
        + (TOTAL_FREQ - ∑ s : Symbol, base_freq (floor_and_renormalize P) s) ∧
      (∀ s, base_freq (floor_and_renormalize P) s ≤ freq s ∧
        freq s ≤ base_freq (floor_and_renormalize P) s + 1) ∧
      ∀ j k : Symbol, base_freq (floor_and_renormalize P) j < freq j →
        freq k = base_freq (floor_and_renormalize P) k →
        frac_of (floor_and_renormalize P) k < frac_of (floor_and_renormalize P) j ∨
        (frac_of (floor_and_renormalize P) j = frac_of (floor_and_renormalize P) k ∧ j < k) := by
  have hdef := deficit_lt_256 P
  have hq := quantize_deficit P hS
  generalize hSdef : (∑ k : Symbol, base_freq (floor_and_renormalize P) k) = S at hS hdef hq ⊢
  generalize base_freq (floor_and_renormalize P) = base at hq hSdef ⊢
  generalize frac_of (floor_and_renormalize P) = frac at hq ⊢
  have hlen := sort_frac_descending_length frac
  have hnd := sort_frac_descending_nodup frac
  obtain ⟨hsum, hge⟩ := distribute_deficit_spec (sort_frac_descending frac) (TOTAL_FREQ - S) base
  rw [hSdef] at hsum
  refine ⟨_, hq, hsum, ?_, ?_⟩
  · intro s
    exact ⟨hge s, distribute_deficit_le_succ _ hnd hlen base s _ (by omega)⟩
  · intro j k hj hk
    have hjt : ∃ p, p < TOTAL_FREQ - S ∧ (sort_frac_descending frac).getD (p % 256) 0 = j := by
      by_contra hno
      have hun := distribute_deficit_untouched (sort_frac_descending frac) base j
        (TOTAL_FREQ - S) (fun p hp e => hno ⟨p, hp, e⟩)
      omega
    have hkt : ∀ q, q < TOTAL_FREQ - S → (sort_frac_descending frac).getD (q % 256) 0 ≠ k := by
      intro q hq1 e
      have := distribute_deficit_touched (sort_frac_descending frac) base k (TOTAL_FREQ - S)
        ⟨q, hq1, e⟩
      omega
    obtain ⟨p, hp, hpj⟩ := hjt
    obtain ⟨q, hq256, hqk⟩ := insertionSort_covers
      (fun a b => frac a ≥ frac b) k
    have hqge : TOTAL_FREQ - S ≤ q := by
      by_contra hlt
      apply hkt q (Nat.lt_of_not_le hlt)
      rw [Nat.mod_eq_of_lt hq256]
      exact hqk
    rw [Nat.mod_eq_of_lt (by omega : p < 256)] at hpj
    have hord := sort_frac_descending_order frac p q (by omega) hq256
    have hqk1 : (sort_frac_descending frac).getD q 0 = k := hqk
    rw [hpj, hqk1] at hord
    exact hord

/-- Witness for C17: the prediction `3, 2, 2, ..., 2` over the rationals, whose base
counts `383, 255, ..., 255` sum to `65408`. -/
theorem C17_deficit_tie_break_witness :
    ∃ freq, quantize (fun k : Symbol => if k = 0 then (3 : ℚ) else 2) = some freq ∧
      (∑ s : Symbol, freq s)
        = (∑ s : Symbol,
            base_freq (floor_and_renormalize (fun k : Symbol => if k = 0 then (3 : ℚ) else 2)) s)
          + (TOTAL_FREQ - ∑ s : Symbol,
            base_freq (floor_and_renormalize (fun k : Symbol => if k = 0 then (3 : ℚ) else 2)) s) := by
  have hnorm : floor_and_renormalize (fun k : Symbol => if k = 0 then (3 : ℚ) else 2)
      = fun k : Symbol => if k = 0 then (3 : ℚ) / 513 else 2 / 513 := by
    have hfl : (fun k : Symbol =>
        if (if k = 0 then (3 : ℚ) else 2) ≤ 0 then (1 : ℚ) / 10 ^ 12
        else (if k = 0 then (3 : ℚ) else 2))
        = fun k : Symbol => if k = 0 then (3 : ℚ) else 2 := by
      funext k
      by_cases h : k = 0
      · simp only [if_pos h]
        norm_num
      · simp only [if_neg h]
        norm_num
    unfold floor_and_renormalize
    simp only
    rw [hfl, sum_ite_zero]
    norm_num
    funext k
    by_cases h : k = 0
    · simp only [if_pos h]
      norm_num
    · simp only [if_neg h]
      norm_num
  have hbase : ∀ k : Symbol,
      base_freq (floor_and_renormalize (fun k : Symbol => if k = 0 then (3 : ℚ) else 2)) k
        = if k = 0 then 383 else 255 := by
    intro k
    rw [hnorm]
    unfold base_freq raw_value TOTAL_FREQ
    by_cases h : k = 0
    · simp only [if_pos h]
      have hf : ⌊(3 : ℚ) / 513 * ((65536 : Nat) : ℚ)⌋₊ = 383 := by
        rw [Nat.floor_eq_iff (by norm_num)]
        constructor <;> norm_num
      rw [hf]
      rfl
    · simp only [if_neg h]
      have hf : ⌊(2 : ℚ) / 513 * ((65536 : Nat) : ℚ)⌋₊ = 255 := by
        rw [Nat.floor_eq_iff (by norm_num)]
        constructor <;> norm_num
      rw [hf]
      rfl
  have hS : (∑ k : Symbol,
      base_freq (floor_and_renormalize (fun k : Symbol => if k = 0 then (3 : ℚ) else 2)) k)
        < TOTAL_FREQ := by
    rw [Finset.sum_congr rfl (fun k _ => hbase k), sum_ite_zero]
    decide
  obtain ⟨freq, h1, h2, -⟩ :=
    C17_deficit_tie_break (fun k : Symbol => if k = 0 then (3 : ℚ) else 2) hS
  exact ⟨freq, h1, h2⟩

/-! ## Lemmas on `FibonacciContextModel::update` -/

theorem update_tables_getElem? (history : List Symbol) (s : Symbol) :
    ∀ (orders : List Nat) (trees : List ContextTree) (i order : Nat) (tree : ContextTree),
      orders[i]? = some order → trees[i]? = some tree →
      (update_tables history s orders trees)[i]?
        = some (if history.length ≥ order then
            increment_context tree (context_of history order) s else tree) := by
  intro orders
  induction orders with
  | nil =>
    intro trees i order tree ho
    exact absurd ho (by simp)
  | cons o os ih =>
    intro trees i order tree ho ht
    cases trees with
    | nil => exact absurd ht (by simp)
    | cons t ts =>
      cases i with
      | zero =>
        rw [List.getElem?_cons_zero] at ho ht
        injection ho with ho
        injection ht with ht
        rw [update_tables, List.getElem?_cons_zero, ho, ht]
      | succ j =>
        rw [List.getElem?_cons_succ] at ho ht
        rw [update_tables, List.getElem?_cons_succ]
        exact ih ts j order tree ho ht

theorem update_tables_length (history : List Symbol) (s : Symbol) :
    ∀ (orders : List Nat) (trees : List ContextTree), trees.length = orders.length →
      (update_tables history s orders trees).length = orders.length := by
  intro orders
  induction orders with
  | nil =>
    intro trees h
    rw [update_tables]
    exact h
  | cons o os ih =>
    intro trees h
    cases trees with
    | nil => exact absurd h (by simp)
    | cons t ts =>
      rw [update_tables, List.length_cons, List.length_cons, ih ts (by simpa using h)]

theorem context_of_length (history : List Symbol) (order : Nat) (h : order ≤ history.length) :
    (context_of history order).length = order ∧
      history = history.take (history.length - order) ++ context_of history order := by
  unfold context_of
  constructor
  · rw [List.length_drop]
    omega
  · exact (List.take_append_drop _ _).symm

theorem increment_context_apply (tree : ContextTree) (context : ContextKey) (s : Symbol) :
    (∀ key, key ≠ context → increment_context tree context s key = tree key) ∧
    increment_context tree context s context
      = some (increment_count ((tree context).getD (fun _ => none)) s) := by
  unfold increment_context
  constructor
  · intro key hk
    rw [Function.update_noteq hk]
  · rw [Function.update_same]

/-- C21 (fails on the code at a full counter): build the model with orders `[1]` and feed
it `2^32` zero bytes; the count of byte 0 after context `[0]` is then `2^32 - 1`, and one
more `update(0)` leaves it at 0, not at `2^32`: the counts are `uint32_t`. -/
theorem C21_count_wraps_counterexample :
    ∃ (tree tree1 : ContextTree) (counts1 : SymbolCounts),
      ((List.replicate (2 ^ 32) (0 : Symbol)).foldl FibonacciContextModel.update
          (⟨[1], 1, [fun _ => none], [], 13 / 8⟩ : FibonacciContextModel ℚ)).context_models[0]?
        = some tree ∧
      ((tree [0]).getD (fun _ => none)) 0 = some (2 ^ 32 - 1) ∧
      (((List.replicate (2 ^ 32) (0 : Symbol)).foldl FibonacciContextModel.update
          (⟨[1], 1, [fun _ => none], [], 13 / 8⟩ : FibonacciContextModel ℚ)).update
            0).context_models[0]?
        = some tree1 ∧
      tree1 [0] = some counts1 ∧ counts1 0 = some 0 := by
  have hshape := foldl_update_overflow_shape (13 / 8 : ℚ) (2 ^ 32 - 1) 0
  have e1 : (2 : ℕ) ^ 32 - 1 + 1 = 2 ^ 32 := by norm_num
  have e2 : alternate 1 0 0 = [] := rfl
  rw [e1, e2, List.append_nil, Function.iterate_zero, id] at hshape
  rw [hshape, update_order_one]
  have hold : ((((fun t => increment_context t [0] 0)^[2 ^ 32 - 1] (fun _ => none)) [0]).getD
      (fun _ => none)) 0 = some (2 ^ 32 - 1) := by
    rw [getD_iterate_same, iterate_increment_count, if_pos rfl, if_neg (by norm_num)]
    norm_num
  refine ⟨(fun t => increment_context t [0] 0)^[2 ^ 32 - 1] (fun _ => none),
    increment_context ((fun t => increment_context t [0] 0)^[2 ^ 32 - 1] (fun _ => none)) [0] 0,
    increment_count ((((fun t => increment_context t [0] 0)^[2 ^ 32 - 1] (fun _ => none))
      [0]).getD (fun _ => none)) 0,
    List.getElem?_cons_zero, hold, List.getElem?_cons_zero,
    (increment_context_apply _ _ _).2, ?_⟩
  rw [increment_count_apply, if_pos rfl, hold]
  norm_num

/-- C21, amended: for every model state and symbol `s`, `update(s)` takes every context
key from the pre-update history. For each `i` with `|history| ≥ orders[i]` the key is the
last `orders[i]` symbols of the history; in `tables[i]` the count of `s` under that key
becomes the old count (0 if absent) plus 1 modulo `2^32`, which is the old count plus 1
whenever that is below `2^32` and 1 when the entry was absent, and no other key and no
other count changes. A table with `|history| < orders[i]` is unchanged. Then `s` is
appended to the history and the oldest element is dropped iff the length exceeds
`max_order`; the orders and `max_order` stay as they are. -/
theorem C21_update_step {F : Type} (m : FibonacciContextModel F) (s : Symbol) (i order : Nat)
    (tree : ContextTree) (ho : m.fib_orders[i]? = some order)
    (ht : m.context_models[i]? = some tree) :
    ∃ tree1, (m.update s).context_models[i]? = some tree1 ∧
      (m.history.length < order → tree1 = tree) ∧
      (order ≤ m.history.length →
        (context_of m.history order).length = order ∧
        m.history = m.history.take (m.history.length - order) ++ context_of m.history order ∧
        (∀ key, key ≠ context_of m.history order → tree1 key = tree key) ∧
        ∃ counts1, tree1 (context_of m.history order) = some counts1 ∧
          counts1 s
            = some (((((tree (context_of m.history order)).getD (fun _ => none)) s).getD 0 + 1)
                % 2 ^ 32) ∧
          (∀ c, ((tree (context_of m.history order)).getD (fun _ => none)) s = some c →
            c + 1 < 2 ^ 32 → counts1 s = some (c + 1)) ∧
          (((tree (context_of m.history order)).getD (fun _ => none)) s = none →
            counts1 s = some 1) ∧
          ∀ t, t ≠ s →
            counts1 t = ((tree (context_of m.history order)).getD (fun _ => none)) t) ∧
      (m.update s).history
        = (if (m.history ++ [s]).length > m.max_order then (m.history ++ [s]).tail
           else m.history ++ [s]) ∧
      (m.update s).fib_orders = m.fib_orders ∧ (m.update s).max_order = m.max_order := by
  have hget := update_tables_getElem? m.history s m.fib_orders m.context_models i order tree ho ht
  refine ⟨_, hget, ?_, ?_, rfl, rfl, rfl⟩
  · intro hlt
    rw [if_neg (Nat.not_le_of_lt hlt)]
  · intro hle
    rw [if_pos hle]
    obtain ⟨hlen, hsuf⟩ := context_of_length m.history order hle
    obtain ⟨hother, hsame⟩ := increment_context_apply tree (context_of m.history order) s
    refine ⟨hlen, hsuf, hother, _, hsame, ?_, ?_, ?_, ?_⟩
    · rw [increment_count_apply, if_pos rfl]
    · intro c hc hlt
      rw [increment_count_apply, if_pos rfl, hc, Option.getD_some, Nat.mod_eq_of_lt hlt]
    · intro hnone
      rw [increment_count_apply, if_pos rfl, hnone]
      rfl
    · intro t hts
      rw [increment_count_apply, if_neg hts]

/-- Witness for C21: the default model after the history `"AB"`, table 0 (order 2). -/
theorem C21_update_step_witness :
    ∃ tree1,
      ((⟨[2, 3, 5, 8, 13], 13, List.replicate 5 (fun _ => none), [0x41, 0x42], 13 / 8⟩ :
        FibonacciContextModel ℚ).update 0x43).context_models[0]? = some tree1 ∧
      ∃ counts1, tree1 [0x41, 0x42] = some counts1 ∧ counts1 0x43 = some 1 := by
  obtain ⟨tree1, h1, -, h2, -⟩ := C21_update_step
    (⟨[2, 3, 5, 8, 13], 13, List.replicate 5 (fun _ => none), [0x41, 0x42], 13 / 8⟩ :
      FibonacciContextModel ℚ) 0x43 0 2 (fun _ => none) rfl rfl
  obtain ⟨-, -, -, counts1, h3, -, -, h4, -⟩ := h2 (by decide)
  exact ⟨tree1, h1, counts1, h3, h4 rfl⟩

/-! ## The state invariant of `FibonacciContextModel` -/

theorem tree_wellformed_mono (order N M : Nat) (tree : ContextTree) (hNM : N ≤ M)
    (h : tree_wellformed order N tree) : tree_wellformed order M tree := by
  intro key counts hk
  obtain ⟨h1, h2⟩ := h key counts hk
  refine ⟨h1, fun s c hc => ?_⟩
  obtain ⟨a, b⟩ := h2 s c hc
  exact ⟨a, Nat.le_trans b hNM⟩

theorem increment_context_wellformed (order N : Nat) (tree : ContextTree)
    (context : ContextKey) (s : Symbol) (h : tree_wellformed order N tree)
    (hlen : context.length = order) (hN : N + 1 < 2 ^ 32) :
    tree_wellformed order (N + 1) (increment_context tree context s) := by
  intro key counts hk
  obtain ⟨hother, hsame⟩ := increment_context_apply tree context s
  by_cases hkey : key = context
  · rw [hkey, hsame] at hk
    injection hk with hk
    rw [hkey]
    refine ⟨hlen, fun t c hc => ?_⟩
    rw [← hk, increment_count_apply] at hc
    by_cases hts : t = s
    · rw [if_pos hts] at hc
      injection hc with hc
      cases hold : tree context with
      | none =>
        rw [hold] at hc
        have h0 : ((none : Option SymbolCounts).getD (fun _ => none) s).getD 0 = 0 := rfl
        rw [h0] at hc
        omega
      | some old =>
        rw [hold, Option.getD_some] at hc
        cases hs : old s with
        | none =>
          rw [hs] at hc
          have h0 : (none : Option Nat).getD 0 = 0 := rfl
          rw [h0] at hc
          omega
        | some c0 =>
          rw [hs, Option.getD_some] at hc
          obtain ⟨-, hb⟩ := (h context old hold).2 s c0 hs
          rw [Nat.mod_eq_of_lt (by omega)] at hc
          omega
    · rw [if_neg hts] at hc
      cases hold : tree context with
      | none =>
        rw [hold] at hc
        exact absurd hc (by simp)
      | some old =>
        rw [hold, Option.getD_some] at hc
        obtain ⟨a, b⟩ := (h context old hold).2 t c hc
        exact ⟨a, Nat.le_succ_of_le b⟩
  · rw [hother key hkey] at hk
    exact tree_wellformed_mono order N (N + 1) tree (Nat.le_succ N) h key counts hk

theorem update_wellformed {F : Type} (m : FibonacciContextModel F) (s : Symbol) (N : Nat)
    (hN : N + 1 < 2 ^ 32)
    (h : ∀ (i order : Nat) (tree : ContextTree), m.fib_orders[i]? = some order → m.context_models[i]? = some tree →
      tree_wellformed order N tree)
    (hlen : m.context_models.length = m.fib_orders.length) :
    (∀ (i order : Nat) (tree : ContextTree), (m.update s).fib_orders[i]? = some order →
      (m.update s).context_models[i]? = some tree → tree_wellformed order (N + 1) tree) ∧
    (m.update s).context_models.length = (m.update s).fib_orders.length := by
  constructor
  · intro i order tree1 ho ht1
    have ho1 : m.fib_orders[i]? = some order := ho
    have hi : i < m.context_models.length := by
      rw [hlen]
      exact (List.getElem?_eq_some_iff.mp ho1).1
    have hget := update_tables_getElem? m.history s m.fib_orders m.context_models i order
      (m.context_models[i]) ho1 (List.getElem?_eq_getElem hi)
    have ht2 : (update_tables m.history s m.fib_orders m.context_models)[i]? = some tree1 := ht1
    rw [hget] at ht2
    injection ht2 with ht2
    have hw := h i order (m.context_models[i]) ho1 (List.getElem?_eq_getElem hi)
    rw [← ht2]
    by_cases hle : m.history.length ≥ order
    · rw [if_pos hle]
      exact increment_context_wellformed order N _ _ s hw
        (context_of_length m.history order hle).1 hN
    · rw [if_neg hle]
      exact tree_wellformed_mono order N (N + 1) _ (Nat.le_succ N) hw
  · exact update_tables_length m.history s m.fib_orders m.context_models hlen

theorem foldl_update_wellformed {F : Type} :
    ∀ (l : List Symbol) (N : Nat) (m : FibonacciContextModel F), N + l.length < 2 ^ 32 →
      (∀ (i order : Nat) (tree : ContextTree), m.fib_orders[i]? = some order → m.context_models[i]? = some tree →
        tree_wellformed order N tree) →
      m.context_models.length = m.fib_orders.length →
      (∀ (i order : Nat) (tree : ContextTree), (l.foldl FibonacciContextModel.update m).fib_orders[i]? = some order →
        (l.foldl FibonacciContextModel.update m).context_models[i]? = some tree →
        tree_wellformed order (N + l.length) tree) ∧
      (l.foldl FibonacciContextModel.update m).context_models.length
        = (l.foldl FibonacciContextModel.update m).fib_orders.length := by
  intro l
  induction l with
  | nil =>
    intro N m _ h hl
    exact ⟨h, hl⟩
  | cons s rest ih =>
    intro N m hN h hl
    rw [List.length_cons] at hN
    obtain ⟨h1, hl1⟩ := update_wellformed m s N (by omega) h hl
    rw [List.foldl_cons, List.length_cons,
      show N + (rest.length + 1) = (N + 1) + rest.length by omega]
    exact ih (N + 1) (m.update s) (by omega) h1 hl1

/-- One step of the history: pushing `s` on the last `K` symbols of `l` and dropping the
oldest element when there are more than `K` gives the last `K` symbols of `l ++ [s]`. -/
theorem history_step (K : Nat) (l : List Symbol) (s : Symbol) :
    (if (l.drop (l.length - K) ++ [s]).length > K then (l.drop (l.length - K) ++ [s]).tail
      else l.drop (l.length - K) ++ [s])
      = (l ++ [s]).drop ((l ++ [s]).length - K) := by
  rw [List.length_append, List.length_drop, List.length_append, List.length_singleton]
  by_cases h : l.length < K
  · have e1 : l.length - K = 0 := by omega
    have e2 : l.length + 1 - K = 0 := by omega
    rw [e1, e2, List.drop_zero, List.drop_zero, if_neg (by omega)]
  · have e2 : l.length + 1 - K = (l.length - K) + 1 := by omega
    rw [if_pos (by omega), e2, ← List.drop_one, ← List.drop_drop,
      List.drop_append_of_le_length (Nat.sub_le _ _)]

theorem foldl_update_history {F : Type} :
    ∀ (l pre : List Symbol) (m : FibonacciContextModel F),
      m.history = pre.drop (pre.length - m.max_order) →
      (l.foldl FibonacciContextModel.update m).history
          = (pre ++ l).drop ((pre ++ l).length - m.max_order) ∧
        (l.foldl FibonacciContextModel.update m).max_order = m.max_order := by
  intro l
  induction l with
  | nil =>
    intro pre m h
    rw [List.foldl_nil, List.append_nil]
    exact ⟨h, rfl⟩
  | cons s rest ih =>
    intro pre m h
    have hstep : (m.update s).history
        = (pre ++ [s]).drop ((pre ++ [s]).length - (m.update s).max_order) := by
      show (if (m.history ++ [s]).length > m.max_order then (m.history ++ [s]).tail
        else m.history ++ [s]) = _
      rw [h]
      exact history_step m.max_order pre s
    obtain ⟨h1, h2⟩ := ih (pre ++ [s]) (m.update s) hstep
    rw [List.foldl_cons, h1, h2, List.append_assoc]
    exact ⟨rfl, rfl⟩

/-- C22: a model built by the constructor from a non-empty order list and then updated
with `m < 2^32` symbols keeps the order list and one table per order; every key of
`tables[i]` has length `orders[i]`; every stored count is at least 1 (and at most `m`);
`max_order` is the last order `K`; `|history| = min(m, K) ≤ K`; and the history is the
last `min(m, K)` symbols of the sequence, in arrival order. -/
theorem C22_state_invariant {F : Type} ( GOLDEN_RATIO : F) (orders : List Nat)
    (m0 : FibonacciContextModel F)
    (hnew : FibonacciContextModel.new GOLDEN_RATIO orders = Except.ok m0)
    (symbols : List Symbol) (hlen : symbols.length < 2 ^ 32) :
    (symbols.foldl FibonacciContextModel.update m0).fib_orders = orders ∧
    (symbols.foldl FibonacciContextModel.update m0).context_models.length = orders.length ∧
    (∀ (i order : Nat) (tree : ContextTree), orders[i]? = some order →
      (symbols.foldl FibonacciContextModel.update m0).context_models[i]? = some tree →
      ∀ (key : ContextKey) (counts : SymbolCounts), tree key = some counts →
        key.length = order ∧ ∀ s c, counts s = some c → 1 ≤ c ∧ c ≤ symbols.length) ∧
    (symbols.foldl FibonacciContextModel.update m0).max_order = orders.getLastD 0 ∧
    (symbols.foldl FibonacciContextModel.update m0).history.length
      = min symbols.length (orders.getLastD 0) ∧
    (symbols.foldl FibonacciContextModel.update m0).history.length ≤ orders.getLastD 0 ∧
    (symbols.foldl FibonacciContextModel.update m0).history
      = symbols.drop (symbols.length - min symbols.length (orders.getLastD 0)) := by
  unfold FibonacciContextModel.new at hnew
  by_cases he : orders = []
  · rw [if_pos he] at hnew
    exact absurd hnew (by simp)
  · rw [if_neg he] at hnew
    injection hnew with hm0
    subst hm0
    obtain ⟨ho, -⟩ := foldl_update_fib_orders symbols
      (⟨orders, orders.getLastD 0, List.replicate orders.length (fun _ => none), [],
        GOLDEN_RATIO⟩ : FibonacciContextModel F)
    have hinit : ∀ (i order : Nat) (tree : ContextTree),
        (⟨orders, orders.getLastD 0, List.replicate orders.length (fun _ => none), [],
          GOLDEN_RATIO⟩ : FibonacciContextModel F).fib_orders[i]? = some order →
        (⟨orders, orders.getLastD 0, List.replicate orders.length (fun _ => none), [],
          GOLDEN_RATIO⟩ : FibonacciContextModel F).context_models[i]? = some tree →
        tree_wellformed order 0 tree := by
      intro i order tree _ ht key counts hk
      have hmem : tree ∈ List.replicate orders.length (fun _ => none : ContextTree) :=
        List.getElem?_mem ht
      rw [List.eq_of_mem_replicate hmem] at hk
      exact absurd hk (by simp)
    obtain ⟨hw, hl⟩ := foldl_update_wellformed symbols 0
      (⟨orders, orders.getLastD 0, List.replicate orders.length (fun _ => none), [],
        GOLDEN_RATIO⟩ : FibonacciContextModel F) (by omega) hinit
      (List.length_replicate _ _)
    obtain ⟨hh, hK⟩ := foldl_update_history symbols []
      (⟨orders, orders.getLastD 0, List.replicate orders.length (fun _ => none), [],
        GOLDEN_RATIO⟩ : FibonacciContextModel F) List.drop_nil.symm
    rw [List.nil_append] at hh
    have hK1 : (symbols.foldl FibonacciContextModel.update
        (⟨orders, orders.getLastD 0, List.replicate orders.length (fun _ => none), [],
          GOLDEN_RATIO⟩ : FibonacciContextModel F)).max_order = orders.getLastD 0 := hK
    have hh1 : (symbols.foldl FibonacciContextModel.update
        (⟨orders, orders.getLastD 0, List.replicate orders.length (fun _ => none), [],
          GOLDEN_RATIO⟩ : FibonacciContextModel F)).history
        = symbols.drop (symbols.length - orders.getLastD 0) := hh
    have hsub : symbols.length - min symbols.length (orders.getLastD 0)
        = symbols.length - orders.getLastD 0 := by omega
    refine ⟨ho, ?_, ?_, hK1, ?_, ?_, ?_⟩
    · rw [hl, ho]
    · intro i order tree hoi hti key counts hk
      have hwf := hw i order tree (by rw [ho]; exact hoi) hti
      rw [Nat.zero_add] at hwf
      exact hwf key counts hk
    · rw [hh1, List.length_drop]
      omega
    · rw [hh1, List.length_drop]
      omega
    · rw [hh1, hsub]

/-- Witness for C22: orders `[2, 3]` and the symbols `"ABAC"`. -/
theorem C22_state_invariant_witness :
    ∃ m0, FibonacciContextModel.new (13 / 8 : ℚ) [2, 3] = Except.ok m0 ∧
      (([0x41, 0x42, 0x41, 0x43] : List Symbol).foldl FibonacciContextModel.update m0).history
        = ([0x41, 0x42, 0x41, 0x43] : List Symbol).drop
            (([0x41, 0x42, 0x41, 0x43] : List Symbol).length
              - min ([0x41, 0x42, 0x41, 0x43] : List Symbol).length (([2, 3] : List Nat).getLastD 0)) :=
  ⟨_, rfl, (C22_state_invariant (13 / 8 : ℚ) [2, 3] _ rfl [0x41, 0x42, 0x41, 0x43]
    (by decide)).2.2.2.2.2.2⟩

/-! ## The fallback of `get_probabilities` -/

/-- With a positive `phi`, `total_weight` is never negative and, while it is 0, all of
`final_probabilities` is 0: the loop body adds to both or to neither. -/
theorem mix_context_zero {F : Type} [LinearOrderedField F] (phi : F) (hphi : 0 < phi)
    (history : List Symbol) (i order : Nat) (tree : ContextTree) (acc : (Symbol → F) × F)
    (hacc : 0 ≤ acc.2 ∧ (acc.2 = 0 → ∀ k, acc.1 k = 0)) :
    0 ≤ (mix_context phi history i order tree acc).2 ∧
      ((mix_context phi history i order tree acc).2 = 0 →
        ∀ k, (mix_context phi history i order tree acc).1 k = 0) := by
  unfold mix_context
  by_cases hlen : history.length < order
  · rw [if_pos hlen]
    exact hacc
  · rw [if_neg hlen]
    cases htree : tree (context_of history order) with
    | none => exact hacc
    | some counts =>
      by_cases hct : context_total counts > 0
      · simp only [if_pos hct]
        have hw : 0 < phi ^ i := pow_pos hphi i
        have hpos : 0 < acc.2 + phi ^ i := add_pos_of_nonneg_of_pos hacc.1 hw
        exact ⟨le_of_lt hpos, fun h0 => absurd h0 (ne_of_gt hpos)⟩
      · simp only [if_neg hct]
        exact hacc

theorem mix_loop_zero {F : Type} [LinearOrderedField F] (m : FibonacciContextModel F)
    (hphi : 0 < m.phi) :
    ∀ (n : Nat) (acc : (Symbol → F) × F), (0 ≤ acc.2 ∧ (acc.2 = 0 → ∀ k, acc.1 k = 0)) →
      0 ≤ (mix_loop m n acc).2 ∧
        ((mix_loop m n acc).2 = 0 → ∀ k, (mix_loop m n acc).1 k = 0) := by
  intro n
  induction n with
  | zero =>
    intro acc hacc
    exact hacc
  | succ n ih =>
    intro acc hacc
    rw [mix_loop]
    apply ih
    cases ho : m.fib_orders[n]? with
    | none => exact hacc
    | some order =>
      cases ht : m.context_models[n]? with
      | none => exact hacc
      | some tree => exact mix_context_zero m.phi hphi m.history n order tree acc hacc

/-- When no index reaches a stored context, the loop leaves its accumulator alone. -/
theorem mix_loop_unmatched {F : Type} [LinearOrderedField F] (m : FibonacciContextModel F)
    (h : ∀ (i order : Nat) (tree : ContextTree), m.fib_orders[i]? = some order →
      m.context_models[i]? = some tree →
      ¬ (order ≤ m.history.length ∧ (tree (context_of m.history order)).isSome = true)) :
    ∀ (n : Nat) (acc : (Symbol → F) × F), mix_loop m n acc = acc := by
  intro n
  induction n with
  | zero =>
    intro acc
    rfl
  | succ n ih =>
    intro acc
    rw [mix_loop, ih]
    cases ho : m.fib_orders[n]? with
    | none => rfl
    | some order =>
      cases ht : m.context_models[n]? with
      | none => rfl
      | some tree => exact mix_context_unmatched m.phi m.history n order tree acc (h n order tree ho ht)

theorem get_probabilities_of_zero {F : Type} [LinearOrderedField F]
    (m : FibonacciContextModel F)
    (h2 : (mix_loop m m.fib_orders.length (fun _ => 0, 0)).2 = 0)
    (h1 : ∀ k, (mix_loop m m.fib_orders.length (fun _ => 0, 0)).1 k = 0) :
    ∀ k, m.get_probabilities k = 1 / 256 := by
  intro k
  rw [get_probabilities_eq, h2, if_neg (lt_irrefl _)]
  show (mix_loop m m.fib_orders.length (fun _ => 0, 0)).1 k + 1 / 256 = 1 / 256
  rw [h1 k, zero_add]

theorem get_probabilities_unmatched {F : Type} [LinearOrderedField F]
    (m : FibonacciContextModel F)
    (h : ∀ (i order : Nat) (tree : ContextTree), m.fib_orders[i]? = some order →
      m.context_models[i]? = some tree →
      ¬ (order ≤ m.history.length ∧ (tree (context_of m.history order)).isSome = true)) :
    ∀ k, m.get_probabilities k = 1 / 256 := by
  apply get_probabilities_of_zero
  · rw [mix_loop_unmatched m h]
  · intro k
    rw [mix_loop_unmatched m h]

/-- C23: with a positive `phi`, whenever `total_weight` is 0 at the end of the loop of
`get_probabilities` (no context contributed), every one of the 256 entries returned is
exactly `1/256`. That is the case when no index reaches a stored context, in particular
for a freshly constructed model, for every model whose history is shorter than each of
its orders, and for a constructed model that has been updated with fewer symbols than
its smallest order. -/
theorem C23_no_information_fallback {F : Type} [LinearOrderedField F]
    (m : FibonacciContextModel F) (hphi : 0 < m.phi) :
    ((mix_loop m m.fib_orders.length (fun _ => 0, 0)).2 = 0 →
      ∀ k, m.get_probabilities k = 1 / 256) ∧
    (m.context_matched = false →
      (mix_loop m m.fib_orders.length (fun _ => 0, 0)).2 = 0 ∧
        ∀ k, m.get_probabilities k = 1 / 256) ∧
    (∀ (orders : List Nat) (m0 : FibonacciContextModel F),
      FibonacciContextModel.new m.phi orders = Except.ok m0 →
      ∀ k, m0.get_probabilities k = 1 / 256) ∧
    ((∀ order ∈ m.fib_orders, m.history.length < order) →
      ∀ k, m.get_probabilities k = 1 / 256) ∧
    (∀ (orders : List Nat) (m0 : FibonacciContextModel F) (symbols : List Symbol),
      FibonacciContextModel.new m.phi orders = Except.ok m0 →
      (∀ order ∈ orders, symbols.length < order) →
      ∀ k, (symbols.foldl FibonacciContextModel.update m0).get_probabilities k = 1 / 256) := by
  have hshort : ∀ m1 : FibonacciContextModel F,
      (∀ order ∈ m1.fib_orders, m1.history.length < order) →
      ∀ k, m1.get_probabilities k = 1 / 256 := by
    intro m1 h
    apply get_probabilities_unmatched
    intro i order tree ho _ hc
    have := h order (List.getElem?_mem ho)
    omega
  refine ⟨?_, ?_, ?_, hshort m, ?_⟩
  · intro h2
    exact get_probabilities_of_zero m h2
      ((mix_loop_zero m hphi _ (fun _ => 0, 0) ⟨le_refl _, fun _ _ => rfl⟩).2 h2)
  · intro hcm
    have hun : ∀ (i order : Nat) (tree : ContextTree), m.fib_orders[i]? = some order →
        m.context_models[i]? = some tree →
        ¬ (order ≤ m.history.length ∧ (tree (context_of m.history order)).isSome = true) := by
      intro i order tree ho ht hc
      have hi : i < m.fib_orders.length := (List.getElem?_eq_some_iff.mp ho).1
      have hm : m.matched_at i = true :=
        (matched_at_iff m i).mpr ⟨order, tree, ho, ht, hc.1, hc.2⟩
      have hcm1 : m.context_matched = true :=
        (context_matched_iff m).mpr ⟨i, hi, hm⟩
      rw [hcm] at hcm1
      exact absurd hcm1 (by decide)
    refine ⟨?_, get_probabilities_unmatched m hun⟩
    rw [mix_loop_unmatched m hun]
  · intro orders m0 hnew
    unfold FibonacciContextModel.new at hnew
    by_cases he : orders = []
    · rw [if_pos he] at hnew
      exact absurd hnew (by simp)
    · rw [if_neg he] at hnew
      injection hnew with hm0
      subst hm0
      apply get_probabilities_unmatched
      intro i order tree _ ht hc
      have ht1 : (List.replicate orders.length (fun _ => none : ContextTree))[i]? = some tree := ht
      rw [List.eq_of_mem_replicate (List.getElem?_mem ht1)] at hc
      exact absurd hc.2 (by simp)
  · intro orders m0 symbols hnew hfew
    have hnew1 := hnew
    unfold FibonacciContextModel.new at hnew
    by_cases he : orders = []
    · rw [if_pos he] at hnew
      exact absurd hnew (by simp)
    · rw [if_neg he] at hnew
      injection hnew with hm0
      obtain ⟨ho, -⟩ := foldl_update_fib_orders symbols m0
      obtain ⟨hh, -⟩ := foldl_update_history symbols [] m0
        (by rw [← hm0]; exact List.drop_nil.symm)
      apply hshort
      intro order hmem
      rw [ho, ← hm0] at hmem
      have := hfew order hmem
      rw [hh, List.nil_append, List.length_drop]
      omega

/-- Witness for C23: the default model over the rationals with `phi = 13/8`. -/
theorem C23_no_information_fallback_witness :
    (FibonacciContextModel.default (13 / 8 : ℚ)).get_probabilities 0x41 = 1 / 256 :=
  (C23_no_information_fallback (FibonacciContextModel.default (13 / 8 : ℚ))
    (by show (0 : ℚ) < 13 / 8; norm_num)).2.2.2.1
    (by
      intro order hmem
      have h2 : order ∈ ([2, 3, 5, 8, 13] : List Nat) := hmem
      show 0 < order
      simp only [List.mem_cons, List.mem_singleton, List.not_mem_nil, or_false] at h2
      omega) 0x41

/-! ## The RGBD state -/

/-- The invariant of the RGBD state after `n` updates from a reset state. -/
theorem rgbd_update_inv (n : Nat) (g : RGBDState) (s : Symbol)
    (hi : g.index = n % 2 ^ 64) (hf : g.fib_n = Nat.fib n % 10)
    (hf1 : g.fib_np1 = Nat.fib (n + 1) % 10)
    (hv : ∀ t x y, g.visits t x y ≤ 0xFFFF)
    (hw : ∀ t x y, (g.visits t x y ≠ 0 ∨ g.last_symbol t x y ≠ 0) →
      ∃ j, j < n ∧ t = (j % 2 ^ 64) % 60 ∧ x = Nat.fib j % 10 ∧ y = Nat.fib (j + 1) % 10) :
    (g.update s).index = (n + 1) % 2 ^ 64 ∧ (g.update s).fib_n = Nat.fib (n + 1) % 10 ∧
    (g.update s).fib_np1 = Nat.fib (n + 1 + 1) % 10 ∧
    (∀ t x y, (g.update s).visits t x y ≤ 0xFFFF) ∧
    (∀ t x y, ((g.update s).visits t x y ≠ 0 ∨ (g.update s).last_symbol t x y ≠ 0) →
      ∃ j, j < n + 1 ∧ t = (j % 2 ^ 64) % 60 ∧ x = Nat.fib j % 10 ∧
        y = Nat.fib (j + 1) % 10) := by
  have hidx : (g.update s).index = (g.index + 1) % 2 ^ 64 := rfl
  have hfn : (g.update s).fib_n = g.fib_np1 := rfl
  have hfn1 : (g.update s).fib_np1 = ((g.fib_n + g.fib_np1) % 2 ^ 32) % 10 := rfl
  have hvis : (g.update s).visits
      = (if g.visits (g.index % 60) (g.fib_n % 10) (g.fib_np1 % 10) < 0xFFFF then
          set_cell g.visits (g.index % 60) (g.fib_n % 10) (g.fib_np1 % 10)
            (g.visits (g.index % 60) (g.fib_n % 10) (g.fib_np1 % 10) + 1)
        else g.visits) := rfl
  have hls : (g.update s).last_symbol
      = set_cell g.last_symbol (g.index % 60) (g.fib_n % 10) (g.fib_np1 % 10) s := rfl
  have e2 : Nat.fib (n + 1 + 1) = Nat.fib n + Nat.fib (n + 1) := Nat.fib_add_two
  have hcell : g.index % 60 = (n % 2 ^ 64) % 60 ∧ g.fib_n % 10 = Nat.fib n % 10 ∧
      g.fib_np1 % 10 = Nat.fib (n + 1) % 10 := by
    rw [hi, hf, hf1]
    omega
  refine ⟨?_, ?_, ?_, ?_, ?_⟩
  · rw [hidx, hi]
    omega
  · rw [hfn, hf1]
  · rw [hfn1, hf, hf1, e2]
    omega
  · intro t x y
    rw [hvis]
    by_cases hlt : g.visits (g.index % 60) (g.fib_n % 10) (g.fib_np1 % 10) < 0xFFFF
    · rw [if_pos hlt]
      unfold set_cell
      by_cases hc : t = g.index % 60 ∧ x = g.fib_n % 10 ∧ y = g.fib_np1 % 10
      · rw [if_pos hc]
        omega
      · rw [if_neg hc]
        exact hv t x y
    · rw [if_neg hlt]
      exact hv t x y
  · intro t x y hne
    by_cases hc : t = g.index % 60 ∧ x = g.fib_n % 10 ∧ y = g.fib_np1 % 10
    · refine ⟨n, Nat.lt_succ_self n, ?_, ?_, ?_⟩
      · rw [hc.1, hcell.1]
      · rw [hc.2.1, hcell.2.1]
      · rw [hc.2.2, hcell.2.2]
    · have hold : g.visits t x y ≠ 0 ∨ g.last_symbol t x y ≠ 0 := by
        rw [hvis, hls] at hne
        rcases hne with h | h
        · left
          by_cases hlt : g.visits (g.index % 60) (g.fib_n % 10) (g.fib_np1 % 10) < 0xFFFF
          · rw [if_pos hlt] at h
            unfold set_cell at h
            rw [if_neg hc] at h
            exact h
          · rw [if_neg hlt] at h
            exact h
        · right
          unfold set_cell at h
          rw [if_neg hc] at h
          exact h
      obtain ⟨j, hj, hrest⟩ := hw t x y hold
      exact ⟨j, Nat.lt_succ_of_lt hj, hrest⟩

theorem rgbd_foldl_inv :
    ∀ (l : List Symbol) (n : Nat) (g : RGBDState),
      g.index = n % 2 ^ 64 → g.fib_n = Nat.fib n % 10 → g.fib_np1 = Nat.fib (n + 1) % 10 →
      (∀ t x y, g.visits t x y ≤ 0xFFFF) →
      (∀ t x y, (g.visits t x y ≠ 0 ∨ g.last_symbol t x y ≠ 0) →
        ∃ j, j < n ∧ t = (j % 2 ^ 64) % 60 ∧ x = Nat.fib j % 10 ∧
          y = Nat.fib (j + 1) % 10) →
      (l.foldl RGBDState.update g).index = (n + l.length) % 2 ^ 64 ∧
      (l.foldl RGBDState.update g).fib_n = Nat.fib (n + l.length) % 10 ∧
      (l.foldl RGBDState.update g).fib_np1 = Nat.fib (n + l.length + 1) % 10 ∧
      (∀ t x y, (l.foldl RGBDState.update g).visits t x y ≤ 0xFFFF) ∧
      (∀ t x y, ((l.foldl RGBDState.update g).visits t x y ≠ 0 ∨
          (l.foldl RGBDState.update g).last_symbol t x y ≠ 0) →
        ∃ j, j < n + l.length ∧ t = (j % 2 ^ 64) % 60 ∧ x = Nat.fib j % 10 ∧
          y = Nat.fib (j + 1) % 10) := by
  intro l
  induction l with
  | nil =>
    intro n g hi hf hf1 hv hw
    exact ⟨hi, hf, hf1, hv, hw⟩
  | cons s rest ih =>
    intro n g hi hf hf1 hv hw
    obtain ⟨a, b, c, d, e⟩ := rgbd_update_inv n g s hi hf hf1 hv hw
    have h := ih (n + 1) (g.update s) a b c d e
    rw [List.foldl_cons, List.length_cons,
      show n + (rest.length + 1) = n + 1 + rest.length by omega]
    exact h

theorem rgbd_from_reset (symbols : List Symbol) :
    (symbols.foldl RGBDState.update RGBDState.reset).index = symbols.length % 2 ^ 64 ∧
    (symbols.foldl RGBDState.update RGBDState.reset).fib_n = Nat.fib symbols.length % 10 ∧
    (symbols.foldl RGBDState.update RGBDState.reset).fib_np1
      = Nat.fib (symbols.length + 1) % 10 ∧
    (∀ t x y, (symbols.foldl RGBDState.update RGBDState.reset).visits t x y ≤ 0xFFFF) ∧
    (∀ t x y, ((symbols.foldl RGBDState.update RGBDState.reset).visits t x y ≠ 0 ∨
        (symbols.foldl RGBDState.update RGBDState.reset).last_symbol t x y ≠ 0) →
      ∃ j, j < symbols.length ∧ t = (j % 2 ^ 64) % 60 ∧ x = Nat.fib j % 10 ∧
        y = Nat.fib (j + 1) % 10) := by
  have h := rgbd_foldl_inv symbols 0 RGBDState.reset rfl rfl rfl
    (fun _ _ _ => Nat.zero_le _)
    (fun t x y hne => by
      rcases hne with h | h
      · exact absurd rfl h
      · exact absurd rfl h)
  rw [Nat.zero_add] at h
  exact h

/-- C24: the reset state has all cells zero, `fib_n = 0`, `fib_np1 = 1`, `index = 0`.
After `n` calls of `update` from it, whatever the symbols, `index` is `n` (as a 64-bit
value: `n mod 2^64`, which is `n` for every `n < 2^64`),
`(fib_n, fib_np1) = (F(n) mod 10, F(n+1) mod 10)`, both at most 9, and every `visits` cell
is at most `0xFFFF`: a cell that holds `0xFFFF` is left at `0xFFFF` by `update`. -/
theorem C24_rgbd_state_invariant (symbols : List Symbol) :
    ((∀ t x y, RGBDState.reset.visits t x y = 0 ∧ RGBDState.reset.last_symbol t x y = 0) ∧
      RGBDState.reset.fib_n = 0 ∧ RGBDState.reset.fib_np1 = 1 ∧ RGBDState.reset.index = 0) ∧
    (symbols.foldl RGBDState.update RGBDState.reset).index = symbols.length % 2 ^ 64 ∧
    (symbols.length < 2 ^ 64 →
      (symbols.foldl RGBDState.update RGBDState.reset).index = symbols.length) ∧
    (symbols.foldl RGBDState.update RGBDState.reset).fib_n = Nat.fib symbols.length % 10 ∧
    (symbols.foldl RGBDState.update RGBDState.reset).fib_np1
      = Nat.fib (symbols.length + 1) % 10 ∧
    (symbols.foldl RGBDState.update RGBDState.reset).fib_n ≤ 9 ∧
    (symbols.foldl RGBDState.update RGBDState.reset).fib_np1 ≤ 9 ∧
    (∀ other : List Symbol, other.length = symbols.length →
      (other.foldl RGBDState.update RGBDState.reset).fib_n
        = (symbols.foldl RGBDState.update RGBDState.reset).fib_n ∧
      (other.foldl RGBDState.update RGBDState.reset).fib_np1
        = (symbols.foldl RGBDState.update RGBDState.reset).fib_np1 ∧
      (other.foldl RGBDState.update RGBDState.reset).index
        = (symbols.foldl RGBDState.update RGBDState.reset).index) ∧
    (∀ t x y, (symbols.foldl RGBDState.update RGBDState.reset).visits t x y ≤ 0xFFFF) ∧
    (∀ (g : RGBDState) (s : Symbol),
      g.visits (g.index % 60) (g.fib_n % 10) (g.fib_np1 % 10) = 0xFFFF →
      (g.update s).visits = g.visits) := by
  obtain ⟨hi, hf, hf1, hv, -⟩ := rgbd_from_reset symbols
  refine ⟨⟨fun _ _ _ => ⟨rfl, rfl⟩, rfl, rfl, rfl⟩, hi, ?_, hf, hf1, ?_, ?_, ?_, hv, ?_⟩
  · intro hlt
    rw [hi, Nat.mod_eq_of_lt hlt]
  · rw [hf]
    omega
  · rw [hf1]
    omega
  · intro other hlen
    obtain ⟨oi, of, of1, -, -⟩ := rgbd_from_reset other
    rw [oi, of, of1, hi, hf, hf1, hlen]
    exact ⟨rfl, rfl, rfl⟩
  · intro g s hfull
    show (if g.visits (g.index % 60) (g.fib_n % 10) (g.fib_np1 % 10) < 0xFFFF then
          set_cell g.visits (g.index % 60) (g.fib_n % 10) (g.fib_np1 % 10)
            (g.visits (g.index % 60) (g.fib_n % 10) (g.fib_np1 % 10) + 1)
        else g.visits) = g.visits
    rw [hfull, if_neg (Nat.lt_irrefl _)]

theorem sum_update_field {F : Type} [LinearOrderedField F] (P : Symbol → F) (sym : Symbol)
    (w : F) :
    (∑ k : Symbol, Function.update P sym (P sym + w) k) = (∑ k : Symbol, P k) + w := by
  rw [Finset.sum_update_of_mem (Finset.mem_univ sym),
    Finset.sum_eq_add_sum_diff_singleton (Finset.mem_univ sym) P]
  ring

/-- The body of `apply_bias` once its two early returns are passed. -/
theorem apply_bias_active {F : Type} [LinearOrderedField F] (opts : GlobalOptions F)
    (g : RGBDState) (Q : Symbol → F) (hu : opts.use_rgbd = true) (hi : g.index ≠ 0)
    (hv : g.visits (g.index % 60) (g.fib_n % 10) (g.fib_np1 % 10) ≠ 0) :
    g.apply_bias opts Q
      = if (∑ k : Symbol,
            Function.update Q (g.last_symbol (g.index % 60) (g.fib_n % 10) (g.fib_np1 % 10))
              (Q (g.last_symbol (g.index % 60) (g.fib_n % 10) (g.fib_np1 % 10))
                + opts.rgbd_phi_weight
                    * (g.visits (g.index % 60) (g.fib_n % 10) (g.fib_np1 % 10) : F)
                  / ((g.visits (g.index % 60) (g.fib_n % 10) (g.fib_np1 % 10) : F) + 10)) k) > 0
        then fun k =>
          Function.update Q (g.last_symbol (g.index % 60) (g.fib_n % 10) (g.fib_np1 % 10))
              (Q (g.last_symbol (g.index % 60) (g.fib_n % 10) (g.fib_np1 % 10))
                + opts.rgbd_phi_weight
                    * (g.visits (g.index % 60) (g.fib_n % 10) (g.fib_np1 % 10) : F)
                  / ((g.visits (g.index % 60) (g.fib_n % 10) (g.fib_np1 % 10) : F) + 10)) k
            / (∑ k : Symbol,
              Function.update Q (g.last_symbol (g.index % 60) (g.fib_n % 10) (g.fib_np1 % 10))
                (Q (g.last_symbol (g.index % 60) (g.fib_n % 10) (g.fib_np1 % 10))
                  + opts.rgbd_phi_weight
                      * (g.visits (g.index % 60) (g.fib_n % 10) (g.fib_np1 % 10) : F)
                    / ((g.visits (g.index % 60) (g.fib_n % 10) (g.fib_np1 % 10) : F) + 10)) k)
        else
          Function.update Q (g.last_symbol (g.index % 60) (g.fib_n % 10) (g.fib_np1 % 10))
            (Q (g.last_symbol (g.index % 60) (g.fib_n % 10) (g.fib_np1 % 10))
              + opts.rgbd_phi_weight
                  * (g.visits (g.index % 60) (g.fib_n % 10) (g.fib_np1 % 10) : F)
                / ((g.visits (g.index % 60) (g.fib_n % 10) (g.fib_np1 % 10) : F) + 10)) := by
  have hc : ¬ ((!opts.use_rgbd || g.index == 0) = true) := by
    rw [hu]
    simp [hi]
  unfold RGBDState.apply_bias
  rw [if_neg hc]
  simp only [if_neg hv]

theorem apply_bias_idle {F : Type} [LinearOrderedField F] (opts : GlobalOptions F)
    (g : RGBDState) (Q : Symbol → F)
    (h : opts.use_rgbd = false ∨ g.index = 0 ∨
      g.visits (g.index % 60) (g.fib_n % 10) (g.fib_np1 % 10) = 0) :
    g.apply_bias opts Q = Q := by
  unfold RGBDState.apply_bias
  by_cases hc : (!opts.use_rgbd || g.index == 0) = true
  · rw [if_pos hc]
  · rw [if_neg hc]
    rcases h with h | h | h
    · exfalso
      apply hc
      rw [h]
      rfl
    · exfalso
      apply hc
      rw [h]
      simp
    · simp only [h, if_true]

/-- C25: write `v` for the visit count and `sym` for the last symbol of the cell
`(index mod 60, fib_n mod 10, fib_np1 mod 10)` and `w = rgbd_phi_weight * v / (v + 10)`.
If `use_rgbd` is false, or `index = 0`, or `v = 0`, `apply_bias` returns its argument
unchanged. Otherwise it adds `w` to entry `sym` and, the new sum being positive, divides
every entry by the new sum; for `P` non-negative with sum 1 and a positive weight the
new sum is `1 + w > 0`, so every entry is divided and the result sums to 1 again. -/
theorem C25_apply_bias {F : Type} [LinearOrderedField F] (opts : GlobalOptions F)
    (g : RGBDState) (P : Symbol → F) (v : Nat) (sym : Symbol) (w : F)
    (hv : v = g.visits (g.index % 60) (g.fib_n % 10) (g.fib_np1 % 10))
    (hs : sym = g.last_symbol (g.index % 60) (g.fib_n % 10) (g.fib_np1 % 10))
    (hw : w = opts.rgbd_phi_weight * (v : F) / ((v : F) + 10)) :
    ((opts.use_rgbd = false ∨ g.index = 0 ∨ v = 0) →
      ∀ Q : Symbol → F, g.apply_bias opts Q = Q) ∧
    (opts.use_rgbd = true → g.index ≠ 0 → v ≠ 0 →
      (∀ Q : Symbol → F,
        g.apply_bias opts Q
          = if (∑ k : Symbol, Function.update Q sym (Q sym + w) k) > 0 then
              fun k => Function.update Q sym (Q sym + w) k
                / (∑ k : Symbol, Function.update Q sym (Q sym + w) k)
            else Function.update Q sym (Q sym + w)) ∧
      ((∀ k, 0 ≤ P k) → (∑ k : Symbol, P k) = 1 → 0 < opts.rgbd_phi_weight →
        0 < w ∧
        (∑ k : Symbol, Function.update P sym (P sym + w) k) = 1 + w ∧
        (∀ k, g.apply_bias opts P k = Function.update P sym (P sym + w) k / (1 + w)) ∧
        g.apply_bias opts P sym = (P sym + w) / (1 + w) ∧
        (∀ k, k ≠ sym → g.apply_bias opts P k = P k / (1 + w)) ∧
        (∑ k : Symbol, g.apply_bias opts P k) = 1)) := by
  subst hv hs hw
  constructor
  · intro h Q
    exact apply_bias_idle opts g Q h
  · intro hu hi hv0
    have hact := fun Q : Symbol → F => apply_bias_active opts g Q hu hi hv0
    refine ⟨hact, ?_⟩
    intro _ hsum hweight
    have hvpos : (0 : F) < (g.visits (g.index % 60) (g.fib_n % 10) (g.fib_np1 % 10) : F) :=
      Nat.cast_pos.mpr (Nat.pos_of_ne_zero hv0)
    have hwpos : 0 < opts.rgbd_phi_weight
        * (g.visits (g.index % 60) (g.fib_n % 10) (g.fib_np1 % 10) : F)
        / ((g.visits (g.index % 60) (g.fib_n % 10) (g.fib_np1 % 10) : F) + 10) :=
      div_pos (mul_pos hweight hvpos) (by linarith)
    rw [hact P]
    generalize opts.rgbd_phi_weight
        * (g.visits (g.index % 60) (g.fib_n % 10) (g.fib_np1 % 10) : F)
        / ((g.visits (g.index % 60) (g.fib_n % 10) (g.fib_np1 % 10) : F) + 10) = w at hwpos
    generalize g.last_symbol (g.index % 60) (g.fib_n % 10) (g.fib_np1 % 10) = sym
    have hs1 : (∑ k : Symbol, Function.update P sym (P sym + w) k) = 1 + w := by
      rw [sum_update_field, hsum]
    have h1w : (0 : F) < 1 + w := by linarith
    rw [hs1, if_pos h1w]
    refine ⟨hwpos, rfl, fun _ => rfl, ?_, ?_, ?_⟩
    · show Function.update P sym (P sym + w) sym / (1 + w) = _
      rw [Function.update_same]
    · intro k hk
      show Function.update P sym (P sym + w) k / (1 + w) = _
      rw [Function.update_noteq hk]
    · show (∑ k : Symbol, Function.update P sym (P sym + w) k / (1 + w)) = 1
      rw [← Finset.sum_div, hs1]
      exact div_self (ne_of_gt h1w)

/-- Witness for C25: RGBD on with weight `3/20`, a state with `index = 1` whose cells all
hold one visit of `'A'`, and the uniform vector. -/
theorem C25_apply_bias_witness :
    (∑ k : Symbol,
      (⟨fun _ _ _ => 1, fun _ _ _ => 0x41, 1, 1, 1⟩ : RGBDState).apply_bias
        (⟨true, 3 / 20⟩ : GlobalOptions ℚ) (fun _ => 1 / 256) k) = 1 :=
  ((C25_apply_bias (⟨true, 3 / 20⟩ : GlobalOptions ℚ)
      (⟨fun _ _ _ => 1, fun _ _ _ => 0x41, 1, 1, 1⟩ : RGBDState) (fun _ => 1 / 256)
      1 0x41 ((3 / 20 : ℚ) * ((1 : Nat) : ℚ) / (((1 : Nat) : ℚ) + 10)) rfl rfl rfl).2
    rfl (by decide) (by decide)).2
    (fun _ => by norm_num)
    (by rw [Finset.sum_const, Finset.card_univ, Fintype.card_fin]; norm_num)
    (by show (0 : ℚ) < 3 / 20; norm_num) |>.2.2.2.2.2

/-- In every iteration the width is at most `2^63`, the subtraction does not wrap and the
shift drops no set bit: the shifted values are below `2^63`. -/
theorem renormalize_no_loss (low high : Nat) (hlh : low ≤ high) (hhigh : high < 2 ^ 64) :
    (high < HALF →
      high - low + 1 ≤ 2 ^ 63 ∧ shl64 low = 2 * low ∧ (shl64 high ||| 1) = 2 * high + 1) ∧
    (HALF ≤ low →
      high - low + 1 ≤ 2 ^ 63 ∧ sub64 low HALF = low - HALF ∧ sub64 high HALF = high - HALF ∧
      high - HALF < 2 ^ 63 ∧ shl64 (sub64 low HALF) = 2 * (low - HALF) ∧
      (shl64 (sub64 high HALF) ||| 1) = 2 * (high - HALF) + 1) ∧
    (FIRST_QUARTER ≤ low ∧ high < THIRD_QUARTER →
      high - low + 1 ≤ 2 ^ 63 ∧ sub64 low FIRST_QUARTER = low - FIRST_QUARTER ∧
      sub64 high FIRST_QUARTER = high - FIRST_QUARTER ∧ high - FIRST_QUARTER < 2 ^ 63 ∧
      shl64 (sub64 low FIRST_QUARTER) = 2 * (low - FIRST_QUARTER) ∧
      (shl64 (sub64 high FIRST_QUARTER) ||| 1) = 2 * (high - FIRST_QUARTER) + 1) := by
  simp only [shl64_or_one]
  simp only [shl64_eq]
  unfold sub64 HALF FIRST_QUARTER THIRD_QUARTER
  refine ⟨fun h => ?_, fun h => ?_, fun h => ?_⟩ <;> omega

/-- C28: from every coder state with `low ≤ high` (64-bit values) the renormalisation
loop of `encode` and the one of `decode` exit after at most 64 iterations (65 units of
fuel, one for the exit test), and more precisely within `n` iterations whenever
`(high - low + 1) * 2^(n+1) > 2^64`. An iteration (E1, E2 or E3) is taken only while the
width `high - low + 1` is at most `2^63`; it doubles the width; its subtraction does not
wrap and its shift drops no set top bit of `low` or `high` (`low` becomes twice the
value, `high` twice the value plus 1). -/
theorem C28_renormalisation_terminates (c : ArithmeticCoder) (hlh : c.low ≤ c.high)
    (hhigh : c.high < 2 ^ 64) :
    (∃ c1, encode_renormalize (64 + 1) c = some c1) ∧
    (∃ c2, decode_renormalize (64 + 1) c = some c2) ∧
    (∀ n : Nat, 2 ^ 64 < (c.high - c.low + 1) * 2 ^ (n + 1) →
      (∃ c1, encode_renormalize (n + 1) c = some c1) ∧
      (∃ c2, decode_renormalize (n + 1) c = some c2)) ∧
    (c.high < HALF →
      c.high - c.low + 1 ≤ 2 ^ 63 ∧ shl64 c.low = 2 * c.low ∧
      (shl64 c.high ||| 1) = 2 * c.high + 1 ∧
      (shl64 c.high ||| 1) - shl64 c.low + 1 = 2 * (c.high - c.low + 1)) ∧
    (HALF ≤ c.low →
      c.high - c.low + 1 ≤ 2 ^ 63 ∧ sub64 c.low HALF = c.low - HALF ∧
      sub64 c.high HALF = c.high - HALF ∧
      shl64 (sub64 c.low HALF) = 2 * (c.low - HALF) ∧
      (shl64 (sub64 c.high HALF) ||| 1) = 2 * (c.high - HALF) + 1 ∧
      (shl64 (sub64 c.high HALF) ||| 1) - shl64 (sub64 c.low HALF) + 1
        = 2 * (c.high - c.low + 1)) ∧
    (FIRST_QUARTER ≤ c.low ∧ c.high < THIRD_QUARTER →
      c.high - c.low + 1 ≤ 2 ^ 63 ∧ sub64 c.low FIRST_QUARTER = c.low - FIRST_QUARTER ∧
      sub64 c.high FIRST_QUARTER = c.high - FIRST_QUARTER ∧
      shl64 (sub64 c.low FIRST_QUARTER) = 2 * (c.low - FIRST_QUARTER) ∧
      (shl64 (sub64 c.high FIRST_QUARTER) ||| 1) = 2 * (c.high - FIRST_QUARTER) + 1 ∧
      (shl64 (sub64 c.high FIRST_QUARTER) ||| 1) - shl64 (sub64 c.low FIRST_QUARTER) + 1
        = 2 * (c.high - c.low + 1)) := by
  have hreturns : ∀ n : Nat, 2 ^ 64 < (c.high - c.low + 1) * 2 ^ (n + 1) →
      (∃ c1, encode_renormalize (n + 1) c = some c1) ∧
      (∃ c2, decode_renormalize (n + 1) c = some c2) := by
    intro n hn
    obtain ⟨c1, hc1, -⟩ := encode_renormalize_post (n + 1) c hlh hhigh hn
    obtain ⟨c2, hc2, -⟩ := (decode_of_encode_renormalize (n + 1) c).2 c1 hc1
    exact ⟨⟨c1, hc1⟩, ⟨c2, hc2⟩⟩
  obtain ⟨d1, d2, d3⟩ := renormalize_iteration c.low c.high hlh hhigh
  obtain ⟨n1, n2, n3⟩ := renormalize_no_loss c.low c.high hlh hhigh
  have h64 := hreturns 64 (renorm_fuel_enough c)
  refine ⟨h64.1, h64.2, hreturns, ?_, ?_, ?_⟩
  · intro h
    obtain ⟨a, b, e⟩ := n1 h
    exact ⟨a, b, e, (d1 h).2.2⟩
  · intro h
    obtain ⟨a, b, e, -, f, k⟩ := n2 h
    exact ⟨a, b, e, f, k, (d2 h).2.2⟩
  · intro h
    obtain ⟨a, b, e, -, f, k⟩ := n3 h
    exact ⟨a, b, e, f, k, (d3 h).2.2⟩

/-- Witness for C28: a state of width 1, which needs all 64 iterations. -/
theorem C28_renormalisation_terminates_witness :
    ∃ c1, encode_renormalize (64 + 1) ⟨5, 5, 0, 0, [], [], 0⟩ = some c1 :=
  (C28_renormalisation_terminates ⟨5, 5, 0, 0, [], [], 0⟩ (Nat.le_refl 5) (by decide)).1

/-! ## The surplus branch of the quantizer and the size of the adjustment -/

/-- The surplus loop never raises a count. -/
theorem remove_surplus_le (idx : List Symbol) :
    ∀ (fuel : Nat) (freq : Symbol → Nat) (over k : Nat) (freq1 : Symbol → Nat),
      remove_surplus idx fuel freq over k = some freq1 → ∀ s, freq1 s ≤ freq s := by
  intro fuel
  induction fuel with
  | zero =>
    intro freq over k freq1 h s
    cases over with
    | zero =>
      rw [remove_surplus] at h
      injection h with h
      rw [← h]
    | succ over =>
      rw [remove_surplus] at h
      exact absurd h (by simp)
  | succ fuel ih =>
    intro freq over k freq1 h s
    cases over with
    | zero =>
      rw [remove_surplus] at h
      injection h with h
      rw [← h]
    | succ over =>
      rw [remove_surplus] at h
      by_cases hgt : freq (idx.getD (k % 256) 0) > 1
      · rw [if_pos hgt] at h
        have h1 := ih _ over (k + 1) freq1 h s
        by_cases hs : s = idx.getD (k % 256) 0
        · rw [hs, Function.update_same] at h1
          rw [hs]
          omega
        · rw [Function.update_noteq hs] at h1
          exact h1
      · rw [if_neg hgt] at h
        exact ih freq (over + 1) (k + 1) freq1 h s

/-- In the surplus case `quantize` returns what the surplus loop returns. -/
theorem quantize_surplus {F : Type} [LinearOrderedField F] [FloorRing F] (P : Symbol → F)
    (hS : TOTAL_FREQ < ∑ k : Symbol, base_freq (floor_and_renormalize P) k) :
    quantize P = remove_surplus (sort_frac_ascending (frac_of (floor_and_renormalize P)))
      (256 * ((∑ k : Symbol, base_freq (floor_and_renormalize P) k) - TOTAL_FREQ))
      (base_freq (floor_and_renormalize P))
      ((∑ k : Symbol, base_freq (floor_and_renormalize P) k) - TOTAL_FREQ) 0 := by
  have hbound := sum_base_freq_le P
  unfold quantize
  simp only
  generalize (∑ k : Symbol, base_freq (floor_and_renormalize P) k) = S at hbound hS
  have hmod : S % 2 ^ 32 = S := Nat.mod_eq_of_lt (by omega)
  rw [hmod, if_neg (by omega), if_pos hS]

/-- The base counts exceed `TOTAL_FREQ` by less than 256. -/
theorem surplus_lt_256 {F : Type} [LinearOrderedField F] [FloorRing F] (P : Symbol → F) :
    (∑ k : Symbol, base_freq (floor_and_renormalize P) k) < TOTAL_FREQ + 256 := by
  have hk : ∀ k : Symbol, ((base_freq (floor_and_renormalize P) k : Nat) : F)
      < raw_value (floor_and_renormalize P) k + 1 := by
    intro k
    have hb := floor_and_renormalize_bounds P k
    have hT : (0 : F) < ((TOTAL_FREQ : Nat) : F) := Nat.cast_pos.mpr (by decide)
    have hrawpos : 0 < raw_value (floor_and_renormalize P) k := by
      unfold raw_value
      exact mul_pos hb.1 hT
    have hraw : raw_value (floor_and_renormalize P) k ≤ ((65536 : Nat) : F) := by
      unfold raw_value TOTAL_FREQ
      have h65 : (0 : F) ≤ ((65536 : Nat) : F) := Nat.cast_nonneg _
      calc floor_and_renormalize P k * ((65536 : Nat) : F)
          ≤ 1 * ((65536 : Nat) : F) := mul_le_mul_of_nonneg_right hb.2 h65
        _ = ((65536 : Nat) : F) := one_mul _
    have hfloor : ⌊raw_value (floor_and_renormalize P) k⌋₊ ≤ 65536 := Nat.floor_le_of_le hraw
    have hfl : ((⌊raw_value (floor_and_renormalize P) k⌋₊ : Nat) : F)
        ≤ raw_value (floor_and_renormalize P) k := Nat.floor_le (le_of_lt hrawpos)
    by_cases h0 : ⌊raw_value (floor_and_renormalize P) k⌋₊ = 0
    · have hb1 : base_freq (floor_and_renormalize P) k = 1 := by
        unfold base_freq
        simp only
        rw [h0]
        rfl
      rw [hb1, Nat.cast_one]
      linarith
    · have hb1 : base_freq (floor_and_renormalize P) k
          = ⌊raw_value (floor_and_renormalize P) k⌋₊ := by
        unfold base_freq
        simp only
        split_ifs with h <;> omega
      rw [hb1]
      linarith
  have hsum : (∑ k : Symbol, ((base_freq (floor_and_renormalize P) k : Nat) : F))
      < ∑ k : Symbol, (raw_value (floor_and_renormalize P) k + 1) :=
    Finset.sum_lt_sum_of_nonempty ⟨0, Finset.mem_univ _⟩ (fun k _ => hk k)
  have hraw : (∑ k : Symbol, (raw_value (floor_and_renormalize P) k + 1))
      = ((TOTAL_FREQ + 256 : Nat) : F) := by
    rw [Finset.sum_add_distrib, Finset.sum_const, Finset.card_univ, Fintype.card_fin]
    unfold raw_value
    rw [← Finset.sum_mul, floor_and_renormalize_sum, one_mul]
    push_cast
    simp
  rw [hraw, ← Nat.cast_sum] at hsum
  exact Nat.cast_lt.mp hsum

/-- C29: when the base counts sum to `S > TOTAL_FREQ`, the surplus loop of the quantizer
(the same in `encode` and in `decode`) terminates within `256 * (S - T)` iterations: as
long as units remain to be removed the counts sum to more than 256, so some count exceeds
1. The counts it returns are at least 1, none is above its base count, they sum to
`TOTAL_FREQ`, and the units removed add up to exactly `S - T`. -/
theorem C29_surplus_loop {F : Type} [LinearOrderedField F] [FloorRing F] (P : Symbol → F)
    (hS : TOTAL_FREQ < ∑ k : Symbol, base_freq (floor_and_renormalize P) k) :
    ∃ freq,
      remove_surplus (sort_frac_ascending (frac_of (floor_and_renormalize P)))
        (256 * ((∑ k : Symbol, base_freq (floor_and_renormalize P) k) - TOTAL_FREQ))
        (base_freq (floor_and_renormalize P))
        ((∑ k : Symbol, base_freq (floor_and_renormalize P) k) - TOTAL_FREQ) 0 = some freq ∧
      quantize P = some freq ∧ decode_quantize P = some freq ∧
      (∀ s, 1 ≤ freq s) ∧ (∀ s, freq s ≤ base_freq (floor_and_renormalize P) s) ∧
      (∑ s : Symbol, freq s) = TOTAL_FREQ ∧
      (∑ s : Symbol, (base_freq (floor_and_renormalize P) s - freq s))
        = (∑ k : Symbol, base_freq (floor_and_renormalize P) k) - TOTAL_FREQ ∧
      (∀ (f : Symbol → Nat) (over : Nat), 0 < over →
        (∑ s : Symbol, f s) = TOTAL_FREQ + over → ∃ s, 1 < f s) := by
  have hq := quantize_surplus P hS
  obtain ⟨freq, hfreq, hpos, hsum⟩ := remove_surplus_spec
    (sort_frac_ascending (frac_of (floor_and_renormalize P))) (insertionSort_covers _)
    ((∑ k : Symbol, base_freq (floor_and_renormalize P) k) - TOTAL_FREQ)
    (256 * ((∑ k : Symbol, base_freq (floor_and_renormalize P) k) - TOTAL_FREQ))
    (base_freq (floor_and_renormalize P)) 0 TOTAL_FREQ
    (fun s => (base_freq_bounds P s).1) (by omega) (by decide) (Nat.le_refl _)
  have hle := remove_surplus_le _ _ _ _ _ freq hfreq
  refine ⟨freq, hfreq, ?_, ?_, hpos, hle, hsum, ?_, ?_⟩
  · rw [hq]
    exact hfreq
  · rw [decode_quantize_eq, hq]
    exact hfreq
  · rw [Finset.sum_tsub_distrib _ (fun s _ => hle s), hsum]
  · intro f over hover hf
    apply exists_gt_one_of_sum_gt
    rw [hf]
    unfold TOTAL_FREQ
    omega

/-- Witness for C29: the prediction `130817/2, 1/2, ..., 1/2` over the rationals, whose
base counts `65408, 1, ..., 1` sum to `65663`. -/
theorem C29_surplus_loop_witness :
    ∃ freq, quantize (fun k : Symbol => if k = 0 then (130817 : ℚ) / 2 else 1 / 2) = some freq ∧
      (∑ s : Symbol, freq s) = TOTAL_FREQ := by
  have hnorm : floor_and_renormalize (fun k : Symbol => if k = 0 then (130817 : ℚ) / 2 else 1 / 2)
      = fun k : Symbol => if k = 0 then (130817 : ℚ) / 131072 else 1 / 131072 := by
    have hfl : (fun k : Symbol =>
        if (if k = 0 then (130817 : ℚ) / 2 else 1 / 2) ≤ 0 then (1 : ℚ) / 10 ^ 12
        else (if k = 0 then (130817 : ℚ) / 2 else 1 / 2))
        = fun k : Symbol => if k = 0 then (130817 : ℚ) / 2 else 1 / 2 := by
      funext k
      by_cases h : k = 0
      · simp only [if_pos h]
        norm_num
      · simp only [if_neg h]
        norm_num
    unfold floor_and_renormalize
    simp only
    rw [hfl, sum_ite_zero]
    norm_num
    funext k
    by_cases h : k = 0
    · simp only [if_pos h]
      norm_num
    · simp only [if_neg h]
      norm_num
  have hbase : ∀ k : Symbol,
      base_freq (floor_and_renormalize
        (fun k : Symbol => if k = 0 then (130817 : ℚ) / 2 else 1 / 2)) k
        = if k = 0 then 65408 else 1 := by
    intro k
    rw [hnorm]
    unfold base_freq raw_value TOTAL_FREQ
    by_cases h : k = 0
    · simp only [if_pos h]
      have hf : ⌊(130817 : ℚ) / 131072 * ((65536 : Nat) : ℚ)⌋₊ = 65408 := by
        rw [Nat.floor_eq_iff (by norm_num)]
        constructor <;> norm_num
      rw [hf]
      rfl
    · simp only [if_neg h]
      have hf : ⌊(1 : ℚ) / 131072 * ((65536 : Nat) : ℚ)⌋₊ = 0 := by
        rw [Nat.floor_eq_zero]
        norm_num
      rw [hf]
      rfl
  have hS : TOTAL_FREQ < ∑ k : Symbol,
      base_freq (floor_and_renormalize
        (fun k : Symbol => if k = 0 then (130817 : ℚ) / 2 else 1 / 2)) k := by
    rw [Finset.sum_congr rfl (fun k _ => hbase k), sum_ite_zero]
    decide
  obtain ⟨freq, -, h1, -, -, -, h2, -⟩ :=
    C29_surplus_loop (fun k : Symbol => if k = 0 then (130817 : ℚ) / 2 else 1 / 2) hS
  exact ⟨freq, h1, h2⟩

/-- C30: for every input vector, after the floor step and the exact normalisation to
sum 1, the sum `S` of the base counts `max(1, ⌊P[k] * T⌋)` satisfies
`T - 255 ≤ S ≤ T + 255`. So in the deficit branch `rem = T - S ≤ 255`, the index
`k mod 256` of the loop is `k` itself (no wraparound), and every symbol receives at most
one extra unit. -/
theorem C30_adjustment_bounded {F : Type} [LinearOrderedField F] [FloorRing F]
    (P : Symbol → F) :
    TOTAL_FREQ - 255 ≤ (∑ k : Symbol, base_freq (floor_and_renormalize P) k) ∧
    (∑ k : Symbol, base_freq (floor_and_renormalize P) k) ≤ TOTAL_FREQ + 255 ∧
    ((∑ k : Symbol, base_freq (floor_and_renormalize P) k) < TOTAL_FREQ →
      TOTAL_FREQ - (∑ k : Symbol, base_freq (floor_and_renormalize P) k) ≤ 255 ∧
      (∀ k : Nat, k < TOTAL_FREQ - (∑ k : Symbol, base_freq (floor_and_renormalize P) k) →
        k % 256 = k) ∧
      ∃ freq, quantize P = some freq ∧
        freq = distribute_deficit (sort_frac_descending (frac_of (floor_and_renormalize P)))
          (TOTAL_FREQ - ∑ k : Symbol, base_freq (floor_and_renormalize P) k)
          (base_freq (floor_and_renormalize P)) ∧
        ∀ s, base_freq (floor_and_renormalize P) s ≤ freq s ∧
          freq s ≤ base_freq (floor_and_renormalize P) s + 1) := by
  have hlow := deficit_lt_256 P
  have hup := surplus_lt_256 P
  refine ⟨by omega, by omega, ?_⟩
  intro hS
  refine ⟨by omega, fun k hk => Nat.mod_eq_of_lt (by omega), _, quantize_deficit P hS, rfl, ?_⟩
  intro s
  exact ⟨(distribute_deficit_spec _ _ _).2 s,
    distribute_deficit_le_succ _ (sort_frac_descending_nodup _) (sort_frac_descending_length _)
      _ s _ (by omega)⟩

end core
end phicomp
